import Mathlib

/-!
# OpenTTD `fileio.cpp`: search paths, tar index and file resolution

A shallow embedding of the tar-backed virtual file system of `src/fileio.cpp`.

Conventions of the embedding.

* A C string (`char *`, `std::string`, `sstring<N>`) is a `List Char`; a C `char` is a
  `Char`.  The path buffers of `MAX_PATH` bytes (in `FioFOpenFileSp` and in
  `TarCache::extract`) cut what does not fit, see `bstrcpy`, `sstring_fmt` and
  `sstring_append`.  The buffers `name`, `link` and `dest` of `TarCache::add` are sized
  for the fields of a header (see `link_destination_fits`), and the buffer `resolved_name`
  of `FioFOpenFile` for two names and a link of a header; they are plain lists.
* A `std::map<std::string, T>` is the list of its (key, value) pairs in iteration order,
  that is in increasing key order; `StdMap.find` and `StdMap.insert` are `find` and
  `insert` of `std::map`.
* The operating system is a parameter: `Disk.fopen` says which `fopen` calls succeed and
  what the opened file holds, `Disk.readdir` what a directory walk enumerates.
* The build embedded is the one without `WIN32`: `PATHSEPCHAR` is `'/'`, and
  `unsigned long`, `size_t` and `long` have 64 bits.
-/

namespace OpenTTD

/-! ## Strings -/

/-- A C string without its terminating NUL. -/
abbrev Str := List Char

/-- The path separator character of the platform. -/
def PATHSEPCHAR : Char := '/'

/-- The function `tolower` of the C locale on one `char`. -/
def tolower (c : Char) : Char :=
  if 65 ≤ c.toNat ∧ c.toNat ≤ 90 then Char.ofNat (c.toNat + 32) else c

/-- The string that `strtolower` leaves in its buffer (it returns whether the buffer
changed, see `strtolower_changed`). -/
def strtolower (s : Str) : Str := s.map tolower

/-- The return value of `strtolower(s)`: true when at least one character changed. -/
def strtolower_changed (s : Str) : Bool := decide (strtolower s ≠ s)

/-! ## `std::map` keyed by strings -/

/-- A `std::map<std::string, α>`: its pairs in iteration (increasing key) order. -/
abbrev StdMap (α : Type) := List (Str × α)

/-- The call `m.find(k)`: the value stored under `k`, `none` for `m.end()`. -/
def StdMap.find {α : Type} : StdMap α → Str → Option α
  | [], _ => none
  | (k', v) :: rest, k => if k' = k then some v else StdMap.find rest k

/-- The place of a new pair in the key order: before the first pair with a greater key. -/
def StdMap.place {α : Type} : StdMap α → Str → α → StdMap α
  | [], k, v => [(k, v)]
  | (k', v') :: rest, k, v =>
    if k < k' then (k, v) :: (k', v') :: rest else (k', v') :: StdMap.place rest k v

/-- The call `m.insert(value_type(k, v))`: the map afterwards and `.second`.  When the key
is already present the map is left as it was and `.second` is false; otherwise the pair
is put at its place in the key order and `.second` is true. -/
def StdMap.insert {α : Type} (m : StdMap α) (k : Str) (v : α) : StdMap α × Bool :=
  match StdMap.find m k with
  | some _ => (m, false)
  | none => (StdMap.place m k v, true)

/-- The keys of a map, in iteration order. -/
def StdMap.keys {α : Type} (m : StdMap α) : List Str := m.map Prod.fst

/-- Well-formedness of a `std::map`: the keys are strictly increasing. -/
def StdMap.WF {α : Type} (m : StdMap α) : Prop := (StdMap.keys m).Pairwise (fun a b => a < b)

/-! ## The tar index -/

/-- The subdirectories (categories) of `fileio_type.h`, in the order of the table
`_subdirs`; `NO_DIRECTORY` is the value after `NUM_SUBDIRS`. -/
inductive Subdirectory
  | BASE_DIR | SAVE_DIR | AUTOSAVE_DIR | SCENARIO_DIR | HEIGHTMAP_DIR | OLD_GM_DIR
  | OLD_DATA_DIR | BASESET_DIR | NEWGRF_DIR | LANG_DIR | AI_DIR | AI_LIBRARY_DIR
  | GAME_DIR | GAME_LIBRARY_DIR | SCREENSHOT_DIR | NO_DIRECTORY
deriving DecidableEq, Repr

open Subdirectory

/-- The table `_subdirs`; `NO_DIRECTORY` has no row (it is never indexed with it). -/
def _subdirs : Subdirectory → Str
  | BASE_DIR => []
  | SAVE_DIR => "save/".toList
  | AUTOSAVE_DIR => "save/autosave/".toList
  | SCENARIO_DIR => "scenario/".toList
  | HEIGHTMAP_DIR => "scenario/heightmap/".toList
  | OLD_GM_DIR => "gm/".toList
  | OLD_DATA_DIR => "data/".toList
  | BASESET_DIR => "baseset/".toList
  | NEWGRF_DIR => "newgrf/".toList
  | LANG_DIR => "lang/".toList
  | AI_DIR => "ai/".toList
  | AI_LIBRARY_DIR => "ai/library/".toList
  | GAME_DIR => "game/".toList
  | GAME_LIBRARY_DIR => "game/library/".toList
  | SCREENSHOT_DIR => "screenshot/".toList
  | NO_DIRECTORY => []

/-- The struct `TarFileListEntry`: a member of an archive. -/
structure TarFileListEntry where
  tar_filename : Str
  size : Nat
  position : Nat
deriving DecidableEq, Repr

/-- The struct `TarListEntry`: a scanned archive, `dirname` NULL is `none`. -/
structure TarListEntry where
  filename : Str
  dirname : Option Str
deriving DecidableEq, Repr

/-- The struct `TarCache`: the index of one subdirectory. -/
structure TarCache where
  tars : StdMap TarListEntry
  files : StdMap TarFileListEntry
  links : StdMap Str
deriving DecidableEq, Repr

/-- The index after construction: three empty maps. -/
def TarCache.empty : TarCache := ⟨[], [], []⟩

/-! ## The operating system -/

/-- What the code sees of the file system.  `fopen path mode` is `none` when
`fopen(path, mode)` returns NULL and otherwise the bytes of the opened file; `readdir dir`
lists the paths of the regular files that `ScanPath` meets under `dir`, in the order in
which its recursive walk meets them. -/
structure Disk where
  fopen : Str → Str → Option (List Char)
  readdir : Str → List Str

/-- An open `FILE *`, by the way it was obtained: a plain file opened at its start, or a
member of an archive (the archive opened and positioned at the member's offset). -/
inductive FILE
  | plain (path : Str) (mode : Str)
  | member (entry : TarFileListEntry)
deriving DecidableEq, Repr

/-- The global variables that the file resolution reads: the array `_searchpaths` (an
entry NULL is `none`, the index is the `Searchpath` value), the flag
`_do_scan_working_directory` and the `Searchpath` value `SP_WORKING_DIR`, whose enum
(`fileio_type.h`) is not among the sources. -/
structure Globals where
  _searchpaths : List (Option Str)
  _do_scan_working_directory : Bool
  SP_WORKING_DIR : Nat

/-- The valid entries of an array of search paths whose first index is `i`. -/
def valid_searchpaths : Nat → List (Option Str) → List (Nat × Str)
  | _, [] => []
  | i, none :: rest => valid_searchpaths (i + 1) rest
  | i, some p :: rest => (i, p) :: valid_searchpaths (i + 1) rest

/-- Modelled from the spec: the macro `FOR_ALL_SEARCHPATHS` of `fileio_func.h`, which is
not among the sources.  It visits the `Searchpath` values in their fixed order and skips
those whose entry of `_searchpaths` is NULL; the result lists the visited values with
their paths.  The macro does not read `_do_scan_working_directory`: the loops of
`fileio.cpp` that honour the flag (`FileScanner::Scan`, `DeterminePaths`) test it
themselves in their body. -/
def FOR_ALL_SEARCHPATHS (g : Globals) : List (Nat × Str) :=
  valid_searchpaths 0 g._searchpaths

/-! ## Opening files -/

/-- Modelled from the spec: the constant `MAX_PATH` of `stdafx.h`, which is not among the
sources: the size in bytes of the buffers that hold a path, 260. -/
def MAX_PATH : Nat := 260

/-- Modelled from the spec: the templates `bstrcpy` and `bstrfmt` of `string.h`, which is
not among the sources, on a buffer `char buf[size]`: the string `s` (for `bstrfmt` the
formatted string) is copied up to the room of the buffer, which holds `size - 1`
characters before its final NUL; what does not fit is cut. -/
def bstrcpy (size : Nat) (s : Str) : Str := s.take (size - 1)

/-- The function `FioFOpenFileSp`: the handle and the value stored in `*filesize`.  The
path is built in `char buf[MAX_PATH]`. -/
def FioFOpenFileSp (disk : Disk) (filename mode : Str) (sp : Str) (subdir : Subdirectory) :
    Option (FILE × Nat) :=
  let buf := bstrcpy MAX_PATH
    (if subdir = NO_DIRECTORY then filename else sp ++ _subdirs subdir ++ filename)
  match disk.fopen buf mode with
  | some bytes => some (FILE.plain buf mode, bytes.length)
  | none =>
    let keep := if subdir = NO_DIRECTORY then 0 else sp.length - 1
    let low := buf.take keep ++ strtolower (buf.drop keep)
    if strtolower_changed (buf.drop keep) then
      match disk.fopen low mode with
      | some bytes => some (FILE.plain low mode, bytes.length)
      | none => none
    else none

/-- The function `FioFOpenFileTar`; the seek fails when the offset is negative as a
`long`. -/
def FioFOpenFileTar (disk : Disk) (entry : TarFileListEntry) : Option (FILE × Nat) :=
  match disk.fopen entry.tar_filename "rb".toList with
  | none => none
  | some _ => if 2 ^ 63 ≤ entry.position then none else some (FILE.member entry, entry.size)

/-- The first loop of `FioFOpenFile` over the search paths still to visit: it stops at
the first path whose open succeeds, and, for `NO_DIRECTORY`, after one path. -/
def FioFOpenFile_searchpaths (disk : Disk) (filename mode : Str) (subdir : Subdirectory) :
    List (Nat × Str) → Option (FILE × Nat)
  | [] => none
  | sp :: rest =>
    match FioFOpenFileSp disk filename mode sp.2 subdir with
    | some f => some f
    | none => if subdir = NO_DIRECTORY then none
              else FioFOpenFile_searchpaths disk filename mode subdir rest

/-- The condition under which `FioFOpenFile` applies the link with source `src` to
`resolved_name`.  For an empty `src` the source reads `resolved_name[-1]`; the embedding
takes the test to fail there (no key of `links` is empty). -/
def link_applies (src resolved_name : Str) : Bool :=
  decide (resolved_name.length ≥ src.length) && decide (src.length ≠ 0) &&
    decide (resolved_name.get? (src.length - 1) = some PATHSEPCHAR) &&
    decide (src = resolved_name.take src.length)

/-- The loop `Resolve ONE directory link` of `FioFOpenFile` over the links still to
visit: the name after it. -/
def resolve_one_link (resolved_name : Str) : StdMap Str → Str
  | [] => resolved_name
  | (src, dst) :: rest =>
    if link_applies src resolved_name then dst ++ resolved_name.drop src.length
    else resolve_one_link resolved_name rest

/-- The tar block of `FioFOpenFile`: the entry of `files` that the iterator `it` points
to, `none` for `files.end()`. -/
def FioFOpenFile_tar_entry (tc : TarCache) (filename : Str) : Option TarFileListEntry :=
  StdMap.find tc.files (resolve_one_link (strtolower filename) tc.links)

/-- The function `FioFOpenFile`, with the nesting depth of its recursive calls bounded by
`depth` (at depth 0 nothing is opened). -/
def FioFOpenFile_depth (disk : Disk) (g : Globals)
    (cache : Subdirectory → TarCache) :
    Nat → Str → Str → Subdirectory → Option (FILE × Nat)
  | 0, _, _, _ => none
  | depth + 1, filename, mode, subdir =>
    let f := FioFOpenFile_searchpaths disk filename mode subdir
      (FOR_ALL_SEARCHPATHS g)
    let f :=
      if f = none ∧ mode.head? = some 'r' ∧ subdir ≠ NO_DIRECTORY then
        match FioFOpenFile_tar_entry (cache subdir) filename with
        | some entry => FioFOpenFileTar disk entry
        | none => f
      else f
    if f = none ∧ subdir ≠ NO_DIRECTORY then
      match subdir with
      | BASESET_DIR =>
        match FioFOpenFile_depth disk g cache depth filename mode OLD_GM_DIR with
        | some g => some g
        | none => FioFOpenFile_depth disk g cache depth filename mode OLD_DATA_DIR
      | NEWGRF_DIR => FioFOpenFile_depth disk g cache depth filename mode OLD_DATA_DIR
      | _ => FioFOpenFile_depth disk g cache depth filename mode NO_DIRECTORY
    else f

/-- The function `FioFOpenFile`: a call nests at most two recursive calls, so depth 3
covers every call. -/
def FioFOpenFile (disk : Disk) (g : Globals)
    (cache : Subdirectory → TarCache) (filename mode : Str) (subdir : Subdirectory) :
    Option (FILE × Nat) :=
  FioFOpenFile_depth disk g cache 3 filename mode subdir

/-! ## Scanning an archive -/

/-- The string that `"%.*s"` with the width of the field prints from a NUL-padded field,
and that `bstrcpy` copies from it: the characters before the first NUL. -/
def field_string (field : List Char) : Str := field.takeWhile (fun c => c ≠ Char.ofNat 0)

/-- The struct `TarHeader`: one block of 512 characters; the fields are its slices. -/
abbrev TarHeader := List Char

/-- The field `name[100]` at offset 0. -/
def TarHeader.name (th : TarHeader) : List Char := (th.drop 0).take 100
/-- The field `size[12]` at offset 124. -/
def TarHeader.size (th : TarHeader) : List Char := (th.drop 124).take 12
/-- The field `typeflag` at offset 156. -/
def TarHeader.typeflag (th : TarHeader) : Char := (th.drop 156).headD (Char.ofNat 0)
/-- The field `linkname[100]` at offset 157. -/
def TarHeader.linkname (th : TarHeader) : List Char := (th.drop 157).take 100
/-- The field `magic[6]` at offset 257. -/
def TarHeader.magic (th : TarHeader) : List Char := (th.drop 257).take 6
/-- The field `prefix[155]` at offset 345; the name is spelled out because the short one
is a keyword. -/
def TarHeader.prefix_field (th : TarHeader) : List Char := (th.drop 345).take 155

/-- The header test of `TarCache::add`: the magic starts with `ustar`
(`strncmp(th.magic, "ustar", 5) == 0`), or `magic[0]` is NUL and the 254 bytes from
`magic[0]` equal the 254 bytes from `magic[1]` (the `memcmp` over
`511 - offsetof(TarHeader, magic)` bytes). -/
def valid_magic (th : TarHeader) : Bool :=
  decide ((TarHeader.magic th).take 5 = "ustar".toList) ||
    (decide ((th.drop 257).head? = some (Char.ofNat 0)) &&
      decide ((th.drop 257).take 254 = (th.drop 258).take 254))

/-- The function `isspace` of the C locale. -/
def isspace (c : Char) : Bool := decide (c.toNat = 32 ∨ (9 ≤ c.toNat ∧ c.toNat ≤ 13))

/-- The value of the longest prefix of octal digits, after the digits of value `acc`. -/
def octal_digits : Str → Nat → Nat
  | [], acc => acc
  | c :: cs, acc =>
    if 48 ≤ c.toNat ∧ c.toNat ≤ 55 then octal_digits cs (acc * 8 + (c.toNat - 48)) else acc

/-- The call `strtoul(s, NULL, 8)` of the C library with a 64-bit `unsigned long`: white
space is skipped, a sign is accepted, the digits are read up to the first character that
is not an octal digit; a value out of range gives `ULONG_MAX`, a minus sign negates the
value in the unsigned type. -/
def strtoul_octal (s : Str) : Nat :=
  let t := s.dropWhile isspace
  let neg := decide (t.head? = some '-')
  let digits := if t.head? = some '-' ∨ t.head? = some '+' then t.drop 1 else t
  let v := octal_digits digits 0
  if 2 ^ 64 ≤ v then 2 ^ 64 - 1
  else if neg then (2 ^ 64 - v) % 2 ^ 64 else v

/-- Modelled from the spec: the template `Align` of `math_func.hpp`, which is not among
the sources, at the type `size_t`: the value rounded up to the next multiple of `n` (a
power of two), computed as `(x + (n - 1)) & ~(n - 1)` in 64 bits. -/
def Align (x n : Nat) : Nat := (x + (n - 1)) % 2 ^ 64 / n * n

/-- The function `SimplifyFileName`: lowercase, and every `'/'` replaced by
`PATHSEPCHAR`. -/
def SimplifyFileName (name : Str) : Str :=
  (strtolower name).map (fun c => if c = '/' then PATHSEPCHAR else c)

/-- The effect of `destpos = strrchr(dest, PATHSEPCHAR); if (destpos == NULL) destpos =
dest; *destpos = '\0';` on `dest`: what stands before the last separator, nothing when
there is no separator. -/
def truncate_at_last_sep : Str → Str
  | [] => []
  | c :: cs => if PATHSEPCHAR ∈ cs then c :: truncate_at_last_sep cs else []

/-- The components that the inner loop of the link case visits in `link`: the pieces
between separators, found with `strchr(pos, PATHSEPCHAR)`; a trailing separator gives a
last, empty component. -/
def link_components : Str → List Str
  | [] => [[]]
  | c :: cs =>
    if c = PATHSEPCHAR then [] :: link_components cs
    else match link_components cs with
      | [] => [[c]]
      | h :: t => (c :: h) :: t

/-- The inner loop of the link case of `TarCache::add` over the components still to visit:
the string in `dest` when the loop is left (`destpos` always points to its end).  A `.` is
skipped; a `..` leaves the loop when `dest` is empty and otherwise truncates `dest` after
its last separator; any other component is appended, after a separator when `dest` is not
empty. -/
def resolve_link_components : Str → List Str → Str
  | dest, [] => dest
  | dest, comp :: rest =>
    if comp = ['.'] then resolve_link_components dest rest
    else if comp = ['.', '.'] then
      if dest = [] then dest
      else resolve_link_components (truncate_at_last_sep dest) rest
    else
      resolve_link_components ((if dest ≠ [] then dest ++ [PATHSEPCHAR] else dest) ++ comp)
        rest

/-- The destination computed for a link entry `name -> link` (both simplified): `dest`
starts as `name` cut at its last separator, then the components of `link` are applied. -/
def link_destination (name link : Str) : Str :=
  resolve_link_components (truncate_at_last_sep name) (link_components link)

/-- The method `TarCache::add_link`.  For an empty `src` the source dereferences
`src.rbegin()` of an empty string; the embedding appends the separator there. -/
def TarCache.add_link (tc : TarCache) (srcp destp : Str) : TarCache :=
  let src := strtolower srcp
  let dest := strtolower destp
  match StdMap.find tc.files dest with
  | some dest_file => { tc with files := (StdMap.insert tc.files src dest_file).1 }
  | none =>
    let src_path := if src.getLast? = some PATHSEPCHAR then src else src ++ [PATHSEPCHAR]
    let dst_path :=
      if dest.length = 0 then []
      else if dest.getLast? = some PATHSEPCHAR then dest else dest ++ [PATHSEPCHAR]
    { tc with links := (StdMap.insert tc.links src_path dst_path).1 }

/-- The assignment `m[k] = v` of a `std::map`: insert, or overwrite the value. -/
def StdMap.assign {α : Type} : StdMap α → Str → α → StdMap α
  | [], k, v => [(k, v)]
  | (k', v') :: rest, k, v =>
    if k = k' then (k', v) :: rest
    else if k < k' then (k, v) :: (k', v') :: rest
    else (k', v') :: StdMap.assign rest k v

/-- The local state of the header loop of `TarCache::add`: the index (`this`), the
temporary list `links`, the counter `num` and the offset `pos`. -/
structure ScanState where
  tc : TarCache
  links : StdMap Str
  num : Nat
  pos : Nat
deriving DecidableEq, Repr

/-- The entry name built from a header: `prefix`, a separator and `name` when the prefix
field is not empty, `name` alone otherwise. -/
def header_name (th : TarHeader) : Str :=
  if (TarHeader.prefix_field th).headD (Char.ofNat 0) ≠ Char.ofNat 0
  then field_string (TarHeader.prefix_field th) ++ [PATHSEPCHAR] ++ field_string (TarHeader.name th)
  else field_string (TarHeader.name th)

/-- The size parsed from a header: `strtoul` in base 8 of the copied size field. -/
def header_skip (th : TarHeader) : Nat := strtoul_octal (field_string (TarHeader.size th))

/-- The `switch (th.typeflag)` of `TarCache::add` for the archive `filename`, on a header
`th` read when the offset after it is `st.pos`. -/
def add_entry (filename : Str) (th : TarHeader) (st : ScanState) : ScanState :=
  let name := header_name th
  let skip := header_skip th
  let flag := TarHeader.typeflag th
  if flag = Char.ofNat 0 ∨ flag = '0' then
    if skip = 0 then st
    else if name.length = 0 then st
    else
      let entry : TarFileListEntry := ⟨filename, skip, st.pos⟩
      let r := StdMap.insert st.tc.files (SimplifyFileName name) entry
      { st with tc := { st.tc with files := r.1 }, num := if r.2 then st.num + 1 else st.num }
  else if flag = '1' ∨ flag = '2' then
    let link := field_string (TarHeader.linkname th)
    if name.length = 0 ∨ link.length = 0 then st
    else
      let name := SimplifyFileName name
      let link := SimplifyFileName link
      if link.head? = some PATHSEPCHAR then st
      else { st with links := (StdMap.insert st.links name (link_destination name link)).1 }
  else if flag = '5' then
    let name := SimplifyFileName name
    match StdMap.find st.tc.tars filename with
    | some t =>
      if t.dirname.isNone then
        { st with tc := { st.tc with tars := StdMap.assign st.tc.tars filename
                                               { t with dirname := some name } } }
      else st
    | none =>
      { st with tc := { st.tc with tars := StdMap.assign st.tc.tars filename
                                             ⟨[], some name⟩ } }
  else st

/-- Whether `fseek(f, skip, SEEK_CUR)` fails at the offset `pos`: `skip` is converted to
`long`, and the seek fails when the new offset would be negative. -/
def fseek_cur_fails (pos skip : Nat) : Bool := decide (2 ^ 63 ≤ skip ∧ pos + skip < 2 ^ 64)

/-- How one pass of the header loop of `TarCache::add` ends: by `break` after a short
read, by `return false` (bad magic or failed seek), or by going on to the next pass. -/
inductive HeaderStep
  | done
  | failed (st : ScanState)
  | next (st : ScanState)
deriving DecidableEq, Repr

/-- The bytes that `fread (&th, 1, 512, f)` delivers at the offset `pos`: fewer than 512
at the end of the file. -/
def header_at (content : List Char) (pos : Nat) : TarHeader := (content.drop pos).take 512

/-- One pass of the header loop `for (;;)` of `TarCache::add` on the bytes `content` of
the archive, from the state `st`. -/
def add_header (filename : Str) (content : List Char) (st : ScanState) : HeaderStep :=
  let th : TarHeader := header_at content st.pos
  if th.length ≠ 512 then HeaderStep.done
  else
    let st := { st with pos := (st.pos + 512) % 2 ^ 64 }
    if valid_magic th = false then HeaderStep.failed st
    else
      let st := add_entry filename th st
      let skip := Align (header_skip th) 512
      if fseek_cur_fails st.pos skip then HeaderStep.failed st
      else HeaderStep.next { st with pos := (st.pos + skip) % 2 ^ 64 }

/-- The header loop of `TarCache::add`, run for at most `fuel` passes.  The result is
`none` when the fuel runs out, otherwise whether the loop was left by `break` (true: the
scan goes on to the links) or by `return false`, and the state at that point. -/
def add_loop (filename : Str) (content : List Char) : Nat → ScanState → Option (Bool × ScanState)
  | 0, _ => none
  | fuel + 1, st =>
    match add_header filename content st with
    | HeaderStep.done => some (true, st)
    | HeaderStep.failed st' => some (false, st')
    | HeaderStep.next st' => add_loop filename content fuel st'

/-- The state after `n` complete passes of the header loop from `st`, `none` when the
loop is left before. -/
def add_headers (filename : Str) (content : List Char) : Nat → ScanState → Option ScanState
  | 0, st => some st
  | n + 1, st =>
    match add_header filename content st with
    | HeaderStep.next st' => add_headers filename content n st'
    | _ => none

/-- The last loop of `TarCache::add`: `add_link` on every collected link, in the order of
the temporary map. -/
def add_links (tc : TarCache) : StdMap Str → TarCache
  | [] => tc
  | (src, dest) :: rest => add_links (TarCache.add_link tc src dest) rest

/-- The method `TarCache::add` (its parameter `basepath_length` is not used by the body
and is left out), with the header loop bounded by `fuel`: `none` when the fuel runs out,
otherwise the return value and the index afterwards. -/
def TarCache.add (disk : Disk) (fuel : Nat) (tc : TarCache) (filename : Str) :
    Option (Bool × TarCache) :=
  match StdMap.find tc.tars filename with
  | some _ => some (false, tc)
  | none =>
    match disk.fopen filename "rb".toList with
    | none => some (false, tc)
    | some content =>
      let tc := { tc with tars := StdMap.assign tc.tars filename ⟨filename, none⟩ }
      match add_loop filename content fuel ⟨tc, [], 0, 0⟩ with
      | none => none
      | some (false, st) => some (false, st.tc)
      | some (true, st) => some (true, add_links st.tc st.links)

/-! ## Scanning a subdirectory -/

/-- The call `strrchr(s, c)` for a `c` other than NUL: the part of `s` from the last
occurrence of `c`, `none` for NULL. -/
def strrchr : Str → Char → Option Str
  | [], _ => none
  | d :: ds, c =>
    match strrchr ds c with
    | some r => some r
    | none => if d = c then some (d :: ds) else none

/-- The function `MatchesExtension`; `none` is the extension NULL.  For the empty
extension `strrchr` looks for NUL and finds the end of the file name. -/
def MatchesExtension (extension : Option Str) (filename : Str) : Bool :=
  match extension with
  | none => true
  | some [] => true
  | some (c :: cs) =>
    match strrchr filename c with
    | none => false
    | some ext => decide (strtolower ext = strtolower (c :: cs))

/-- The indexes of all subdirectories, the array `TarCache::cache`. -/
abbrev Caches := Subdirectory → TarCache

/-- The loop of `ScanPath` for a `TarScanner` whose `subdir` is `sd`, over the regular
files still to visit: a file that matches the extension is handed to
`TarScanner::AddFile`, that is to `TarCache::cache[sd].add`.  The result is the count and
the indexes afterwards. -/
def ScanPath_files (disk : Disk) (fuel : Nat) (extension : Option Str) (sd : Subdirectory) :
    List Str → Caches → Option (Nat × Caches)
  | [], cache => some (0, cache)
  | filename :: rest, cache =>
    if MatchesExtension extension filename then
      match TarCache.add disk fuel (cache sd) filename with
      | none => none
      | some (added, tc) =>
        match ScanPath_files disk fuel extension sd rest (Function.update cache sd tc) with
        | none => none
        | some (num, cache) => some ((if added then 1 else 0) + num, cache)
    else ScanPath_files disk fuel extension sd rest cache

/-- The function `ScanPath` for a `TarScanner`, the directory walk taken from the disk. -/
def ScanPath (disk : Disk) (fuel : Nat) (extension : Option Str) (sd : Subdirectory)
    (path : Str) (cache : Caches) : Option (Nat × Caches) :=
  ScanPath_files disk fuel extension sd (disk.readdir path) cache

/-- The loop of `FileScanner::Scan` over the search paths still to visit; the working
directory is skipped when `_do_scan_working_directory` is false. -/
def Scan_searchpaths (disk : Disk) (fuel : Nat) (g : Globals) (extension : Option Str)
    (sd : Subdirectory) : List (Nat × Str) → Caches → Option (Nat × Caches)
  | [], cache => some (0, cache)
  | sp :: rest, cache =>
    if sp.1 = g.SP_WORKING_DIR ∧ g._do_scan_working_directory = false then
      Scan_searchpaths disk fuel g extension sd rest cache
    else
      match ScanPath disk fuel extension sd (sp.2 ++ _subdirs sd) cache with
      | none => none
      | some (n, cache) =>
        match Scan_searchpaths disk fuel g extension sd rest cache with
        | none => none
        | some (num, cache) => some (n + num, cache)

/-- The method `FileScanner::Scan(extension, sd, tars, recursive)` of a `TarScanner`, for
`tars` false (a `TarScanner` refuses files from archives), with the nesting of its
recursive calls bounded by `depth`. -/
def FileScanner.Scan (disk : Disk) (fuel : Nat) (g : Globals) (extension : Option Str) :
    Nat → Subdirectory → Caches → Option (Nat × Caches)
  | 0, _, _ => none
  | depth + 1, sd, cache =>
    match Scan_searchpaths disk fuel g extension sd (FOR_ALL_SEARCHPATHS g) cache with
    | none => none
    | some (num, cache) =>
      match sd with
      | BASESET_DIR =>
        match FileScanner.Scan disk fuel g extension depth OLD_GM_DIR cache with
        | none => none
        | some (n1, cache) =>
          match FileScanner.Scan disk fuel g extension depth OLD_DATA_DIR cache with
          | none => none
          | some (n2, cache) => some (num + n1 + n2, cache)
      | NEWGRF_DIR =>
        match FileScanner.Scan disk fuel g extension depth OLD_DATA_DIR cache with
        | none => none
        | some (n2, cache) => some (num + n2, cache)
      | _ => some (num, cache)

/-- Modelled from the spec: the method `TarScanner::Scan(sd)` of `fileio_func.h`, which
is not among the sources: the scan of the subdirectory for files with the extension
`.tar`, recursively, not looking inside archives.  A call of `FileScanner::Scan` nests at
most one recursive call, so depth 2 covers it. -/
def TarScanner.Scan (disk : Disk) (fuel : Nat) (g : Globals) (sd : Subdirectory)
    (cache : Caches) : Option (Nat × Caches) :=
  FileScanner.Scan disk fuel g (some ".tar".toList) 2 sd cache

/-- The method `TarScanner::DoScan(Subdirectory sd)`: the count and the indexes
afterwards, `none` when the fuel of a header loop runs out. -/
def TarScanner.DoScan (disk : Disk) (fuel : Nat) (g : Globals) (cache : Caches)
    (sd : Subdirectory) : Option (Nat × Caches) :=
  let cache := Function.update cache sd { cache sd with files := [], tars := [] }
  match TarScanner.Scan disk fuel g sd cache with
  | none => none
  | some (num, cache) =>
    if sd = BASESET_DIR ∨ sd = NEWGRF_DIR then
      match TarScanner.Scan disk fuel g OLD_DATA_DIR cache with
      | none => none
      | some (n, cache) => some (num + n, cache)
    else some (num, cache)

/-! ## Extracting an archive -/

/-- What the code sees of `fwrite` on a file opened for writing, a parameter like the
disk: `fwrite path offset chunk` says whether the chunk is written in full to the file
`path` that already holds `offset` bytes. -/
abbrev Fwrite := Str → Nat → List Char → Bool

/-- The copy loop `for (; to_copy != 0; to_copy -= read)` of `TarCache::extract` for the
output file `path`: `input` is what the archive holds from the current offset on, `out`
what was written so far.  The result is `to_copy` and the bytes written when the loop is
left.  Each pass copies at least one byte, so `fuel` passes are enough for a `to_copy` of
at most `fuel`. -/
def extract_copy (fwrite : Fwrite) (path : Str) : Nat → Nat → List Char → List Char →
    Nat × List Char
  | 0, to_copy, _, out => (to_copy, out)
  | fuel + 1, to_copy, input, out =>
    if to_copy = 0 then (to_copy, out)
    else
      let chunk := input.take (min to_copy 4096)
      if chunk.length = 0 ∨ fwrite path out.length chunk = false then (to_copy, out)
      else extract_copy fwrite path fuel (to_copy - chunk.length) (input.drop chunk.length)
        (out ++ chunk)

/-- Modelled from the spec: the method `fmt` of the class `sstring` of `string.h`, which is
not among the sources, on an `sstring<size>`: the formatted string `s`, cut to the
`size - 1` characters that the buffer holds before its final NUL. -/
def sstring_fmt (size : Nat) (s : Str) : Str := s.take (size - 1)

/-- Modelled from the spec: the method `truncate` of the class `sstring` of `string.h`,
which is not among the sources: the first `newlen` characters of the string held, for a
`newlen` that is at most its length. -/
def sstring_truncate (buf : Str) (newlen : Nat) : Str := buf.take newlen

/-- Modelled from the spec: the method `append` of the class `sstring` of `string.h`,
which is not among the sources, on an `sstring<size>` that holds `buf`: `s` is appended up
to the room of the buffer, `size - 1` characters in all. -/
def sstring_append (size : Nat) (buf s : Str) : Str := (buf ++ s).take (size - 1)

/-- The loop of `TarCache::extract` over the entries of `files` still to visit, with the
string `filename` that the `sstring<MAX_PATH>` holds when the pass starts: whether the
loop ran to its end (false for `return false`), and the files written, in order, with the
bytes written to each.  Each pass cuts `filename` to `base_length` characters and appends
the key. -/
def extract_files (disk : Disk) (fwrite : Fwrite) (tar_filename : Str) (base_length : Nat) :
    Str → StdMap TarFileListEntry → Bool × List (Str × List Char)
  | _, [] => (true, [])
  | filename, (key, entry) :: rest =>
    if entry.tar_filename ≠ tar_filename then
      extract_files disk fwrite tar_filename base_length filename rest
    else
      let filename := sstring_append MAX_PATH (sstring_truncate filename base_length) key
      match FioFOpenFileTar disk entry with
      | none => (false, [])
      | some (_, to_copy) =>
        match disk.fopen filename "wb".toList with
        | none => (false, [])
        | some _ =>
          let input := ((disk.fopen entry.tar_filename "rb".toList).getD []).drop entry.position
          let copied := extract_copy fwrite filename to_copy to_copy input []
          if copied.1 ≠ 0 then (false, [(filename, copied.2)])
          else
            ((extract_files disk fwrite tar_filename base_length filename rest).1,
              (filename, copied.2) ::
                (extract_files disk fwrite tar_filename base_length filename rest).2)

/-- What a call of `TarCache::extract` returns and does to the disk: the directory it
creates and the files it writes. -/
structure Extracted where
  result : Bool
  mkdir : Option Str
  written : List (Str × List Char)
deriving DecidableEq, Repr

/-- The method `TarCache::extract`.  The path of the directory and the paths of the files
are built in the `sstring<MAX_PATH>` `filename`; `base_length` is the length of the
archive path up to and including its last separator. -/
def TarCache.extract (disk : Disk) (fwrite : Fwrite) (tc : TarCache) (tar_filename : Str) :
    Extracted :=
  match StdMap.find tc.tars tar_filename with
  | none => ⟨false, none, []⟩
  | some t =>
    match t.dirname with
    | none => ⟨false, none, []⟩
    | some dirname =>
      match strrchr tar_filename PATHSEPCHAR with
      | none => ⟨false, none, []⟩
      | some p =>
        let base_length := tar_filename.length - p.length + 1
        let filename := sstring_fmt MAX_PATH (tar_filename.take base_length ++ dirname)
        ⟨(extract_files disk fwrite tar_filename base_length filename tc.files).1,
          some filename,
          (extract_files disk fwrite tar_filename base_length filename tc.files).2⟩

/-! ## Loading a file into memory -/

/-- The return value of `fread(ptr, size, nmemb, f)` on a stream that still holds `bytes`:
the number of whole items read, zero when `size` or `nmemb` is zero. -/
def fread_items (bytes : List Char) (size nmemb : Nat) : Nat :=
  if size = 0 ∨ nmemb = 0 then 0 else min nmemb (bytes.length / size)

/-- The function `ReadFileToMem`: `none` for NULL, otherwise the memory returned (`len + 1`
bytes) and the value stored in `*lenp`. -/
def ReadFileToMem (disk : Disk) (filename : Str) (maxsize : Nat) : Option (List Char × Nat) :=
  match disk.fopen filename "rb".toList with
  | none => none
  | some bytes =>
    let len := bytes.length
    if len > maxsize then none
    else if fread_items bytes len 1 ≠ 1 then none
    else some (bytes.take len ++ [Char.ofNat 0], len)

/-! ## Slotted files -/

/-- The fields of the struct `Fio` that `FioOpenFile` writes, without the read buffer:
per slot the handle, the file name and the short name (NULL is `none`), and the current
handle, file name and position. -/
structure Fio where
  handles : Nat → Option FILE
  filenames : Nat → Option Str
  shortnames : Nat → Option Str
  cur_fh : Option FILE
  filename : Option Str
  pos : Nat

/-- The position that `ftell` reports for a handle just returned by `FioFOpenFile`. -/
def ftell (f : FILE) : Nat :=
  match f with
  | FILE.plain _ _ => 0
  | FILE.member entry => entry.position

/-- The short name that `FioOpenFile` stores: the copy of `filename` from its last path
separator on (of all of it when there is none), cut at its last `'.'`, in lowercase. -/
def shortname (filename : Str) : Str :=
  let t := match strrchr filename PATHSEPCHAR with
    | none => filename
    | some t => t
  let cut := match strrchr t '.' with
    | none => t
    | some t2 => t.take (t.length - t2.length)
  strtolower cut

/-- The function `FioOpenFile` without `LIMITED_FDS`: the struct `_fio` afterwards, `none`
when `usererror` ends the program. -/
def FioOpenFile (disk : Disk) (g : Globals) (cache : Subdirectory → TarCache) (fio : Fio)
    (slot : Nat) (filename : Str) (subdir : Subdirectory) : Option Fio :=
  match FioFOpenFile disk g cache filename "rb".toList subdir with
  | none => none
  | some (f, _) =>
    some { handles := Function.update fio.handles slot (some f),
           filenames := Function.update fio.filenames slot (some filename),
           shortnames := Function.update fio.shortnames slot (some (shortname filename)),
           cur_fh := some f,
           filename := some filename,
           pos := ftell f % 2 ^ 32 }

/-- The function `FioGetFilename`. -/
def FioGetFilename (fio : Fio) (slot : Nat) : Option Str := fio.shortnames slot

/-! ## Building a directory path -/

/-- The second loop of `BuildDirPath` over the parts still to copy: `buf` is the text
written so far (`p` points to its end) and `total` the allocated size.  The result is
`none` when the `assert (p + lengths[i] + 1 < buf + total)` fails.  The test `p[-1] !=
PATHSEPCHAR` reads the last character written. -/
def BuildDirPath_loop (total : Nat) : Str → List Str → Option Str
  | buf, [] => some buf
  | buf, part :: rest =>
    if buf.length + part.length + 1 < total then
      BuildDirPath_loop total
        (if (buf ++ part).getLast? ≠ some PATHSEPCHAR then buf ++ part ++ [PATHSEPCHAR]
         else buf ++ part) rest
    else none

/-- The function `BuildDirPath` on the `n` strings `parts`: the string returned, `none`
when one of its `assert`s fails (`n > 0`, a first part that is not empty, `n` at most the
4 slots of `lengths`, and the bound checked in the loop). -/
def BuildDirPath (parts : List Str) : Option Str :=
  if parts.length = 0 ∨ parts.head? = some [] ∨ 4 < parts.length then none
  else BuildDirPath_loop (parts.length + 1 + (parts.map List.length).sum) [] parts

/-! ## The buffer of the link destination -/

/-- The inner loop of the link case of `TarCache::add` with the buffer `dest` of `cap`
bytes: as `resolve_link_components`, and `none` when `assert (destpos + len <
endof(dest))` fails before a component is appended. -/
def resolve_link_components_checked (cap : Nat) : Str → List Str → Option Str
  | dest, [] => some dest
  | dest, comp :: rest =>
    if comp = ['.'] then resolve_link_components_checked cap dest rest
    else if comp = ['.', '.'] then
      if dest = [] then some dest
      else resolve_link_components_checked cap (truncate_at_last_sep dest) rest
    else
      if (if dest ≠ [] then dest ++ [PATHSEPCHAR] else dest).length + comp.length < cap then
        resolve_link_components_checked cap
          ((if dest ≠ [] then dest ++ [PATHSEPCHAR] else dest) ++ comp) rest
      else none

/-- The size of the buffer `name` of `TarCache::add`:
`sizeof(th.prefix) + 1 + sizeof(th.name) + 1`. -/
def sizeof_name : Nat := 155 + 1 + 100 + 1

/-- The size of the buffer `dest` of `TarCache::add`:
`sizeof(name) + 1 + sizeof(th.linkname) + 1`. -/
def sizeof_dest : Nat := sizeof_name + 1 + 100 + 1

/-! ## Auxiliary notions for the scan of a whole subdirectory -/

/-- The pairs `P` inserted one after the other into the map `L` of links. -/
def insert_links (L : StdMap Str) : List (Str × Str) → StdMap Str
  | [] => L
  | p :: P => insert_links (StdMap.insert L p.1 p.2).1 P

/-- The index `tc` with the map `links` replaced by `L`. -/
def TarCache.with_links (tc : TarCache) (L : StdMap Str) : TarCache := { tc with links := L }

/-- The state `st` with the map `links` of its index replaced by `L`. -/
def ScanState.with_links (st : ScanState) (L : StdMap Str) : ScanState :=
  { st with tc := TarCache.with_links st.tc L }

/-- `TarCache::add` on the archives `ps` one after the other, on one index: the number of
calls that returned true and the index afterwards. -/
def add_all (disk : Disk) (fuel : Nat) : List Str → TarCache → Option (Nat × TarCache)
  | [], tc => some (0, tc)
  | p :: ps, tc =>
    match TarCache.add disk fuel tc p with
    | none => none
    | some (added, tc') =>
      match add_all disk fuel ps tc' with
      | none => none
      | some (num, tc'') => some ((if added then 1 else 0) + num, tc'')

/-- The archives that `FileScanner::Scan` hands to `AddFile` for the subdirectory `sd`
over the search paths `roots`, in the order of the scan. -/
def scanned_files (disk : Disk) (g : Globals) (extension : Option Str) (sd : Subdirectory) :
    List (Nat × Str) → List Str
  | [] => []
  | sp :: rest =>
    if sp.1 = g.SP_WORKING_DIR ∧ g._do_scan_working_directory = false then
      scanned_files disk g extension sd rest
    else
      (disk.readdir (sp.2 ++ _subdirs sd)).filter (MatchesExtension extension) ++
        scanned_files disk g extension sd rest

/-- The scan of one subdirectory `sd` as a step on the array of indexes: `add_all` on
the index of `sd`. -/
def scan_subdir (disk : Disk) (fuel : Nat) (ps : List Str) (sd : Subdirectory)
    (cache : Caches) : Option (Nat × Caches) :=
  match add_all disk fuel ps (cache sd) with
  | none => none
  | some (num, tc) => some (num, Function.update cache sd tc)

/-- Every archive of `ps` is recorded in `tars` or cannot be opened. -/
def Seen (disk : Disk) (tc : TarCache) (ps : List Str) : Prop :=
  ∀ p ∈ ps, (StdMap.find tc.tars p).isSome ∨ disk.fopen p "rb".toList = none

/-- The indexes after the scan of the subdirectory `sd` for the archives of `g`, `none`
when the fuel of a header loop runs out. -/
def scan_step (disk : Disk) (fuel : Nat) (g : Globals) (sd : Subdirectory) (cache : Caches) :
    Option Caches :=
  (scan_subdir disk fuel
    (scanned_files disk g (some ".tar".toList) sd (FOR_ALL_SEARCHPATHS g)) sd cache).map Prod.snd

/-- The array of indexes with the maps `files` and `tars` of `sd` cleared. -/
def clear_index (cache : Caches) (sd : Subdirectory) : Caches :=
  Function.update cache sd { cache sd with files := [], tars := [] }

/-! ## Auxiliary notions for the resolution order -/

/-- The first two steps of `FioFOpenFile` in one subdirectory: the search paths and, for a
read mode and a subdirectory other than `NO_DIRECTORY`, the tar index. -/
def FioFOpenFile_in (disk : Disk) (g : Globals) (cache : Caches) (filename mode : Str)
    (subdir : Subdirectory) : Option (FILE × Nat) :=
  match FioFOpenFile_searchpaths disk filename mode subdir (FOR_ALL_SEARCHPATHS g) with
  | some f => some f
  | none =>
    if mode.head? = some 'r' ∧ subdir ≠ NO_DIRECTORY then
      match FioFOpenFile_tar_entry (cache subdir) filename with
      | some entry => FioFOpenFileTar disk entry
      | none => none
    else none

/-- The subdirectories in which `FioFOpenFile` looks, in the order in which it looks. -/
def fallback_order : Subdirectory → List Subdirectory
  | NO_DIRECTORY => [NO_DIRECTORY]
  | BASESET_DIR => [BASESET_DIR, OLD_GM_DIR, NO_DIRECTORY, OLD_DATA_DIR, NO_DIRECTORY]
  | NEWGRF_DIR => [NEWGRF_DIR, OLD_DATA_DIR, NO_DIRECTORY]
  | sd => [sd, NO_DIRECTORY]

/-- The first hit of a list of lookups, `none` when all miss. -/
def first_hit {α : Type} : List (Option α) → Option α
  | [] => none
  | some a :: _ => some a
  | none :: rest => first_hit rest

/-! ## Auxiliary notions for the nesting of `FioFOpenFile` -/

/-- One call of `FioFOpenFile` in the subdirectory `sd`, with its recursive calls answered
by `recurse`. -/
def FioFOpenFile_step (disk : Disk) (g : Globals) (cache : Caches) (filename mode : Str)
    (recurse : Subdirectory → Option (FILE × Nat)) (sd : Subdirectory) : Option (FILE × Nat) :=
  match FioFOpenFile_in disk g cache filename mode sd with
  | some f => some f
  | none =>
    if sd = NO_DIRECTORY then none
    else
      match sd with
      | BASESET_DIR =>
        match recurse OLD_GM_DIR with
        | some f => some f
        | none => recurse OLD_DATA_DIR
      | NEWGRF_DIR => recurse OLD_DATA_DIR
      | _ => recurse NO_DIRECTORY

/-- The subdirectories that a call of `FioFOpenFile` in `sd` can pass to a recursive
call. -/
def recursive_calls : Subdirectory → List Subdirectory
  | NO_DIRECTORY => []
  | BASESET_DIR => [OLD_GM_DIR, OLD_DATA_DIR]
  | NEWGRF_DIR => [OLD_DATA_DIR]
  | _ => [NO_DIRECTORY]

/-- The answers `recurse` for the subdirectories of `l` only; no answer elsewhere. -/
def answers_on (recurse : Subdirectory → Option (FILE × Nat)) (l : List Subdirectory) :
    Subdirectory → Option (FILE × Nat) :=
  fun s => if s ∈ l then recurse s else none

/-! ## Auxiliary notions for `BuildDirPath` -/

/-- The text described for `BuildDirPath`: after `buf`, every part in order, each followed
by one separator unless the text built so far already ends with one. -/
def joined_parts : Str → List Str → Str
  | buf, [] => buf
  | buf, part :: rest =>
    joined_parts
      (if (buf ++ part).getLast? = some PATHSEPCHAR then buf ++ part
       else buf ++ part ++ [PATHSEPCHAR]) rest

/-! ## Auxiliary notions for the invariants of the index -/

/-- The invariant of the map `links`: every key is not empty and ends with the path
separator, every value is empty or ends with the path separator. -/
def links_invariant (L : StdMap Str) : Prop :=
  ∀ p ∈ L, p.1 ≠ [] ∧ p.1.getLast? = some PATHSEPCHAR ∧
    (p.2 = [] ∨ p.2.getLast? = some PATHSEPCHAR)

/-- A normalized key: not empty, without an uppercase ASCII letter, and with no `'/'`
other than the path separator of the platform. -/
def normalized_key (k : Str) : Prop :=
  k ≠ [] ∧ ∀ c ∈ k, ¬ (65 ≤ c.toNat ∧ c.toNat ≤ 90) ∧ (c = '/' → c = PATHSEPCHAR)

/-- The invariant of the map `files`: every key is normalized. -/
def files_invariant (F : StdMap TarFileListEntry) : Prop := ∀ p ∈ F, normalized_key p.1

/-! ## Auxiliary notions for the destination of a link -/

/-- The components `comps` joined by single path separators. -/
def join_components : List Str → Str
  | [] => []
  | [c] => c
  | c :: c' :: cs => c ++ PATHSEPCHAR :: join_components (c' :: cs)

/-- A path without a component `.` or `..`. -/
def no_dot_components (s : Str) : Prop :=
  ∀ c ∈ link_components s, c ≠ ['.'] ∧ c ≠ ['.', '.']

/-- The path algebra described for the destination of a link, on the components still to
process: a `.` is skipped, a `..` drops the last component of `dest` and fails (`none`)
when there is nothing to drop, any other component is appended, after one separator when
`dest` is not empty. -/
def path_algebra : Str → List Str → Option Str
  | dest, [] => some dest
  | dest, comp :: rest =>
    if comp = ['.'] then path_algebra dest rest
    else if comp = ['.', '.'] then
      if dest = [] then none else path_algebra (truncate_at_last_sep dest) rest
    else path_algebra (if dest = [] then comp else dest ++ [PATHSEPCHAR] ++ comp) rest

/-! ## Auxiliary notions for the headers of an archive -/

/-- A header that `TarCache::add` records as a regular file: a full block with a valid
magic and the type flag NUL or `'0'`, whose size is not 0 and whose name is not empty. -/
def regular_file_header (th : TarHeader) : Bool :=
  decide (th.length = 512) && valid_magic th &&
    decide (TarHeader.typeflag th = Char.ofNat 0 ∨ TarHeader.typeflag th = '0') &&
    decide (header_skip th ≠ 0) && decide ((header_name th).length ≠ 0)

/-- A header that `TarCache::add` collects as a link: a full block with a valid magic and
the type flag `'1'` or `'2'`, whose name and link name are not empty and whose link name
is relative. -/
def relative_link_header (th : TarHeader) : Bool :=
  decide (th.length = 512) && valid_magic th &&
    decide (TarHeader.typeflag th = '1' ∨ TarHeader.typeflag th = '2') &&
    decide ((header_name th).length ≠ 0) &&
    decide ((field_string (TarHeader.linkname th)).length ≠ 0) &&
    decide ((SimplifyFileName (field_string (TarHeader.linkname th))).head? ≠ some PATHSEPCHAR)

/-- The state in which the header loop of `TarCache::add` starts for the archive
`filename`, after the archive was entered into `tars`. -/
def scan_start (tc : TarCache) (filename : Str) : ScanState :=
  ⟨{ tc with tars := StdMap.assign tc.tars filename ⟨filename, none⟩ }, [], 0, 0⟩

/-- The sizes parsed from the headers of `n` complete passes of the header loop from `st`,
in the order of the passes, and the state afterwards; `none` when the loop is left
before. -/
def passed_sizes (filename : Str) (content : List Char) :
    Nat → ScanState → Option (List Nat × ScanState)
  | 0, st => some ([], st)
  | n + 1, st =>
    match add_header filename content st with
    | HeaderStep.next st' =>
      match passed_sizes filename content n st' with
      | some (sizes, st'') => some (header_skip (header_at content st.pos) :: sizes, st'')
      | none => none
    | _ => none

/-- The size `s` rounded up to the next multiple of 512, as a natural number. -/
def round_up_512 (s : Nat) : Nat := (s + 511) / 512 * 512

/-- The offset described for the body of the header that follows headers of the sizes
`sizes`: 512 for every header up to and including its own, and the rounded sizes of the
bodies before. -/
def body_offset (sizes : List Nat) : Nat :=
  512 * (sizes.length + 1) + (sizes.map round_up_512).sum

/-! ## Concrete archives and indexes -/

/-- A NUL-padded field of width `n` holding `s`. -/
def pad (s : Str) (n : Nat) : List Char := s ++ List.replicate (n - s.length) (Char.ofNat 0)

/-- A `ustar` header block with the given name, size field, type flag and link name; the
other fields are NUL. -/
def mk_header (name size : Str) (typeflag : Char) (linkname : Str) : TarHeader :=
  pad name 100 ++ pad [] 24 ++ pad size 12 ++ pad [] 20 ++ [typeflag] ++ pad linkname 100 ++
    pad "ustar".toList 6 ++ pad [] 249

/-- The path of the archive of the examples. -/
def ex_tar : Str := "/r/lang/a.tar".toList

/-- One search path, `/r/`, which is also the working directory. -/
def ex_globals : Globals := ⟨[some "/r/".toList], true, 0⟩

/-- A disk whose only file is the archive `ex_tar` with the given bytes, found by the
directory walk of `/r/lang/`. -/
def ex_disk (archive : List Char) : Disk :=
  ⟨fun path mode => if path = ex_tar ∧ mode = "rb".toList then some archive else none,
   fun dir => if dir = "/r/lang/".toList then [ex_tar] else []⟩

/-- The indexes in which `LANG_DIR` has the index `tc` and the others are empty. -/
def ex_caches (tc : TarCache) : Caches :=
  fun sd => if sd = LANG_DIR then tc else TarCache.empty

/-- An archive with the member `b/x` of 7 bytes and the links `p -> z` and
`p/q -> ../b`. -/
def shadow_archive : List Char :=
  mk_header "b/x".toList "00000000007".toList '0' [] ++ pad "content".toList 512 ++
  mk_header "p".toList "00000000000".toList '2' "z".toList ++
  mk_header "p/q".toList "00000000000".toList '2' "../b".toList

/-- The entry of the member `b/x` of `shadow_archive`. -/
def shadow_entry : TarFileListEntry := ⟨ex_tar, 7, 512⟩

/-- The index that `TarCache::add` builds from `shadow_archive`. -/
def shadow_index : TarCache :=
  ⟨[(ex_tar, ⟨ex_tar, none⟩)], [("b/x".toList, shadow_entry)],
   [("p/".toList, "z/".toList), ("p/q/".toList, "b/".toList)]⟩

/-- An index with the chained directory links `a/ -> c/` and `c/ -> d/` and a member
under each of `c/` and `d/`. -/
def chain_index : TarCache :=
  ⟨[(ex_tar, ⟨ex_tar, none⟩)],
   [("c/x".toList, ⟨ex_tar, 7, 512⟩), ("d/x".toList, ⟨ex_tar, 9, 1536⟩)],
   [("a/".toList, "c/".toList), ("c/".toList, "d/".toList)]⟩

/-- Two search paths, `/r1/` before `/r2/`. -/
def two_roots : Globals := ⟨[some "/r1/".toList, none, some "/r2/".toList], true, 0⟩

/-- A disk with the plain file `lang/f` of 3 bytes under `/r1/` and of 5 bytes under
`/r2/`, and the archive `ex_tar`. -/
def two_roots_disk : Disk :=
  ⟨fun path mode =>
     if path = "/r1/lang/f".toList then some "one".toList
     else if path = "/r2/lang/f".toList then some "other".toList
     else if path = ex_tar ∧ mode = "rb".toList then some [] else none,
   fun _ => []⟩

/-- An index with an entry for `f`. -/
def f_index : TarCache := ⟨[(ex_tar, ⟨ex_tar, none⟩)], [("f".toList, ⟨ex_tar, 7, 512⟩)], []⟩

/-- The archive of the scenario: the member `lang/english.lng` of 100 bytes (size field
`144` in octal) and the symbolic link `lang2 -> lang`. -/
def lang_archive : List Char :=
  mk_header "lang/english.lng".toList "00000000144".toList '0' [] ++
  pad (List.replicate 100 'x') 512 ++
  mk_header "lang2".toList "00000000000".toList '2' "lang".toList

/-- The index that `TarCache::add` builds from an archive `tar` of the scenario. -/
def lang_index (tar : Str) : TarCache :=
  ⟨[(tar, ⟨tar, none⟩)], [("lang/english.lng".toList, ⟨tar, 100, 512⟩)],
   [("lang2/".toList, "lang/".toList)]⟩

/-- An archive with the member `a/x` of 7 bytes and the link `a -> b`. -/
def hidden_archive : List Char :=
  mk_header "a/x".toList "00000000007".toList '0' [] ++ pad "content".toList 512 ++
  mk_header "a".toList "00000000000".toList '2' "b".toList

/-- The index that `TarCache::add` builds from `hidden_archive`. -/
def hidden_index : TarCache :=
  ⟨[(ex_tar, ⟨ex_tar, none⟩)], [("a/x".toList, ⟨ex_tar, 7, 512⟩)],
   [("a/".toList, "b/".toList)]⟩

/-- An archive with the symbolic link `etc -> /abs` (absolute target) before the member
`f` of 7 bytes. -/
def absolute_archive : List Char :=
  mk_header "etc".toList "00000000000".toList '2' "/abs".toList ++
  mk_header "f".toList "00000000007".toList '0' [] ++ pad "content".toList 512

/-- An archive whose only header is the symbolic link `a -> ..`, which points above the
root of the archive. -/
def escape_archive : List Char :=
  mk_header "a".toList "00000000000".toList '2' "..".toList

/-- An archive with the member `a` of 5 bytes followed by a block of 512 letters `x`,
which is no header. -/
def corrupt_archive : List Char :=
  mk_header "a".toList "00000000005".toList '0' [] ++ pad "hello".toList 512 ++
  List.replicate 512 'x'

/-- The indexes after `TarScanner::DoScan(LANG_DIR)` on the disk of the scenario, from
empty indexes. -/
def scanned_lang : Caches :=
  Function.update (clear_index (fun _ => TarCache.empty) LANG_DIR) LANG_DIR
    (lang_index ex_tar)

/-- A disk without any file. -/
def empty_disk : Disk := ⟨fun _ _ => none, fun _ => []⟩

/-- A disk whose only file is `f`, a bare name (a path relative to the directory the
program runs in), of 3 bytes. -/
def bare_disk : Disk :=
  ⟨fun path mode => if path = "f".toList ∧ mode = "rb".toList then some "abc".toList else none,
   fun _ => []⟩

/-- One search path, the working directory `/w/`, flagged as not to be scanned. -/
def unsafe_globals : Globals := ⟨[some "/w/".toList], false, 0⟩

/-- A disk with the plain file `lang/f` of 3 bytes and the archive `lang/a.tar` of the
scenario, both under the working directory `/w/` only. -/
def working_disk : Disk :=
  ⟨fun path mode =>
     if path = "/w/lang/f".toList ∧ mode = "rb".toList then some "abc".toList
     else if path = "/w/lang/a.tar".toList ∧ mode = "rb".toList then some lang_archive
     else none,
   fun dir => if dir = "/w/lang/".toList then ["/w/lang/a.tar".toList] else []⟩

/-- An archive with two members of the same name `a`, of 5 and of 7 bytes. -/
def duplicate_archive : List Char :=
  mk_header "a".toList "00000000005".toList '0' [] ++ pad "hello".toList 512 ++
  mk_header "A".toList "00000000007".toList '0' [] ++ pad "goodbye".toList 512

/-- A header block in the old format: the name `old`, size 3, and NUL from the link name
to the end of the block. -/
def legacy_header : TarHeader :=
  pad "old".toList 100 ++ pad [] 24 ++ pad "00000000003".toList 12 ++ pad [] 20 ++ ['0'] ++
    pad [] 355

/-- An archive with the directory `data/` and the member `data/readme.txt` of 5 bytes. -/
def data_archive : List Char :=
  mk_header "data/".toList "00000000000".toList '5' [] ++
  mk_header "data/readme.txt".toList "00000000005".toList '0' [] ++ pad "hello".toList 512

/-- The index that `TarCache::add` builds from `data_archive`. -/
def data_index : TarCache :=
  ⟨[(ex_tar, ⟨ex_tar, some "data/".toList⟩)], [("data/readme.txt".toList, ⟨ex_tar, 5, 1024⟩)],
   []⟩

/-- A disk with the archive `ex_tar` of the given bytes, on which every file can be
opened for writing. -/
def writable_disk (archive : List Char) : Disk :=
  ⟨fun path mode =>
     if mode = "wb".toList then some []
     else if path = ex_tar ∧ mode = "rb".toList then some archive else none,
   fun _ => []⟩

/-- A disk whose only file is `/r/newgrf/sub/Foo.GRF`, of 3 bytes. -/
def grf_disk : Disk :=
  ⟨fun path mode =>
     if path = "/r/newgrf/sub/Foo.GRF".toList ∧ mode = "rb".toList then some "grf".toList
     else none,
   fun _ => []⟩

/-- The struct `_fio` before any file is opened. -/
def fio_start : Fio := ⟨fun _ => none, fun _ => none, fun _ => none, none, none, 0⟩

/-- An index with the nested directory links `a/ -> x/` and `a/b/ -> y/` and the members
`x/b/f` and `y/f`. -/
def nested_links : TarCache :=
  ⟨[], [("x/b/f".toList, ⟨ex_tar, 3, 512⟩), ("y/f".toList, ⟨ex_tar, 4, 1536⟩)],
   [("a/".toList, "x/".toList), ("a/b/".toList, "y/".toList)]⟩

/-- An archive with the link `B -> A/X` before the member `A/X` of 7 bytes. -/
def alias_archive : List Char :=
  mk_header "B".toList "00000000000".toList '2' "A/X".toList ++
  mk_header "A/X".toList "00000000007".toList '0' [] ++ pad "content".toList 512

/-- The index that `TarCache::add` builds from `alias_archive`. -/
def alias_index : TarCache :=
  ⟨[(ex_tar, ⟨ex_tar, none⟩)],
   [("a/x".toList, ⟨ex_tar, 7, 1024⟩), ("b".toList, ⟨ex_tar, 7, 1024⟩)], []⟩

/-- The state of the header loop on `data_archive` after the pass over the header of the
directory `data/`. -/
def data_pass : ScanState :=
  ⟨⟨[(ex_tar, ⟨ex_tar, some "data/".toList⟩)], [], []⟩, [], 0, 512⟩

/-- An archive of four blocks: the header of the member `f` of 1024 bytes, a block of
data, the header of the member `g` of 5 bytes, and the header of the directory `up` whose
size field is `-2000`.  The body of `f` covers the second and third block, so the header
loop comes to the fourth block next, seeks 1024 bytes back from its end, and reads the
third block as a header. -/
def wrap_archive : List Char :=
  mk_header "f".toList "00000002000".toList '0' [] ++ pad "x".toList 512 ++
  mk_header "g".toList "00000000005".toList '0' [] ++
  mk_header "up".toList "-2000".toList '5' []

/-- The index that `TarCache::add` builds from `wrap_archive`. -/
def wrap_index : TarCache :=
  ⟨[(ex_tar, ⟨ex_tar, some "up".toList⟩)],
   [("f".toList, ⟨ex_tar, 1024, 512⟩), ("g".toList, ⟨ex_tar, 5, 1536⟩)], []⟩

/-- The archive `alias_archive` with its two headers in the other order: the member `A/X`
of 7 bytes before the link `B -> A/X`. -/
def alias_archive_rev : List Char :=
  mk_header "A/X".toList "00000000007".toList '0' [] ++ pad "content".toList 512 ++
  mk_header "B".toList "00000000000".toList '2' "A/X".toList

/-- The index with which the header loop starts on an archive of the examples. -/
def alias_tars : StdMap TarListEntry := [(ex_tar, ⟨ex_tar, none⟩)]

/-- The state of the header loop on `alias_archive` after the pass over the link. -/
def alias_after_link : ScanState :=
  ⟨⟨alias_tars, [], []⟩, [("b".toList, "a/x".toList)], 0, 512⟩

/-- The state in which the header loop on `alias_archive` is left. -/
def alias_end : ScanState :=
  ⟨⟨alias_tars, [("a/x".toList, ⟨ex_tar, 7, 1024⟩)], []⟩, [("b".toList, "a/x".toList)], 1, 1536⟩

/-- The state of the header loop on `alias_archive_rev` after the pass over the member. -/
def alias_rev_after_file : ScanState :=
  ⟨⟨alias_tars, [("a/x".toList, ⟨ex_tar, 7, 512⟩)], []⟩, [], 1, 1024⟩

/-- The state in which the header loop on `alias_archive_rev` is left. -/
def alias_rev_end : ScanState :=
  ⟨⟨alias_tars, [("a/x".toList, ⟨ex_tar, 7, 512⟩)], []⟩, [("b".toList, "a/x".toList)], 1, 1536⟩

/-- A search path of 257 characters: `/`, 255 letters `d` and `/`. -/
def deep_root : Str := '/' :: (List.replicate 255 'd' ++ ['/'])

/-- Two search paths, `deep_root` before `/r2/`. -/
def deep_roots : Globals := ⟨[some deep_root, none, some "/r2/".toList], true, 0⟩

/-- One search path, `deep_root`. -/
def deep_globals : Globals := ⟨[some deep_root], true, 0⟩

/-- A disk with the plain file `lang/f` of 3 bytes under `deep_root` (a path of 263
characters) and of 5 bytes under `/r2/`, and the archive `ex_tar`. -/
def deep_roots_disk : Disk :=
  ⟨fun path mode =>
     if path = deep_root ++ "lang/f".toList then some "one".toList
     else if path = "/r2/lang/f".toList then some "other".toList
     else if path = ex_tar ∧ mode = "rb".toList then some [] else none,
   fun _ => []⟩

/-- The archive `absolute_archive` with the size field `-2000` in the header of the link
`etc -> /abs`. -/
def absolute_back_archive : List Char :=
  mk_header "etc".toList "-2000".toList '2' "/abs".toList ++
  mk_header "f".toList "00000000007".toList '0' [] ++ pad "content".toList 512

/-- The archive `alias_archive` followed by a block of 512 letters `x`, which is no
header. -/
def alias_corrupt_archive : List Char := alias_archive ++ List.replicate 512 'x'

/-- An index in which `b` is the key of a member of another archive. -/
def taken_index : TarCache := ⟨[], [("b".toList, ⟨"/r/lang/other.tar".toList, 3, 512⟩)], []⟩

/-- An archive path of 255 characters, of which 250 up to its last separator. -/
def deep_tar : Str := '/' :: (List.replicate 248 'd' ++ "/a.tar".toList)

/-- A disk with the archive `deep_tar` holding `data_archive`, on which every file can be
opened for writing. -/
def deep_writable_disk : Disk :=
  ⟨fun path mode =>
     if mode = "wb".toList then some []
     else if path = deep_tar ∧ mode = "rb".toList then some data_archive else none,
   fun _ => []⟩

/-- The index that `TarCache::add` builds from the archive `deep_tar`. -/
def deep_data_index : TarCache :=
  ⟨[(deep_tar, ⟨deep_tar, some "data/".toList⟩)],
   [("data/readme.txt".toList, ⟨deep_tar, 5, 1024⟩)], []⟩

/-! ## Lemmas on opening files -/

theorem strtolower_append (s t : Str) : strtolower (s ++ t) = strtolower s ++ strtolower t := by
  simp [strtolower]

theorem strtolower_length (s : Str) : (strtolower s).length = s.length := by
  simp [strtolower]

theorem link_applies_prefix (a y : Str) (ha : a.getLast? = some PATHSEPCHAR) :
    link_applies a (a ++ y) = true := by
  have hne : a ≠ [] := by
    intro h
    simp [h] at ha
  have hlen : 0 < a.length := List.length_pos.mpr hne
  have hget : (a ++ y).get? (a.length - 1) = some PATHSEPCHAR := by
    rw [List.get?_eq_getElem?, List.getElem?_append_left (by omega), ← List.getLast?_eq_getElem?]
    exact ha
  simp only [link_applies, hget, List.length_append, List.take_left']
  simp
  exact hne

theorem resolve_one_link_first (name : Str) (pre post : StdMap Str) (a b : Str)
    (hpre : ∀ l ∈ pre, link_applies l.1 name = false) (ha : link_applies a name = true) :
    resolve_one_link name (pre ++ (a, b) :: post) = b ++ name.drop a.length := by
  induction pre with
  | nil => simp [resolve_one_link, ha]
  | cons l pre ih =>
    obtain ⟨src, dst⟩ := l
    have h1 : link_applies src name = false := hpre (src, dst) (by simp)
    have h2 : ∀ l ∈ pre, link_applies l.1 name = false := fun l hl => hpre l (by simp [hl])
    simp [resolve_one_link, h1, ih h2]

theorem FioFOpenFile_searchpaths_first (disk : Disk) (filename mode : Str) (sd : Subdirectory)
    (pre rest : List (Nat × Str)) (R : Nat × Str) (f : FILE × Nat) (hsd : sd ≠ NO_DIRECTORY)
    (hpre : ∀ P ∈ pre, FioFOpenFileSp disk filename mode P.2 sd = none)
    (hR : FioFOpenFileSp disk filename mode R.2 sd = some f) :
    FioFOpenFile_searchpaths disk filename mode sd (pre ++ R :: rest) = some f := by
  induction pre with
  | nil => simp [FioFOpenFile_searchpaths, hR]
  | cons P pre ih =>
    have h1 : FioFOpenFileSp disk filename mode P.2 sd = none := hpre P (by simp)
    have h2 : ∀ Q ∈ pre, FioFOpenFileSp disk filename mode Q.2 sd = none :=
      fun Q hQ => hpre Q (by simp [hQ])
    simp [FioFOpenFile_searchpaths, h1, hsd, ih h2]

theorem FioFOpenFile_depth_of_plain (disk : Disk) (g : Globals) (cache : Caches) (depth : Nat)
    (filename mode : Str) (sd : Subdirectory) (f : FILE × Nat)
    (h : FioFOpenFile_searchpaths disk filename mode sd (FOR_ALL_SEARCHPATHS g) = some f) :
    FioFOpenFile_depth disk g cache (depth + 1) filename mode sd = some f := by
  simp [FioFOpenFile_depth, h]

theorem FioFOpenFile_depth_of_member (disk : Disk) (g : Globals) (cache : Caches) (depth : Nat)
    (filename mode : Str) (sd : Subdirectory) (e : TarFileListEntry) (f : FILE × Nat)
    (hsd : sd ≠ NO_DIRECTORY) (hmode : mode.head? = some 'r')
    (h : FioFOpenFile_searchpaths disk filename mode sd (FOR_ALL_SEARCHPATHS g) = none)
    (he : FioFOpenFile_tar_entry (cache sd) filename = some e)
    (hf : FioFOpenFileTar disk e = some f) :
    FioFOpenFile_depth disk g cache (depth + 1) filename mode sd = some f := by
  simp [FioFOpenFile_depth, h, hsd, hmode, he, hf]

theorem bstrcpy_fits (size : Nat) (s : Str) (h : s.length < size) : bstrcpy size s = s := by
  unfold bstrcpy
  exact List.take_of_length_le (by omega)

/-- A file at a path that fits the buffer is opened at that path. -/
theorem FioFOpenFileSp_of_file (disk : Disk) (filename mode sp : Str) (sd : Subdirectory)
    (bytes : List Char)
    (hfits : (if sd = NO_DIRECTORY then filename
      else sp ++ _subdirs sd ++ filename).length < MAX_PATH)
    (hfile : disk.fopen (if sd = NO_DIRECTORY then filename
      else sp ++ _subdirs sd ++ filename) mode = some bytes) :
    FioFOpenFileSp disk filename mode sp sd =
      some (FILE.plain (if sd = NO_DIRECTORY then filename
        else sp ++ _subdirs sd ++ filename) mode, bytes.length) := by
  unfold FioFOpenFileSp
  simp only [bstrcpy_fits _ _ hfits, hfile]

theorem FioFOpenFileSp_plain (disk : Disk) (filename mode sp : Str) (sd : Subdirectory)
    (f : FILE × Nat) (h : FioFOpenFileSp disk filename mode sp sd = some f) :
    ∃ path, f.1 = FILE.plain path mode := by
  unfold FioFOpenFileSp at h
  generalize (bstrcpy MAX_PATH
    (if sd = NO_DIRECTORY then filename else sp ++ _subdirs sd ++ filename)) = buf at h
  generalize (if sd = NO_DIRECTORY then 0 else sp.length - 1) = keep at h
  simp only at h
  cases h1 : disk.fopen buf mode with
  | some bytes =>
    rw [h1] at h
    simp only [Option.some.injEq] at h
    exact ⟨buf, by rw [← h]⟩
  | none =>
    rw [h1] at h
    simp only at h
    split at h
    · cases h2 : disk.fopen (List.take keep buf ++ strtolower (List.drop keep buf)) mode with
      | some bytes =>
        rw [h2] at h
        simp only [Option.some.injEq] at h
        exact ⟨_, by rw [← h]⟩
      | none => rw [h2] at h; simp at h
    · simp at h

theorem FioFOpenFile_searchpaths_plain (disk : Disk) (filename mode : Str) (sd : Subdirectory)
    (roots : List (Nat × Str)) (f : FILE × Nat)
    (h : FioFOpenFile_searchpaths disk filename mode sd roots = some f) :
    ∃ path, f.1 = FILE.plain path mode := by
  induction roots with
  | nil => simp [FioFOpenFile_searchpaths] at h
  | cons R roots ih =>
    unfold FioFOpenFile_searchpaths at h
    split at h
    · rename_i g hg
      simp at h
      subst h
      exact FioFOpenFileSp_plain disk filename mode R.2 sd _ hg
    · split at h
      · simp at h
      · exact ih h

theorem FioFOpenFileSp_NO_DIRECTORY (disk : Disk) (filename mode sp sp' : Str) :
    FioFOpenFileSp disk filename mode sp NO_DIRECTORY =
      FioFOpenFileSp disk filename mode sp' NO_DIRECTORY := by
  simp [FioFOpenFileSp]

theorem FioFOpenFile_searchpaths_some (disk : Disk) (filename mode : Str) (sd : Subdirectory)
    (roots : List (Nat × Str)) (R : Nat × Str) (hR : R ∈ roots)
    (h : FioFOpenFileSp disk filename mode R.2 sd ≠ none) :
    FioFOpenFile_searchpaths disk filename mode sd roots ≠ none := by
  induction roots with
  | nil => simp at hR
  | cons P roots ih =>
    unfold FioFOpenFile_searchpaths
    split
    · simp
    · rename_i hP
      split
      · rename_i hsd
        subst hsd
        rw [FioFOpenFileSp_NO_DIRECTORY disk filename mode R.2 P.2] at h
        exact absurd hP h
      · rcases List.mem_cons.mp hR with hRP | hRr
        · subst hRP
          exact absurd hP h
        · exact ih hRr

/-! ## Resolution: directory links, search path order, plain files first -/

/-- C1 (as amended): a directory link `a/ -> b/` whose key is lowercase and which is the
first key of `links`, in iteration order, that applies to the lowercased name: a
read-mode `FioFOpenFile` of `a/x` without plain-file hit looks up in `files` exactly the
key `b/` followed by the lowercased `x`, whatever other links exist (no second
redirection), and returns that member when it is there and its archive opens. -/
theorem FioFOpenFile_directory_link_one_level (disk : Disk) (g : Globals) (cache : Caches)
    (sd : Subdirectory) (pre post : StdMap Str) (a b x mode : Str)
    (hsd : sd ≠ NO_DIRECTORY) (hmode : mode.head? = some 'r')
    (hlinks : (cache sd).links = pre ++ (a, b) :: post)
    (ha : a.getLast? = some PATHSEPCHAR) (hlow : strtolower a = a)
    (hpre : ∀ l ∈ pre, link_applies l.1 (strtolower (a ++ x)) = false)
    (hplain : FioFOpenFile_searchpaths disk (a ++ x) mode sd (FOR_ALL_SEARCHPATHS g) = none) :
    FioFOpenFile_tar_entry (cache sd) (a ++ x) =
        StdMap.find (cache sd).files (b ++ strtolower x) ∧
      ∀ e f, StdMap.find (cache sd).files (b ++ strtolower x) = some e →
        FioFOpenFileTar disk e = some f →
        FioFOpenFile disk g cache (a ++ x) mode sd = some f := by
  have hname : strtolower (a ++ x) = a ++ strtolower x := by
    rw [strtolower_append, hlow]
  have happ : link_applies a (strtolower (a ++ x)) = true := by
    rw [hname]
    exact link_applies_prefix a _ ha
  have hres : resolve_one_link (strtolower (a ++ x)) (cache sd).links = b ++ strtolower x := by
    rw [hlinks, resolve_one_link_first _ pre post a b hpre happ, hname]
    simp
  have hentry : FioFOpenFile_tar_entry (cache sd) (a ++ x) =
      StdMap.find (cache sd).files (b ++ strtolower x) := by
    simp only [FioFOpenFile_tar_entry, hres]
  refine ⟨hentry, ?_⟩
  intro e f he hf
  exact FioFOpenFile_depth_of_member disk g cache 2 (a ++ x) mode sd e f hsd hmode hplain
    (by rw [hentry, he]) hf

set_option maxRecDepth 100000 in
/-- Witness of C1: with the links `a/ -> c/` and `c/ -> d/`, the lookup of `a/x` reaches
the member `c/x`, not `d/x`. -/
theorem FioFOpenFile_directory_link_one_level_witness :
    FioFOpenFile_tar_entry chain_index "a/x".toList = some ⟨ex_tar, 7, 512⟩ ∧
      FioFOpenFile (ex_disk []) ex_globals (ex_caches chain_index) "a/x".toList "rb".toList
        LANG_DIR = some (FILE.member ⟨ex_tar, 7, 512⟩, 7) := by
  have h := FioFOpenFile_directory_link_one_level (ex_disk []) ex_globals
    (ex_caches chain_index) LANG_DIR [] [("c/".toList, "d/".toList)] "a/".toList "c/".toList
    "x".toList "rb".toList (by decide) (by decide) (by decide) (by decide) (by decide)
    (by simp) (by decide)
  exact ⟨h.1.trans (by decide), h.2 ⟨ex_tar, 7, 512⟩ _ (by decide) (by decide)⟩

set_option maxRecDepth 100000 in
/-- Counterexample to C1 as stated: `TarCache::add` builds from `shadow_archive` an index
with the links `p/ -> z/` and `p/q/ -> b/` and the member `b/x`; the lookup of `p/q/x`
applies the link `p/` (first in key order) and finds nothing, although the lookup of
`b/x` yields the member. -/
theorem FioFOpenFile_directory_link_shadowed :
    TarCache.add (ex_disk shadow_archive) 8 TarCache.empty ex_tar = some (true, shadow_index) ∧
      StdMap.find shadow_index.links "p/q/".toList = some "b/".toList ∧
      FioFOpenFile_searchpaths (ex_disk shadow_archive) "p/q/x".toList "rb".toList LANG_DIR
        (FOR_ALL_SEARCHPATHS ex_globals) = none ∧
      StdMap.find shadow_index.files "b/x".toList = some shadow_entry ∧
      FioFOpenFileTar (ex_disk shadow_archive) shadow_entry =
        some (FILE.member shadow_entry, 7) ∧
      FioFOpenFile_tar_entry shadow_index "p/q/x".toList = none ∧
      FioFOpenFile (ex_disk shadow_archive) ex_globals (ex_caches shadow_index)
        "p/q/x".toList "rb".toList LANG_DIR = none := by
  decide

/-- C2 (as amended): for a subdirectory other than `NO_DIRECTORY`, when the search paths
`R1` and `R2` (in this order) both hold the plain file, the path of the file under `R1`
has fewer than `MAX_PATH` characters and no search path before `R1` opens the file,
`FioFOpenFile` returns the file of `R1`. -/
theorem FioFOpenFile_first_searchpath_wins (disk : Disk) (g : Globals) (cache : Caches)
    (sd : Subdirectory) (filename mode : Str) (pre mid post : List (Nat × Str))
    (R1 R2 : Nat × Str) (bytes1 bytes2 : List Char) (hsd : sd ≠ NO_DIRECTORY)
    (hroots : FOR_ALL_SEARCHPATHS g = pre ++ R1 :: (mid ++ R2 :: post))
    (hpre : ∀ P ∈ pre, FioFOpenFileSp disk filename mode P.2 sd = none)
    (hfits : (R1.2 ++ _subdirs sd ++ filename).length < MAX_PATH)
    (h1 : disk.fopen (R1.2 ++ _subdirs sd ++ filename) mode = some bytes1)
    (_h2 : disk.fopen (R2.2 ++ _subdirs sd ++ filename) mode = some bytes2) :
    FioFOpenFile disk g cache filename mode sd =
      some (FILE.plain (R1.2 ++ _subdirs sd ++ filename) mode, bytes1.length) := by
  have hR : FioFOpenFileSp disk filename mode R1.2 sd =
      some (FILE.plain (R1.2 ++ _subdirs sd ++ filename) mode, bytes1.length) := by
    have h := FioFOpenFileSp_of_file disk filename mode R1.2 sd bytes1
      (by rw [if_neg hsd]; exact hfits) (by rw [if_neg hsd]; exact h1)
    rw [if_neg hsd] at h
    exact h
  have hs := FioFOpenFile_searchpaths_first disk filename mode sd pre (mid ++ R2 :: post) R1 _
    hsd hpre hR
  rw [← hroots] at hs
  exact FioFOpenFile_depth_of_plain disk g cache 2 filename mode sd _ hs

/-- Witness of C2: `lang/f` under `/r1/` and under `/r2/`; the file of `/r1/` is
returned. -/
theorem FioFOpenFile_first_searchpath_wins_witness :
    FioFOpenFile two_roots_disk two_roots (ex_caches f_index) "f".toList "rb".toList LANG_DIR =
      some (FILE.plain "/r1/lang/f".toList "rb".toList, 3) :=
  FioFOpenFile_first_searchpath_wins two_roots_disk two_roots (ex_caches f_index) LANG_DIR
    "f".toList "rb".toList [] [] [] (0, "/r1/".toList) (2, "/r2/".toList) "one".toList
    "other".toList (by decide) (by decide) (by simp) (by decide) (by decide) (by decide)

set_option maxRecDepth 100000 in
/-- Counterexample to C2 as stated: the search paths `deep_root` and `/r2/`, in this order,
both hold the plain file `lang/f`.  The path under `deep_root` has 263 characters and is
cut to the 259 that `buf` holds, no file has the cut path, and `FioFOpenFile` returns the
file of `/r2/`. -/
theorem FioFOpenFile_long_path_skipped :
    FOR_ALL_SEARCHPATHS deep_roots = [(0, deep_root), (2, "/r2/".toList)] ∧
    deep_roots_disk.fopen (deep_root ++ _subdirs LANG_DIR ++ "f".toList) "rb".toList =
      some "one".toList ∧
    deep_roots_disk.fopen ("/r2/".toList ++ _subdirs LANG_DIR ++ "f".toList) "rb".toList =
      some "other".toList ∧
    (deep_root ++ _subdirs LANG_DIR ++ "f".toList).length = 263 ∧
    FioFOpenFileSp deep_roots_disk "f".toList "rb".toList deep_root LANG_DIR = none ∧
    FioFOpenFile deep_roots_disk deep_roots (ex_caches TarCache.empty) "f".toList "rb".toList
      LANG_DIR = some (FILE.plain "/r2/lang/f".toList "rb".toList, 5) := by
  decide

/-- When the open succeeds for some search path, `FioFOpenFile` returns a plain file, and
the same one whatever the tar indexes hold: the tar index is not consulted. -/
theorem FioFOpenFile_plain_of_probe (disk : Disk) (g : Globals) (cache : Caches)
    (sd : Subdirectory) (filename mode : Str) (R : Nat × Str)
    (hR : R ∈ FOR_ALL_SEARCHPATHS g)
    (hplain : FioFOpenFileSp disk filename mode R.2 sd ≠ none) :
    (∃ path n, FioFOpenFile disk g cache filename mode sd = some (FILE.plain path mode, n)) ∧
      ∀ cache', FioFOpenFile disk g cache' filename mode sd =
        FioFOpenFile disk g cache filename mode sd := by
  have hs := FioFOpenFile_searchpaths_some disk filename mode sd _ R hR hplain
  obtain ⟨f, hf⟩ := Option.ne_none_iff_exists'.mp hs
  obtain ⟨path, hpath⟩ := FioFOpenFile_searchpaths_plain disk filename mode sd _ f hf
  have hall : ∀ c, FioFOpenFile disk g c filename mode sd = some f :=
    fun c => FioFOpenFile_depth_of_plain disk g c 2 filename mode sd f hf
  refine ⟨⟨path, f.2, ?_⟩, fun c => by rw [hall c, hall cache]⟩
  rw [hall cache, ← hpath]

/-- C3 (as amended): when some search path holds the plain file at a path of fewer than
`MAX_PATH` characters (the file name itself for `NO_DIRECTORY`), `FioFOpenFile` returns a
plain file, and the same one whatever the tar indexes hold (also an entry for the same
name): the tar index is not consulted. -/
theorem FioFOpenFile_plain_file_precedence (disk : Disk) (g : Globals) (cache : Caches)
    (sd : Subdirectory) (filename mode : Str) (R : Nat × Str) (bytes : List Char)
    (hR : R ∈ FOR_ALL_SEARCHPATHS g)
    (hfits : (if sd = NO_DIRECTORY then filename
      else R.2 ++ _subdirs sd ++ filename).length < MAX_PATH)
    (hfile : disk.fopen (if sd = NO_DIRECTORY then filename
      else R.2 ++ _subdirs sd ++ filename) mode = some bytes) :
    (∃ path n, FioFOpenFile disk g cache filename mode sd = some (FILE.plain path mode, n)) ∧
      ∀ cache', FioFOpenFile disk g cache' filename mode sd =
        FioFOpenFile disk g cache filename mode sd := by
  apply FioFOpenFile_plain_of_probe disk g cache sd filename mode R hR
  rw [FioFOpenFileSp_of_file disk filename mode R.2 sd bytes hfits hfile]
  simp

/-- Witness of C3: the plain file `lang/f` and an archive member `f`; the plain file is
returned. -/
theorem FioFOpenFile_plain_file_precedence_witness :
    StdMap.find (ex_caches f_index LANG_DIR).files "f".toList = some ⟨ex_tar, 7, 512⟩ ∧
      FioFOpenFile two_roots_disk two_roots (ex_caches f_index) "f".toList "rb".toList
        LANG_DIR = some (FILE.plain "/r1/lang/f".toList "rb".toList, 3) ∧
      ((∃ path n, FioFOpenFile two_roots_disk two_roots (ex_caches f_index) "f".toList
          "rb".toList LANG_DIR = some (FILE.plain path "rb".toList, n)) ∧
        ∀ cache', FioFOpenFile two_roots_disk two_roots cache' "f".toList "rb".toList
          LANG_DIR = FioFOpenFile two_roots_disk two_roots (ex_caches f_index) "f".toList
            "rb".toList LANG_DIR) :=
  ⟨by decide, by decide,
    FioFOpenFile_plain_file_precedence two_roots_disk two_roots (ex_caches f_index) LANG_DIR
      "f".toList "rb".toList (2, "/r2/".toList) "other".toList (by decide) (by decide)
      (by decide)⟩

set_option maxRecDepth 100000 in
/-- Counterexample to C3 as stated: the search path `deep_root` holds the plain file
`lang/f`, at a path of 263 characters, and the index of `LANG_DIR` has an entry for `f`.
The path is cut to the 259 characters that `buf` holds, the open fails, and a read-mode
`FioFOpenFile` returns the archive member. -/
theorem FioFOpenFile_long_path_yields_member :
    FOR_ALL_SEARCHPATHS deep_globals = [(0, deep_root)] ∧
    deep_roots_disk.fopen (deep_root ++ _subdirs LANG_DIR ++ "f".toList) "rb".toList =
      some "one".toList ∧
    StdMap.find (ex_caches f_index LANG_DIR).files "f".toList = some ⟨ex_tar, 7, 512⟩ ∧
    FioFOpenFile deep_roots_disk deep_globals (ex_caches f_index) "f".toList "rb".toList
      LANG_DIR = some (FILE.member ⟨ex_tar, 7, 512⟩, 7) := by
  decide

/-! ## The scenario of the language files -/

theorem lang_scenario_steps (tar : Str) (h1 body h2 : List Char)
    (hl1 : h1.length = 512) (hlb : body.length = 512) (hl2 : h2.length = 512)
    (hm1 : valid_magic h1 = true) (hm2 : valid_magic h2 = true)
    (hn1 : header_name h1 = "lang/english.lng".toList) (hs1 : header_skip h1 = 100)
    (hf1 : TarHeader.typeflag h1 = '0')
    (hn2 : header_name h2 = "lang2".toList) (hs2 : header_skip h2 = 0)
    (hf2 : TarHeader.typeflag h2 = '2')
    (hk2 : field_string (TarHeader.linkname h2) = "lang".toList) (fuel : Nat) :
    add_loop tar (h1 ++ body ++ h2) (fuel + 3) ⟨⟨[(tar, ⟨tar, none⟩)], [], []⟩, [], 0, 0⟩ =
      some (true, ⟨⟨[(tar, ⟨tar, none⟩)], [("lang/english.lng".toList, ⟨tar, 100, 512⟩)], []⟩,
        [("lang2".toList, "lang".toList)], 1, 1536⟩) := by
  have e1 : header_at (h1 ++ body ++ h2) 0 = h1 := by
    simp only [header_at, List.drop_zero, List.append_assoc]
    exact List.take_left' hl1
  have e2 : header_at (h1 ++ body ++ h2) 1024 = h2 := by
    have hd : (h1 ++ body ++ h2).drop 1024 = h2 :=
      List.drop_left' (by simp [hl1, hlb])
    simp only [header_at, hd]
    rw [← hl2, List.take_length]
  have e3 : header_at (h1 ++ body ++ h2) 1536 = [] := by
    simp only [header_at]
    rw [List.drop_of_length_le (by simp [hl1, hlb, hl2])]
    rfl
  have a1 : add_entry tar h1 ⟨⟨[(tar, ⟨tar, none⟩)], [], []⟩, [], 0, 512⟩ =
      ⟨⟨[(tar, ⟨tar, none⟩)], [("lang/english.lng".toList, ⟨tar, 100, 512⟩)], []⟩, [], 1, 512⟩ := by
    have hsimp : SimplifyFileName "lang/english.lng".toList = "lang/english.lng".toList := by
      decide
    unfold add_entry
    simp only [hn1, hs1, hf1, hsimp]
    simp [StdMap.insert, StdMap.find, StdMap.place]
  have a2 : add_entry tar h2
      ⟨⟨[(tar, ⟨tar, none⟩)], [("lang/english.lng".toList, ⟨tar, 100, 512⟩)], []⟩, [], 1, 1536⟩ =
      ⟨⟨[(tar, ⟨tar, none⟩)], [("lang/english.lng".toList, ⟨tar, 100, 512⟩)], []⟩,
        [("lang2".toList, "lang".toList)], 1, 1536⟩ := by
    have hsimp1 : SimplifyFileName "lang2".toList = "lang2".toList := by decide
    have hsimp2 : SimplifyFileName "lang".toList = "lang".toList := by decide
    have hdest : link_destination "lang2".toList "lang".toList = "lang".toList := by decide
    unfold add_entry
    simp only [hn2, hs2, hf2, hk2, hsimp1, hsimp2, hdest]
    simp [StdMap.insert, StdMap.find, StdMap.place, PATHSEPCHAR]
  have s1 : add_header tar (h1 ++ body ++ h2) ⟨⟨[(tar, ⟨tar, none⟩)], [], []⟩, [], 0, 0⟩ =
      HeaderStep.next
        ⟨⟨[(tar, ⟨tar, none⟩)], [("lang/english.lng".toList, ⟨tar, 100, 512⟩)], []⟩, [], 1, 1024⟩ := by
    unfold add_header
    simp only [e1, hl1, hm1, hs1]
    have : (0 + 512) % 2 ^ 64 = 512 := by norm_num
    simp only [this, a1]
    have hA : Align 100 512 = 512 := by decide
    have hF : fseek_cur_fails 512 512 = false := by decide
    simp [hA, hF]
  have s2 : add_header tar (h1 ++ body ++ h2)
      ⟨⟨[(tar, ⟨tar, none⟩)], [("lang/english.lng".toList, ⟨tar, 100, 512⟩)], []⟩, [], 1, 1024⟩ =
      HeaderStep.next
        ⟨⟨[(tar, ⟨tar, none⟩)], [("lang/english.lng".toList, ⟨tar, 100, 512⟩)], []⟩,
          [("lang2".toList, "lang".toList)], 1, 1536⟩ := by
    unfold add_header
    simp only [e2, hl2, hm2, hs2]
    have : (1024 + 512) % 2 ^ 64 = 1536 := by norm_num
    simp only [this, a2]
    have hA : Align 0 512 = 0 := by decide
    have hF : fseek_cur_fails 1536 0 = false := by decide
    simp [hA, hF]
  have s3 : add_header tar (h1 ++ body ++ h2)
      ⟨⟨[(tar, ⟨tar, none⟩)], [("lang/english.lng".toList, ⟨tar, 100, 512⟩)], []⟩,
        [("lang2".toList, "lang".toList)], 1, 1536⟩ = HeaderStep.done := by
    unfold add_header
    simp only [e3]
    rfl
  have l3 : ∀ k st, add_header tar (h1 ++ body ++ h2) st = HeaderStep.done →
      add_loop tar (h1 ++ body ++ h2) (k + 1) st = some (true, st) := by
    intro k st h
    simp only [add_loop, h]
  have l2 : ∀ k st st', add_header tar (h1 ++ body ++ h2) st = HeaderStep.next st' →
      add_loop tar (h1 ++ body ++ h2) (k + 1) st = add_loop tar (h1 ++ body ++ h2) k st' := by
    intro k st st' h
    simp only [add_loop, h]
  rw [l2 (fuel + 2) _ _ s1, l2 (fuel + 1) _ _ s2, l3 fuel _ s3]

/-- C4: for every archive made of a header of the regular file `lang/english.lng` with
size 100, its body block, and a link header `lang2 -> lang`, `TarCache::add` on the empty
index records the member with length 100 at offset 512, where its body stands, and the
directory link `lang2/ -> lang/`; a read-mode lookup of `lang2/english.lng` without
plain-file hit then yields that member, with length 100. -/
theorem lang_scenario (disk : Disk) (g : Globals) (tar mode : Str) (h1 body h2 : List Char)
    (fuel : Nat)
    (hl1 : h1.length = 512) (hlb : body.length = 512) (hl2 : h2.length = 512)
    (hm1 : valid_magic h1 = true) (hm2 : valid_magic h2 = true)
    (hn1 : header_name h1 = "lang/english.lng".toList) (hs1 : header_skip h1 = 100)
    (hf1 : TarHeader.typeflag h1 = '0')
    (hn2 : header_name h2 = "lang2".toList) (hs2 : header_skip h2 = 0)
    (hf2 : TarHeader.typeflag h2 = '2')
    (hk2 : field_string (TarHeader.linkname h2) = "lang".toList)
    (hopen : disk.fopen tar "rb".toList = some (h1 ++ body ++ h2))
    (hmode : mode.head? = some 'r')
    (hplain : FioFOpenFile_searchpaths disk "lang2/english.lng".toList mode LANG_DIR
      (FOR_ALL_SEARCHPATHS g) = none)
    (hfuel : 3 ≤ fuel) :
    TarCache.add disk fuel TarCache.empty tar = some (true, lang_index tar) ∧
      ((h1 ++ body ++ h2).drop 512).take 100 = body.take 100 ∧
      ∀ cache : Caches, cache LANG_DIR = lang_index tar →
        FioFOpenFile disk g cache "lang2/english.lng".toList mode LANG_DIR =
          some (FILE.member ⟨tar, 100, 512⟩, 100) := by
  obtain ⟨k, hk⟩ : ∃ k, fuel = k + 3 := ⟨fuel - 3, by omega⟩
  have hloop := lang_scenario_steps tar h1 body h2 hl1 hlb hl2 hm1 hm2 hn1 hs1 hf1 hn2 hs2
    hf2 hk2 k
  refine ⟨?_, ?_, ?_⟩
  · have hlow1 : strtolower "lang2".toList = "lang2".toList := by decide
    have hlow2 : strtolower "lang".toList = "lang".toList := by decide
    unfold TarCache.add
    simp only [TarCache.empty, StdMap.find, hopen, StdMap.assign, hk, hloop, add_links,
      TarCache.add_link, hlow1, hlow2, lang_index]
    simp [StdMap.find, StdMap.insert, StdMap.place, PATHSEPCHAR]
  · rw [List.append_assoc, List.drop_left' hl1, List.take_append_of_le_length (by omega)]
  · intro cache hc
    have hlow : strtolower "lang2/english.lng".toList = "lang2/english.lng".toList := by decide
    have hres : resolve_one_link "lang2/english.lng".toList [("lang2/".toList, "lang/".toList)] =
        "lang/english.lng".toList := by decide
    have he : FioFOpenFile_tar_entry (cache LANG_DIR) "lang2/english.lng".toList =
        some ⟨tar, 100, 512⟩ := by
      simp only [FioFOpenFile_tar_entry, hc, lang_index, hlow, hres, StdMap.find]
      simp
    have hf : FioFOpenFileTar disk ⟨tar, 100, 512⟩ = some (FILE.member ⟨tar, 100, 512⟩, 100) := by
      unfold FioFOpenFileTar
      simp only [hopen]
      simp
    exact FioFOpenFile_depth_of_member disk g cache 2 _ mode LANG_DIR _ _ (by decide) hmode
      hplain he hf

set_option maxRecDepth 100000 in
/-- Witness of C4: the archive `lang_archive`, whose body is 100 letters `x` padded to a
block. -/
theorem lang_scenario_witness :
    TarCache.add (ex_disk lang_archive) 8 TarCache.empty ex_tar =
        some (true, lang_index ex_tar) ∧
      (lang_archive.drop 512).take 100 = List.replicate 100 'x' ∧
      FioFOpenFile (ex_disk lang_archive) ex_globals (ex_caches (lang_index ex_tar))
        "lang2/english.lng".toList "rb".toList LANG_DIR =
          some (FILE.member ⟨ex_tar, 100, 512⟩, 100) := by
  have h := lang_scenario (ex_disk lang_archive) ex_globals ex_tar "rb".toList
    (mk_header "lang/english.lng".toList "00000000144".toList '0' [])
    (pad (List.replicate 100 'x') 512)
    (mk_header "lang2".toList "00000000000".toList '2' "lang".toList) 8
    (by decide) (by decide) (by decide) (by decide) (by decide) (by decide) (by decide)
    (by decide) (by decide) (by decide) (by decide) (by decide) (by rfl) (by decide)
    (by decide) (by decide)
  exact ⟨h.1, h.2.1.trans (by decide), h.2.2 _ rfl⟩

/-! ## Reachability of the indexed members -/

theorem resolve_one_link_none (name : Str) (links : StdMap Str)
    (h : ∀ l ∈ links, link_applies l.1 name = false) : resolve_one_link name links = name := by
  induction links with
  | nil => rfl
  | cons l links ih =>
    obtain ⟨src, dst⟩ := l
    have h1 : link_applies src name = false := h (src, dst) (by simp)
    have h2 : ∀ l ∈ links, link_applies l.1 name = false := fun l hl => h l (by simp [hl])
    simp [resolve_one_link, h1, ih h2]

/-- C5 (as amended): a normalized name `n` that is a key of `files` after the scan and to
which no key of `links` applies is reached by a read-mode `FioFOpenFile(n)` without
plain-file hit: the lookup finds `files[n]` and returns that member when its archive
opens; on the cleared index the same lookup finds no entry. -/
theorem FioFOpenFile_reaches_member (disk : Disk) (g : Globals) (cache : Caches)
    (sd : Subdirectory) (n mode : Str) (e : TarFileListEntry) (f : FILE × Nat)
    (hsd : sd ≠ NO_DIRECTORY) (hmode : mode.head? = some 'r') (hn : strtolower n = n)
    (hfile : StdMap.find (cache sd).files n = some e)
    (hlinks : ∀ l ∈ (cache sd).links, link_applies l.1 n = false)
    (hplain : FioFOpenFile_searchpaths disk n mode sd (FOR_ALL_SEARCHPATHS g) = none)
    (hopen : FioFOpenFileTar disk e = some f) :
    FioFOpenFile_tar_entry (cache sd) n = some e ∧
      FioFOpenFile disk g cache n mode sd = some f ∧
      FioFOpenFile_tar_entry { cache sd with files := [], tars := [] } n = none := by
  have hentry : FioFOpenFile_tar_entry (cache sd) n = some e := by
    simp only [FioFOpenFile_tar_entry, hn, resolve_one_link_none n _ hlinks, hfile]
  refine ⟨hentry, ?_, ?_⟩
  · exact FioFOpenFile_depth_of_member disk g cache 2 n mode sd e f hsd hmode hplain hentry hopen
  · simp [FioFOpenFile_tar_entry, StdMap.find]

set_option maxRecDepth 100000 in
/-- Witness of C5: the member `lang/english.lng` of the scenario is reached, the link
`lang2/` does not apply to it. -/
theorem FioFOpenFile_reaches_member_witness :
    FioFOpenFile_tar_entry (ex_caches (lang_index ex_tar) LANG_DIR) "lang/english.lng".toList =
        some ⟨ex_tar, 100, 512⟩ ∧
      FioFOpenFile (ex_disk lang_archive) ex_globals (ex_caches (lang_index ex_tar))
        "lang/english.lng".toList "rb".toList LANG_DIR =
          some (FILE.member ⟨ex_tar, 100, 512⟩, 100) ∧
      FioFOpenFile_tar_entry { ex_caches (lang_index ex_tar) LANG_DIR with files := [], tars := [] }
        "lang/english.lng".toList = none :=
  FioFOpenFile_reaches_member (ex_disk lang_archive) ex_globals (ex_caches (lang_index ex_tar)) LANG_DIR
    "lang/english.lng".toList "rb".toList ⟨ex_tar, 100, 512⟩ (FILE.member ⟨ex_tar, 100, 512⟩, 100)
    (by decide) (by decide) (by decide) (by decide) (by decide) (by decide) (by decide)

set_option maxRecDepth 100000 in
/-- Counterexample to C5 as stated: `TarCache::add` indexes the member `a/x` of
`hidden_archive` and, from the link `a -> b`, the directory link `a/ -> b/`; the lookup
of `a/x` is redirected to `b/x` and does not reach `files["a/x"]`. -/
theorem FioFOpenFile_member_hidden_by_link :
    TarCache.add (ex_disk hidden_archive) 8 TarCache.empty ex_tar = some (true, hidden_index) ∧
      StdMap.find hidden_index.files "a/x".toList = some ⟨ex_tar, 7, 512⟩ ∧
      FioFOpenFileTar (ex_disk hidden_archive) ⟨ex_tar, 7, 512⟩ =
        some (FILE.member ⟨ex_tar, 7, 512⟩, 7) ∧
      FioFOpenFile_tar_entry hidden_index "a/x".toList = none ∧
      FioFOpenFile (ex_disk hidden_archive) ex_globals (ex_caches hidden_index) "a/x".toList
        "rb".toList LANG_DIR = none := by
  decide

/-! ## Link headers and bad headers in `TarCache::add` -/

theorem add_entry_absolute_link (filename : Str) (th : TarHeader) (st : ScanState)
    (hflag : TarHeader.typeflag th = '1' ∨ TarHeader.typeflag th = '2')
    (habs : (SimplifyFileName (field_string (TarHeader.linkname th))).head? =
      some PATHSEPCHAR) :
    add_entry filename th st = st := by
  unfold add_entry
  rcases hflag with h | h <;> simp [h, habs]

/-- C6 (as amended): a hard-link or symbolic-link header whose simplified link target
starts with the path separator adds nothing: the `switch` changes neither `files`, nor the
collected links, nor the archive record, nor the count.  When the seek past the entry
succeeds, the pass changes only the offset and the loop goes on with the header that
follows; when the seek fails, `TarCache::add` returns false at this header. -/
theorem add_absolute_link_ignored (filename : Str) (content : List Char) (fuel : Nat)
    (st : ScanState)
    (hlen : (header_at content st.pos).length = 512)
    (hmagic : valid_magic (header_at content st.pos) = true)
    (hflag : TarHeader.typeflag (header_at content st.pos) = '1' ∨
      TarHeader.typeflag (header_at content st.pos) = '2')
    (habs : (SimplifyFileName (field_string (TarHeader.linkname
      (header_at content st.pos)))).head? = some PATHSEPCHAR) :
    (∀ s, add_entry filename (header_at content st.pos) s = s) ∧
    (fseek_cur_fails ((st.pos + 512) % 2 ^ 64)
        (Align (header_skip (header_at content st.pos)) 512) = false →
      add_header filename content st = HeaderStep.next { st with
        pos := ((st.pos + 512) % 2 ^ 64 +
          Align (header_skip (header_at content st.pos)) 512) % 2 ^ 64 } ∧
      add_loop filename content (fuel + 1) st = add_loop filename content fuel { st with
        pos := ((st.pos + 512) % 2 ^ 64 +
          Align (header_skip (header_at content st.pos)) 512) % 2 ^ 64 }) ∧
    (fseek_cur_fails ((st.pos + 512) % 2 ^ 64)
        (Align (header_skip (header_at content st.pos)) 512) = true →
      add_header filename content st =
        HeaderStep.failed { st with pos := (st.pos + 512) % 2 ^ 64 } ∧
      add_loop filename content (fuel + 1) st =
        some (false, { st with pos := (st.pos + 512) % 2 ^ 64 })) := by
  refine ⟨fun s => add_entry_absolute_link filename _ s hflag habs, ?_, ?_⟩
  · intro hseek
    have hstep : add_header filename content st = HeaderStep.next { st with
        pos := ((st.pos + 512) % 2 ^ 64 +
          Align (header_skip (header_at content st.pos)) 512) % 2 ^ 64 } := by
      unfold add_header
      simp only [hlen, hmagic, add_entry_absolute_link filename _ _ hflag habs, hseek]
      simp
    exact ⟨hstep, by simp only [add_loop, hstep]⟩
  · intro hseek
    have hstep : add_header filename content st =
        HeaderStep.failed { st with pos := (st.pos + 512) % 2 ^ 64 } := by
      unfold add_header
      simp only [hlen, hmagic, add_entry_absolute_link filename _ _ hflag habs, hseek]
      simp
    exact ⟨hstep, by simp only [add_loop, hstep]⟩

set_option maxRecDepth 100000 in
/-- Witness of C6: the link `etc -> /abs` at the start of `absolute_archive` is passed
over, and the scan indexes the member `f` that follows it. -/
theorem add_absolute_link_ignored_witness :
    (add_header ex_tar absolute_archive ⟨TarCache.empty, [], 0, 0⟩ =
        HeaderStep.next ⟨TarCache.empty, [], 0, 512⟩ ∧
      add_loop ex_tar absolute_archive 8 ⟨TarCache.empty, [], 0, 0⟩ =
        add_loop ex_tar absolute_archive 7 ⟨TarCache.empty, [], 0, 512⟩) ∧
      TarCache.add (ex_disk absolute_archive) 8 TarCache.empty ex_tar =
        some (true, ⟨[(ex_tar, ⟨ex_tar, none⟩)], [("f".toList, ⟨ex_tar, 7, 1024⟩)], []⟩) :=
  ⟨(add_absolute_link_ignored ex_tar absolute_archive 7 ⟨TarCache.empty, [], 0, 0⟩
    (by decide) (by decide) (by decide) (by decide)).2.1 (by decide), by decide⟩

set_option maxRecDepth 100000 in
/-- Counterexample to C6 as stated: in `absolute_back_archive` the link `etc -> /abs` has
the size field `-2000`, which is negative as a `long`; the seek past the entry fails,
`TarCache::add` returns false there, and the member `f` of the header that follows is
never indexed. -/
theorem add_absolute_link_stops_scan :
    TarHeader.typeflag (header_at absolute_back_archive 0) = '2' ∧
    (SimplifyFileName (field_string (TarHeader.linkname
      (header_at absolute_back_archive 0)))).head? = some PATHSEPCHAR ∧
    regular_file_header (header_at absolute_back_archive 512) = true ∧
    header_name (header_at absolute_back_archive 512) = "f".toList ∧
    TarCache.add (ex_disk absolute_back_archive) 8 TarCache.empty ex_tar =
      some (false, ⟨[(ex_tar, ⟨ex_tar, none⟩)], [], []⟩) := by
  decide

set_option maxRecDepth 100000 in
/-- C7, the code at the failing input: for the link `a -> ..` the component loop is left
with an empty destination, the pair (`a`, empty) is collected all the same, and
`TarCache::add` stores the directory link `a/ ->` archive root; a lookup of `a/x` is then
redirected to `x`. -/
theorem add_link_above_root_stored :
    link_destination "a".toList "..".toList = [] ∧
      TarCache.add (ex_disk escape_archive) 8 TarCache.empty ex_tar =
        some (true, ⟨[(ex_tar, ⟨ex_tar, none⟩)], [], [("a/".toList, [])]⟩) ∧
      resolve_one_link "a/x".toList [("a/".toList, [])] = "x".toList := by
  decide

theorem add_entry_links (filename : Str) (th : TarHeader) (st : ScanState) :
    (add_entry filename th st).tc.links = st.tc.links := by
  unfold add_entry
  simp only
  repeat' split
  all_goals rfl

theorem add_header_links (filename : Str) (content : List Char) (st st' : ScanState)
    (h : add_header filename content st = HeaderStep.next st') :
    st'.tc.links = st.tc.links := by
  unfold add_header at h
  simp only at h
  split at h
  · simp at h
  · split at h
    · simp at h
    · split at h
      · simp at h
      · simp only [HeaderStep.next.injEq] at h
        rw [← h]
        exact add_entry_links filename _ _

theorem add_headers_links (filename : Str) (content : List Char) (n : Nat) (st st' : ScanState)
    (h : add_headers filename content n st = some st') : st'.tc.links = st.tc.links := by
  induction n generalizing st with
  | zero =>
    simp only [add_headers, Option.some.injEq] at h
    rw [h]
  | succ n ih =>
    unfold add_headers at h
    split at h
    · rename_i st1 h1
      rw [ih st1 h, add_header_links filename content st st1 h1]
    · simp at h

theorem add_loop_of_headers (filename : Str) (content : List Char) (n k : Nat)
    (st st' : ScanState) (h : add_headers filename content n st = some st') :
    add_loop filename content (n + k) st = add_loop filename content k st' := by
  induction n generalizing st with
  | zero =>
    simp only [add_headers, Option.some.injEq] at h
    simp [h]
  | succ n ih =>
    unfold add_headers at h
    split at h
    · rename_i st1 h1
      rw [show n + 1 + k = (n + k) + 1 by omega]
      simp only [add_loop, h1]
      exact ih st1 h
    · simp at h

/-- C8 (as amended): when the first `n` headers of an archive not scanned before are
passed and the block read next is a full block with a bad magic, `TarCache::add` returns
false; `links` is left as it was, and `files` is what the `n` headers before the bad block
made of it (unchanged when the bad block is the first header). -/
theorem add_bad_magic_fails (disk : Disk) (fuel n : Nat) (tc : TarCache) (filename : Str)
    (content : List Char) (st : ScanState)
    (hnew : StdMap.find tc.tars filename = none)
    (hopen : disk.fopen filename "rb".toList = some content)
    (hsteps : add_headers filename content n
      ⟨{ tc with tars := StdMap.assign tc.tars filename ⟨filename, none⟩ }, [], 0, 0⟩ = some st)
    (hlen : (header_at content st.pos).length = 512)
    (hbad : valid_magic (header_at content st.pos) = false)
    (hfuel : n < fuel) :
    TarCache.add disk fuel tc filename = some (false, st.tc) ∧
      st.tc.links = tc.links ∧ (n = 0 → st.tc.files = tc.files) := by
  have hstep : add_header filename content st =
      HeaderStep.failed { st with pos := (st.pos + 512) % 2 ^ 64 } := by
    unfold add_header
    simp [hlen, hbad]
  obtain ⟨k, hk⟩ : ∃ k, fuel = n + (k + 1) := ⟨fuel - n - 1, by omega⟩
  have hloop : add_loop filename content fuel
      ⟨{ tc with tars := StdMap.assign tc.tars filename ⟨filename, none⟩ }, [], 0, 0⟩ =
      some (false, { st with pos := (st.pos + 512) % 2 ^ 64 }) := by
    rw [hk, add_loop_of_headers filename content n (k + 1) _ st hsteps]
    simp only [add_loop, hstep]
  refine ⟨?_, ?_, ?_⟩
  · unfold TarCache.add
    simp only [hnew, hopen, hloop]
  · exact add_headers_links filename content n _ st hsteps
  · intro h0
    subst h0
    simp only [add_headers, Option.some.injEq] at hsteps
    rw [← hsteps]

set_option maxRecDepth 100000 in
/-- Witness of C8: in `corrupt_archive` one header is passed before the bad block;
`TarCache::add` returns false and the member of that header stays in `files`. -/
theorem add_bad_magic_fails_witness :
    TarCache.add (ex_disk corrupt_archive) 8 TarCache.empty ex_tar =
        some (false, ⟨[(ex_tar, ⟨ex_tar, none⟩)], [("a".toList, ⟨ex_tar, 5, 512⟩)], []⟩) ∧
      (⟨[(ex_tar, ⟨ex_tar, none⟩)], [("a".toList, ⟨ex_tar, 5, 512⟩)], []⟩ : TarCache).links =
        TarCache.empty.links ∧
      (1 = 0 → (⟨[(ex_tar, ⟨ex_tar, none⟩)], [("a".toList, ⟨ex_tar, 5, 512⟩)], []⟩ :
        TarCache).files = TarCache.empty.files) :=
  add_bad_magic_fails (ex_disk corrupt_archive) 8 1 TarCache.empty ex_tar corrupt_archive
    ⟨⟨[(ex_tar, ⟨ex_tar, none⟩)], [("a".toList, ⟨ex_tar, 5, 512⟩)], []⟩, [], 1, 1024⟩
    (by decide) (by rfl) (by decide) (by decide) (by decide) (by decide)

set_option maxRecDepth 100000 in
/-- Counterexample to C8 as stated: `corrupt_archive` holds a full block with a bad magic
at a header position; `TarCache::add` returns false, and `files` holds the member `a`
owned by that archive. -/
theorem add_bad_magic_keeps_members :
    valid_magic (header_at corrupt_archive 1024) = false ∧
      (header_at corrupt_archive 1024).length = 512 ∧
      add_headers ex_tar corrupt_archive 1
        ⟨⟨[(ex_tar, ⟨ex_tar, none⟩)], [], []⟩, [], 0, 0⟩ =
        some ⟨⟨[(ex_tar, ⟨ex_tar, none⟩)], [("a".toList, ⟨ex_tar, 5, 512⟩)], []⟩, [], 1, 1024⟩ ∧
      TarCache.add (ex_disk corrupt_archive) 8 TarCache.empty ex_tar =
        some (false, ⟨[(ex_tar, ⟨ex_tar, none⟩)], [("a".toList, ⟨ex_tar, 5, 512⟩)], []⟩) ∧
      StdMap.find [("a".toList, (⟨ex_tar, 5, 512⟩ : TarFileListEntry))] "a".toList =
        some ⟨ex_tar, 5, 512⟩ := by
  decide

/-! ## Maps: insertion of present keys -/

theorem StdMap.find_place_isSome {α : Type} (m : StdMap α) (k q : Str) (v : α) :
    (StdMap.find (StdMap.place m k v) q).isSome = (decide (k = q) || (StdMap.find m q).isSome) := by
  induction m with
  | nil =>
    by_cases h : k = q <;> simp [StdMap.place, StdMap.find, h]
  | cons p m ih =>
    obtain ⟨k', v'⟩ := p
    unfold StdMap.place
    split
    · by_cases h : k = q <;> simp [StdMap.find, h]
    · by_cases h' : k' = q
      · simp [StdMap.find, h']
      · simp [StdMap.find, h', ih]

theorem StdMap.find_insert_isSome {α : Type} (m : StdMap α) (k q : Str) (v : α) :
    (StdMap.find (StdMap.insert m k v).1 q).isSome =
      (decide (k = q) || (StdMap.find m q).isSome) := by
  unfold StdMap.insert
  cases h : StdMap.find m k with
  | none => simp [StdMap.find_place_isSome]
  | some w =>
    by_cases hq : k = q
    · subst hq; simp [h]
    · simp [hq]

theorem StdMap.insert_present {α : Type} (m : StdMap α) (k : Str) (v : α)
    (h : (StdMap.find m k).isSome) : (StdMap.insert m k v).1 = m := by
  unfold StdMap.insert
  cases h' : StdMap.find m k with
  | none => simp [h'] at h
  | some w => rfl

theorem StdMap.find_assign_isSome {α : Type} (m : StdMap α) (k q : Str) (v : α) :
    (StdMap.find (StdMap.assign m k v) q).isSome =
      (decide (k = q) || (StdMap.find m q).isSome) := by
  induction m with
  | nil =>
    by_cases h : k = q <;> simp [StdMap.assign, StdMap.find, h]
  | cons p m ih =>
    obtain ⟨k', v'⟩ := p
    unfold StdMap.assign
    split
    · rename_i hk
      subst hk
      by_cases h : k = q <;> simp [StdMap.find, h]
    · split
      · by_cases h : k = q <;> simp [StdMap.find, h]
      · by_cases h' : k' = q
        · simp [StdMap.find, h']
        · simp [StdMap.find, h', ih]

theorem insert_links_append (L : StdMap Str) (P Q : List (Str × Str)) :
    insert_links L (P ++ Q) = insert_links (insert_links L P) Q := by
  induction P generalizing L with
  | nil => rfl
  | cons p P ih => simp [insert_links, ih]

theorem insert_links_mono (L : StdMap Str) (P : List (Str × Str)) (q : Str)
    (h : (StdMap.find L q).isSome) : (StdMap.find (insert_links L P) q).isSome := by
  induction P generalizing L with
  | nil => exact h
  | cons p P ih =>
    apply ih
    rw [StdMap.find_insert_isSome]
    simp [h]

theorem insert_links_keys (L : StdMap Str) (P : List (Str × Str)) :
    ∀ p ∈ P, (StdMap.find (insert_links L P) p.1).isSome := by
  induction P generalizing L with
  | nil => intro p hp; simp at hp
  | cons p0 P ih =>
    intro p hp
    rcases List.mem_cons.mp hp with h | h
    · subst h
      simp only [insert_links]
      apply insert_links_mono
      rw [StdMap.find_insert_isSome]
      simp
    · simp only [insert_links]
      exact ih _ p h

theorem insert_links_absorb (L : StdMap Str) (P : List (Str × Str))
    (h : ∀ p ∈ P, (StdMap.find L p.1).isSome) : insert_links L P = L := by
  induction P with
  | nil => rfl
  | cons p P ih =>
    have h1 : (StdMap.insert L p.1 p.2).1 = L := StdMap.insert_present L p.1 p.2 (h p (by simp))
    simp only [insert_links, h1]
    exact ih (fun q hq => h q (by simp [hq]))

theorem insert_links_idem (L : StdMap Str) (P : List (Str × Str)) :
    insert_links (insert_links L P) P = insert_links L P :=
  insert_links_absorb _ P (insert_links_keys L P)

/-! ## The scan does not read the directory links -/

theorem add_link_oblivious (tc : TarCache) (src dest : Str) :
    ∃ F P, ∀ L, TarCache.add_link (TarCache.with_links tc L) src dest =
      ⟨tc.tars, F, insert_links L P⟩ := by
  cases h : StdMap.find tc.files (strtolower dest) with
  | some e =>
    refine ⟨(StdMap.insert tc.files (strtolower src) e).1, [], fun L => ?_⟩
    simp [TarCache.add_link, TarCache.with_links, h, insert_links]
  | none =>
    refine ⟨tc.files, [(if (strtolower src).getLast? = some PATHSEPCHAR then strtolower src
        else strtolower src ++ [PATHSEPCHAR],
      if (strtolower dest).length = 0 then []
      else if (strtolower dest).getLast? = some PATHSEPCHAR then strtolower dest
        else strtolower dest ++ [PATHSEPCHAR])], fun L => ?_⟩
    simp [TarCache.add_link, TarCache.with_links, h, insert_links]

theorem add_links_oblivious (links : StdMap Str) (tc : TarCache) :
    ∃ F P, ∀ L, add_links (TarCache.with_links tc L) links = ⟨tc.tars, F, insert_links L P⟩ := by
  induction links generalizing tc with
  | nil => exact ⟨tc.files, [], fun L => rfl⟩
  | cons l links ih =>
    obtain ⟨src, dest⟩ := l
    obtain ⟨F1, P1, h1⟩ := add_link_oblivious tc src dest
    obtain ⟨F2, P2, h2⟩ := ih ⟨tc.tars, F1, []⟩
    refine ⟨F2, P1 ++ P2, fun L => ?_⟩
    have h3 := h2 (insert_links L P1)
    simp only [TarCache.with_links] at h3
    simp only [add_links, h1 L, insert_links_append]
    exact h3

theorem add_entry_with_links (filename : Str) (th : TarHeader) (st : ScanState)
    (L : StdMap Str) :
    add_entry filename th (ScanState.with_links st L) =
      ScanState.with_links (add_entry filename th st) L := by
  unfold add_entry
  simp only [ScanState.with_links, TarCache.with_links]
  repeat' split
  all_goals rfl

/-- The result of a pass with the map `links` of its index replaced by `L`. -/
theorem add_header_with_links (filename : Str) (content : List Char) (st : ScanState)
    (L : StdMap Str) :
    add_header filename content (ScanState.with_links st L) =
      match add_header filename content st with
      | HeaderStep.done => HeaderStep.done
      | HeaderStep.failed s => HeaderStep.failed (ScanState.with_links s L)
      | HeaderStep.next s => HeaderStep.next (ScanState.with_links s L) := by
  have hpos : ∀ s : ScanState, (ScanState.with_links s L).pos = s.pos := fun _ => rfl
  have hmove : ∀ (s : ScanState) (p : Nat),
      { ScanState.with_links s L with pos := p } = ScanState.with_links { s with pos := p } L :=
    fun _ _ => rfl
  unfold add_header
  simp only [hpos, hmove, add_entry_with_links]
  repeat' split
  all_goals first | rfl | simp_all

theorem add_loop_with_links (filename : Str) (content : List Char) (fuel : Nat)
    (st : ScanState) (L : StdMap Str) :
    add_loop filename content fuel (ScanState.with_links st L) =
      (add_loop filename content fuel st).map
        (fun r => (r.1, ScanState.with_links r.2 L)) := by
  induction fuel generalizing st with
  | zero => rfl
  | succ fuel ih =>
    simp only [add_loop, add_header_with_links]
    cases h : add_header filename content st with
    | done => rfl
    | failed s => rfl
    | next s => simp only [ih]

theorem add_oblivious (disk : Disk) (fuel : Nat) (tc : TarCache) (p : Str) :
    (∀ L, TarCache.add disk fuel (TarCache.with_links tc L) p = none) ∨
      ∃ b T F P, ∀ L, TarCache.add disk fuel (TarCache.with_links tc L) p =
        some (b, ⟨T, F, insert_links L P⟩) := by
  cases ht : StdMap.find tc.tars p with
  | some t =>
    right
    refine ⟨false, tc.tars, tc.files, [], fun L => ?_⟩
    simp [TarCache.add, TarCache.with_links, ht, insert_links]
  | none =>
    cases ho : disk.fopen p "rb".toList with
    | none =>
      right
      refine ⟨false, tc.tars, tc.files, [], fun L => ?_⟩
      have ht' : StdMap.find (TarCache.with_links tc L).tars p = none := ht
      unfold TarCache.add
      simp only [ht', ho]
      rfl
    | some content =>
      have hst : ∀ L, (⟨{ TarCache.with_links tc L with
            tars := StdMap.assign (TarCache.with_links tc L).tars p ⟨p, none⟩ }, [], 0, 0⟩ :
            ScanState) =
          ScanState.with_links ⟨⟨StdMap.assign tc.tars p ⟨p, none⟩, tc.files, []⟩, [], 0, 0⟩ L :=
        fun _ => rfl
      have hadd : ∀ L, TarCache.add disk fuel (TarCache.with_links tc L) p =
          match (add_loop p content fuel
              ⟨⟨StdMap.assign tc.tars p ⟨p, none⟩, tc.files, []⟩, [], 0, 0⟩).map
              (fun r => (r.1, ScanState.with_links r.2 L)) with
          | none => none
          | some (false, st) => some (false, st.tc)
          | some (true, st) => some (true, add_links st.tc st.links) := by
        intro L
        have ht' : StdMap.find (TarCache.with_links tc L).tars p = none := ht
        unfold TarCache.add
        simp only [ht', ho, hst, add_loop_with_links]
      cases hl : add_loop p content fuel
          ⟨⟨StdMap.assign tc.tars p ⟨p, none⟩, tc.files, []⟩, [], 0, 0⟩ with
      | none =>
        left
        intro L
        rw [hadd L, hl]
        rfl
      | some r =>
        obtain ⟨b, st⟩ := r
        right
        cases b with
        | false =>
          refine ⟨false, st.tc.tars, st.tc.files, [], fun L => ?_⟩
          rw [hadd L, hl]
          rfl
        | true =>
          obtain ⟨F, P, h⟩ := add_links_oblivious st.links st.tc
          refine ⟨true, st.tc.tars, F, P, fun L => ?_⟩
          rw [hadd L, hl]
          exact congrArg (fun x => some (true, x)) (h L)

theorem add_all_oblivious (disk : Disk) (fuel : Nat) (ps : List Str) (tc : TarCache) :
    (∀ L, add_all disk fuel ps (TarCache.with_links tc L) = none) ∨
      ∃ n T F P, ∀ L, add_all disk fuel ps (TarCache.with_links tc L) =
        some (n, ⟨T, F, insert_links L P⟩) := by
  induction ps generalizing tc with
  | nil => exact Or.inr ⟨0, tc.tars, tc.files, [], fun L => rfl⟩
  | cons p ps ih =>
    rcases add_oblivious disk fuel tc p with h | ⟨b, T, F, P, h⟩
    · left
      intro L
      simp only [add_all, h L]
    · rcases ih ⟨T, F, []⟩ with h2 | ⟨n, T2, F2, P2, h2⟩
      · left
        intro L
        have h3 := h2 (insert_links L P)
        simp only [TarCache.with_links] at h3
        simp only [add_all, h L, h3]
      · right
        refine ⟨(if b then 1 else 0) + n, T2, F2, P ++ P2, fun L => ?_⟩
        have h3 := h2 (insert_links L P)
        simp only [TarCache.with_links] at h3
        simp only [add_all, h L, h3, insert_links_append]

/-- Scanning the same archives again on the cleared index, with the links of the first
scan kept, gives the index of the first scan. -/
theorem add_all_replay (disk : Disk) (fuel : Nat) (ps : List Str) (L0 : StdMap Str) (n : Nat)
    (tc1 : TarCache) (h : add_all disk fuel ps ⟨[], [], L0⟩ = some (n, tc1)) :
    add_all disk fuel ps ⟨[], [], tc1.links⟩ = some (n, tc1) := by
  rcases add_all_oblivious disk fuel ps ⟨[], [], []⟩ with hn | ⟨m, T, F, P, hs⟩
  · have h0 := hn L0
    simp only [TarCache.with_links] at h0
    rw [h0] at h
    simp at h
  · have h0 := hs L0
    simp only [TarCache.with_links] at h0
    rw [h0] at h
    simp only [Option.some.injEq, Prod.mk.injEq] at h
    obtain ⟨hm, htc⟩ := h
    subst hm
    subst htc
    have h1 := hs (insert_links L0 P)
    simp only [TarCache.with_links] at h1
    simp only [h1, insert_links_idem]

/-! ## Archives already seen are skipped -/

theorem add_entry_tars_mono (filename : Str) (th : TarHeader) (st : ScanState) (q : Str)
    (h : (StdMap.find st.tc.tars q).isSome) :
    (StdMap.find (add_entry filename th st).tc.tars q).isSome := by
  unfold add_entry
  simp only
  repeat' split
  all_goals first
    | exact h
    | (simp only [StdMap.find_assign_isSome, h, Bool.or_true])

theorem add_header_tars_mono (filename : Str) (content : List Char) (st : ScanState) (q : Str)
    (h : (StdMap.find st.tc.tars q).isSome) :
    match add_header filename content st with
    | HeaderStep.done => True
    | HeaderStep.failed s => (StdMap.find s.tc.tars q).isSome
    | HeaderStep.next s => (StdMap.find s.tc.tars q).isSome := by
  have h' := add_entry_tars_mono filename (header_at content st.pos)
    { st with pos := (st.pos + 512) % 2 ^ 64 } q h
  unfold add_header
  by_cases h1 : (header_at content st.pos).length ≠ 512
  · simp only [if_pos h1]
  · by_cases h2 : valid_magic (header_at content st.pos) = false
    · simp only [if_neg h1, if_pos h2]
      exact h
    · by_cases h3 : fseek_cur_fails (add_entry filename (header_at content st.pos)
          { st with pos := (st.pos + 512) % 2 ^ 64 }).pos
          (Align (header_skip (header_at content st.pos)) 512) = true
      · simp only [if_neg h1, if_neg h2, if_pos h3]
        exact h'
      · simp only [if_neg h1, if_neg h2, if_neg h3]
        exact h'

theorem add_loop_tars_mono (filename : Str) (content : List Char) (fuel : Nat)
    (st : ScanState) (q : Str) (b : Bool) (st' : ScanState)
    (h : (StdMap.find st.tc.tars q).isSome)
    (hl : add_loop filename content fuel st = some (b, st')) :
    (StdMap.find st'.tc.tars q).isSome := by
  induction fuel generalizing st with
  | zero => simp [add_loop] at hl
  | succ fuel ih =>
    have hh := add_header_tars_mono filename content st q h
    unfold add_loop at hl
    cases hs : add_header filename content st with
    | done =>
      rw [hs] at hl
      simp only [Option.some.injEq, Prod.mk.injEq] at hl
      rw [← hl.2]
      exact h
    | failed s =>
      rw [hs] at hl hh
      simp only [Option.some.injEq, Prod.mk.injEq] at hl
      rw [← hl.2]
      exact hh
    | next s =>
      rw [hs] at hl hh
      exact ih s hh hl

theorem add_link_tars (tc : TarCache) (src dest : Str) :
    (TarCache.add_link tc src dest).tars = tc.tars := by
  unfold TarCache.add_link
  simp only
  split <;> rfl

theorem add_links_tars (links : StdMap Str) (tc : TarCache) :
    (add_links tc links).tars = tc.tars := by
  induction links generalizing tc with
  | nil => rfl
  | cons l links ih =>
    obtain ⟨src, dest⟩ := l
    simp only [add_links, ih, add_link_tars]

theorem add_seen (disk : Disk) (fuel : Nat) (tc : TarCache) (p : Str)
    (h : (StdMap.find tc.tars p).isSome ∨ disk.fopen p "rb".toList = none) :
    TarCache.add disk fuel tc p = some (false, tc) := by
  unfold TarCache.add
  cases ht : StdMap.find tc.tars p with
  | some t => rfl
  | none =>
    rcases h with h | h
    · simp [ht] at h
    · simp only [h]

theorem add_tars (disk : Disk) (fuel : Nat) (tc : TarCache) (p : Str) (b : Bool)
    (tc' : TarCache) (h : TarCache.add disk fuel tc p = some (b, tc')) :
    ((StdMap.find tc'.tars p).isSome ∨ disk.fopen p "rb".toList = none) ∧
      ∀ q, (StdMap.find tc.tars q).isSome → (StdMap.find tc'.tars q).isSome := by
  unfold TarCache.add at h
  cases ht : StdMap.find tc.tars p with
  | some t =>
    rw [ht] at h
    simp only [Option.some.injEq, Prod.mk.injEq] at h
    rw [← h.2]
    exact ⟨Or.inl (by simp [ht]), fun q hq => hq⟩
  | none =>
    rw [ht] at h
    cases ho : disk.fopen p "rb".toList with
    | none =>
      rw [ho] at h
      simp only [Option.some.injEq, Prod.mk.injEq] at h
      rw [← h.2]
      exact ⟨Or.inr rfl, fun q hq => hq⟩
    | some content =>
      rw [ho] at h
      simp only at h
      cases hl : add_loop p content fuel
          ⟨{ tc with tars := StdMap.assign tc.tars p ⟨p, none⟩ }, [], 0, 0⟩ with
      | none => rw [hl] at h; simp at h
      | some r =>
        obtain ⟨b', st⟩ := r
        have hmono : ∀ q, (decide (p = q) || (StdMap.find tc.tars q).isSome) = true →
            (StdMap.find st.tc.tars q).isSome := by
          intro q hq
          refine add_loop_tars_mono p content fuel _ q b' st ?_ hl
          simp only [StdMap.find_assign_isSome]
          exact hq
        rw [hl] at h
        cases b' with
        | false =>
          simp only [Option.some.injEq, Prod.mk.injEq] at h
          rw [← h.2]
          exact ⟨Or.inl (hmono p (by simp)), fun q hq => hmono q (by simp [hq])⟩
        | true =>
          simp only [Option.some.injEq, Prod.mk.injEq] at h
          rw [← h.2, add_links_tars]
          exact ⟨Or.inl (hmono p (by simp)), fun q hq => hmono q (by simp [hq])⟩

theorem add_all_seen (disk : Disk) (fuel : Nat) (ps : List Str) (tc : TarCache)
    (h : Seen disk tc ps) : add_all disk fuel ps tc = some (0, tc) := by
  induction ps with
  | nil => rfl
  | cons p ps ih =>
    have h1 := add_seen disk fuel tc p (h p (by simp))
    have h2 := ih (fun q hq => h q (by simp [hq]))
    simp [add_all, h1, h2]

theorem add_all_tars (disk : Disk) (fuel : Nat) (ps : List Str) (tc : TarCache) (n : Nat)
    (tc' : TarCache) (h : add_all disk fuel ps tc = some (n, tc')) :
    Seen disk tc' ps ∧ ∀ q, (StdMap.find tc.tars q).isSome → (StdMap.find tc'.tars q).isSome := by
  induction ps generalizing tc n tc' with
  | nil =>
    simp only [add_all, Option.some.injEq, Prod.mk.injEq] at h
    rw [← h.2]
    exact ⟨fun p hp => by simp at hp, fun q hq => hq⟩
  | cons p ps ih =>
    unfold add_all at h
    cases ha : TarCache.add disk fuel tc p with
    | none => rw [ha] at h; simp at h
    | some r =>
      obtain ⟨b, tc1⟩ := r
      rw [ha] at h
      simp only at h
      cases hr : add_all disk fuel ps tc1 with
      | none => rw [hr] at h; simp at h
      | some r2 =>
        obtain ⟨m, tc2⟩ := r2
        rw [hr] at h
        simp only [Option.some.injEq, Prod.mk.injEq] at h
        obtain ⟨hs, hm⟩ := ih tc1 m tc2 hr
        obtain ⟨hp, hm1⟩ := add_tars disk fuel tc p b tc1 ha
        rw [← h.2]
        refine ⟨?_, fun q hq => hm q (hm1 q hq)⟩
        intro q hq
        rcases List.mem_cons.mp hq with hqp | hqs
        · subst hqp
          rcases hp with hp | hp
          · exact Or.inl (hm q hp)
          · exact Or.inr hp
        · exact hs q hqs

/-- Scanning the same archives once more, without clearing, changes nothing. -/
theorem add_all_again (disk : Disk) (fuel : Nat) (ps : List Str) (tc : TarCache) (n : Nat)
    (tc' : TarCache) (h : add_all disk fuel ps tc = some (n, tc')) :
    add_all disk fuel ps tc' = some (0, tc') :=
  add_all_seen disk fuel ps tc' (add_all_tars disk fuel ps tc n tc' h).1

/-! ## The scan of a subdirectory, index by index -/

theorem add_all_append (disk : Disk) (fuel : Nat) (ps qs : List Str) (tc : TarCache) :
    add_all disk fuel (ps ++ qs) tc =
      match add_all disk fuel ps tc with
      | none => none
      | some (n, tc') =>
        match add_all disk fuel qs tc' with
        | none => none
        | some (m, tc'') => some (n + m, tc'') := by
  induction ps generalizing tc with
  | nil =>
    simp only [List.nil_append, add_all]
    cases add_all disk fuel qs tc with
    | none => rfl
    | some r => simp
  | cons p ps ih =>
    rw [List.cons_append]
    simp only [add_all]
    cases TarCache.add disk fuel tc p with
    | none => rfl
    | some r =>
      obtain ⟨b, tc1⟩ := r
      simp only [ih]
      cases add_all disk fuel ps tc1 with
      | none => rfl
      | some r1 =>
        obtain ⟨n, tc2⟩ := r1
        simp only
        cases add_all disk fuel qs tc2 with
        | none => rfl
        | some r2 => simp [Nat.add_assoc]

theorem ScanPath_files_eq (disk : Disk) (fuel : Nat) (extension : Option Str)
    (sd : Subdirectory) (files : List Str) (cache : Caches) :
    ScanPath_files disk fuel extension sd files cache =
      scan_subdir disk fuel (files.filter (MatchesExtension extension)) sd cache := by
  induction files generalizing cache with
  | nil => simp [ScanPath_files, scan_subdir, add_all]
  | cons p files ih =>
    unfold ScanPath_files
    by_cases hm : MatchesExtension extension p = true
    · simp only [hm, if_true, List.filter_cons_of_pos, scan_subdir, add_all]
      cases TarCache.add disk fuel (cache sd) p with
      | none => rfl
      | some r =>
        obtain ⟨b, tc⟩ := r
        simp only [ih, scan_subdir, Function.update_same]
        cases add_all disk fuel (List.filter (MatchesExtension extension) files) tc with
        | none => rfl
        | some r1 => simp
    · rw [List.filter_cons_of_neg hm]
      simp only [hm, ih]
      simp

theorem scan_subdir_append (disk : Disk) (fuel : Nat) (ps qs : List Str) (sd : Subdirectory)
    (cache : Caches) :
    scan_subdir disk fuel (ps ++ qs) sd cache =
      match scan_subdir disk fuel ps sd cache with
      | none => none
      | some (n, c) =>
        match scan_subdir disk fuel qs sd c with
        | none => none
        | some (m, c') => some (n + m, c') := by
  simp only [scan_subdir, add_all_append]
  cases add_all disk fuel ps (cache sd) with
  | none => rfl
  | some r =>
    obtain ⟨n, tc⟩ := r
    simp only [Function.update_same]
    cases add_all disk fuel qs tc with
    | none => rfl
    | some r1 => simp

theorem Scan_searchpaths_eq (disk : Disk) (fuel : Nat) (g : Globals) (extension : Option Str)
    (sd : Subdirectory) (roots : List (Nat × Str)) (cache : Caches) :
    Scan_searchpaths disk fuel g extension sd roots cache =
      scan_subdir disk fuel (scanned_files disk g extension sd roots) sd cache := by
  induction roots generalizing cache with
  | nil => simp [Scan_searchpaths, scanned_files, scan_subdir, add_all]
  | cons sp roots ih =>
    unfold Scan_searchpaths scanned_files
    by_cases hw : sp.1 = g.SP_WORKING_DIR ∧ g._do_scan_working_directory = false
    · simp only [hw, and_self, if_true, ih]
    · simp only [hw, if_false, scan_subdir_append, ScanPath, ScanPath_files_eq, ih]

theorem FileScanner_Scan_default (disk : Disk) (fuel : Nat) (g : Globals)
    (extension : Option Str) (depth : Nat) (sd : Subdirectory) (cache : Caches)
    (h1 : sd ≠ BASESET_DIR) (h2 : sd ≠ NEWGRF_DIR) :
    FileScanner.Scan disk fuel g extension (depth + 1) sd cache =
      Scan_searchpaths disk fuel g extension sd (FOR_ALL_SEARCHPATHS g) cache := by
  unfold FileScanner.Scan
  cases Scan_searchpaths disk fuel g extension sd (FOR_ALL_SEARCHPATHS g) cache with
  | none => rfl
  | some r =>
    obtain ⟨n, c⟩ := r
    simp only

theorem TarScanner_Scan_caches (disk : Disk) (fuel : Nat) (g : Globals) (sd : Subdirectory)
    (cache : Caches) :
    (TarScanner.Scan disk fuel g sd cache).map Prod.snd =
      (scan_step disk fuel g sd cache).bind (fun c =>
        if sd = BASESET_DIR then
          (scan_step disk fuel g OLD_GM_DIR c).bind (scan_step disk fuel g OLD_DATA_DIR)
        else if sd = NEWGRF_DIR then scan_step disk fuel g OLD_DATA_DIR c
        else some c) := by
  have hgm : ∀ c, FileScanner.Scan disk fuel g (some ".tar".toList) 1 OLD_GM_DIR c =
      scan_subdir disk fuel (scanned_files disk g (some ".tar".toList) OLD_GM_DIR
        (FOR_ALL_SEARCHPATHS g)) OLD_GM_DIR c := fun c => by
    rw [FileScanner_Scan_default disk fuel g _ 0 OLD_GM_DIR c (by decide) (by decide),
      Scan_searchpaths_eq]
  have hod : ∀ c, FileScanner.Scan disk fuel g (some ".tar".toList) 1 OLD_DATA_DIR c =
      scan_subdir disk fuel (scanned_files disk g (some ".tar".toList) OLD_DATA_DIR
        (FOR_ALL_SEARCHPATHS g)) OLD_DATA_DIR c := fun c => by
    rw [FileScanner_Scan_default disk fuel g _ 0 OLD_DATA_DIR c (by decide) (by decide),
      Scan_searchpaths_eq]
  unfold TarScanner.Scan scan_step
  by_cases hb : sd = BASESET_DIR
  · subst hb
    unfold FileScanner.Scan
    simp only [Scan_searchpaths_eq, hgm, hod, if_true]
    cases scan_subdir disk fuel _ BASESET_DIR cache with
    | none => rfl
    | some r =>
      obtain ⟨n, c⟩ := r
      simp only [Option.map_some', Option.some_bind]
      cases scan_subdir disk fuel _ OLD_GM_DIR c with
      | none => rfl
      | some r1 =>
        obtain ⟨n1, c1⟩ := r1
        simp only [Option.map_some', Option.some_bind]
        cases scan_subdir disk fuel _ OLD_DATA_DIR c1 with
        | none => rfl
        | some r2 => rfl
  · by_cases hn : sd = NEWGRF_DIR
    · subst hn
      unfold FileScanner.Scan
      simp only [Scan_searchpaths_eq, hod, if_true]
      cases scan_subdir disk fuel _ NEWGRF_DIR cache with
      | none => rfl
      | some r =>
        obtain ⟨n, c⟩ := r
        simp only [Option.map_some', Option.some_bind]
        cases scan_subdir disk fuel _ OLD_DATA_DIR c with
        | none => rfl
        | some r2 => rfl
    · rw [FileScanner_Scan_default disk fuel g _ 1 sd cache hb hn, Scan_searchpaths_eq]
      simp only [hb, hn, if_false]
      cases scan_subdir disk fuel _ sd cache with
      | none => rfl
      | some r => rfl

theorem DoScan_caches (disk : Disk) (fuel : Nat) (g : Globals) (cache : Caches)
    (sd : Subdirectory) :
    (TarScanner.DoScan disk fuel g cache sd).map Prod.snd =
      ((TarScanner.Scan disk fuel g sd (clear_index cache sd)).map Prod.snd).bind (fun c =>
        if sd = BASESET_DIR ∨ sd = NEWGRF_DIR then
          (TarScanner.Scan disk fuel g OLD_DATA_DIR c).map Prod.snd
        else some c) := by
  unfold TarScanner.DoScan clear_index
  simp only
  cases TarScanner.Scan disk fuel g sd _ with
  | none => rfl
  | some r =>
    obtain ⟨n, c⟩ := r
    simp only [Option.map_some', Option.some_bind]
    split
    · cases TarScanner.Scan disk fuel g OLD_DATA_DIR c with
      | none => rfl
      | some r1 => rfl
    · rfl

/-! ## Rescanning a subdirectory -/

theorem scan_step_frame (disk : Disk) (fuel : Nat) (g : Globals) (X : Subdirectory)
    (c c' : Caches) (h : scan_step disk fuel g X c = some c') (Y : Subdirectory) (hY : Y ≠ X) :
    c' Y = c Y := by
  unfold scan_step scan_subdir at h
  cases ha : add_all disk fuel
      (scanned_files disk g (some ".tar".toList) X (FOR_ALL_SEARCHPATHS g)) (c X) with
  | none => rw [ha] at h; simp at h
  | some r =>
    obtain ⟨n, tc⟩ := r
    rw [ha] at h
    simp only [Option.map_some', Option.some.injEq] at h
    rw [← h, Function.update_noteq hY]

/-- A subdirectory scanned once is left as it is by a further scan without clearing, in
every array of indexes that holds the index of the first scan. -/
theorem scan_step_again (disk : Disk) (fuel : Nat) (g : Globals) (X : Subdirectory)
    (c c' c'' : Caches) (h : scan_step disk fuel g X c = some c') (hX : c'' X = c' X) :
    scan_step disk fuel g X c'' = some c'' := by
  unfold scan_step scan_subdir at h ⊢
  cases ha : add_all disk fuel
      (scanned_files disk g (some ".tar".toList) X (FOR_ALL_SEARCHPATHS g)) (c X) with
  | none => rw [ha] at h; simp at h
  | some r =>
    obtain ⟨n, tc⟩ := r
    rw [ha] at h
    simp only [Option.map_some', Option.some.injEq] at h
    have htc : c'' X = tc := by rw [hX, ← h, Function.update_same]
    rw [htc, add_all_again disk fuel _ (c X) n tc ha]
    simp only [Option.map_some', Option.some.injEq]
    rw [← htc, Function.update_eq_self]

/-- A cleared subdirectory scanned once is rebuilt to the same index when it is cleared
and scanned again, in every array of indexes that holds the index of the first scan. -/
theorem scan_step_replay (disk : Disk) (fuel : Nat) (g : Globals) (sd : Subdirectory)
    (c c' c'' : Caches) (h : scan_step disk fuel g sd (clear_index c sd) = some c')
    (hsd : c'' sd = c' sd) :
    scan_step disk fuel g sd (clear_index c'' sd) = some c'' := by
  unfold scan_step scan_subdir clear_index at h ⊢
  simp only [Function.update_same] at h ⊢
  cases ha : add_all disk fuel
      (scanned_files disk g (some ".tar".toList) sd (FOR_ALL_SEARCHPATHS g))
      ⟨[], [], (c sd).links⟩ with
  | none =>
    have ha' : add_all disk fuel
        (scanned_files disk g (some ".tar".toList) sd (FOR_ALL_SEARCHPATHS g))
        { c sd with files := [], tars := [] } = none := ha
    rw [ha'] at h
    simp at h
  | some r =>
    obtain ⟨n, tc⟩ := r
    have ha' : add_all disk fuel
        (scanned_files disk g (some ".tar".toList) sd (FOR_ALL_SEARCHPATHS g))
        { c sd with files := [], tars := [] } = some (n, tc) := ha
    rw [ha'] at h
    simp only [Option.map_some', Option.some.injEq] at h
    have htc : c'' sd = tc := by rw [hsd, ← h, Function.update_same]
    have hr := add_all_replay disk fuel _ (c sd).links n tc ha
    have hr' : add_all disk fuel
        (scanned_files disk g (some ".tar".toList) sd (FOR_ALL_SEARCHPATHS g))
        { c'' sd with files := [], tars := [] } = some (n, tc) := by
      rw [htc]
      exact hr
    rw [hr']
    simp only [Option.map_some', Option.some.injEq, Function.update_idem]
    rw [← htc, Function.update_eq_self]

theorem DoScan_idempotent_caches (disk : Disk) (fuel : Nat) (g : Globals) (cache c1 : Caches)
    (sd : Subdirectory)
    (h : (TarScanner.DoScan disk fuel g cache sd).map Prod.snd = some c1) :
    (TarScanner.DoScan disk fuel g c1 sd).map Prod.snd = some c1 := by
  have hgm : OLD_GM_DIR ≠ BASESET_DIR ∧ OLD_GM_DIR ≠ NEWGRF_DIR := by decide
  have hod : OLD_DATA_DIR ≠ BASESET_DIR ∧ OLD_DATA_DIR ≠ NEWGRF_DIR := by decide
  rw [DoScan_caches, TarScanner_Scan_caches] at h ⊢
  simp only [TarScanner_Scan_caches, hod.1, hod.2, if_false, Option.bind_some] at h ⊢
  by_cases hb : sd = BASESET_DIR
  · subst hb
    simp only [if_true, true_or, Option.bind_eq_some] at h
    obtain ⟨cd, ⟨ca, ha, cb, hb, hc⟩, hd⟩ := h
    have hcd : cd = c1 := by
      have := scan_step_again disk fuel g OLD_DATA_DIR cb cd cd hc rfl
      rw [this] at hd
      exact Option.some.inj hd
    subst hcd
    have e1 : cd BASESET_DIR = ca BASESET_DIR := by
      rw [scan_step_frame disk fuel g OLD_DATA_DIR cb cd hc BASESET_DIR (by decide),
        scan_step_frame disk fuel g OLD_GM_DIR ca cb hb BASESET_DIR (by decide)]
    have e2 : cd OLD_GM_DIR = cb OLD_GM_DIR :=
      scan_step_frame disk fuel g OLD_DATA_DIR cb cd hc OLD_GM_DIR (by decide)
    have s1 := scan_step_replay disk fuel g BASESET_DIR cache ca cd ha e1
    have s2 := scan_step_again disk fuel g OLD_GM_DIR ca cb cd hb e2
    have s3 := scan_step_again disk fuel g OLD_DATA_DIR cb cd cd hc rfl
    simp [s1, s2, s3]
  · by_cases hn : sd = NEWGRF_DIR
    · subst hn
      simp only [if_true, or_true, Option.bind_eq_some] at h
      have hnb : NEWGRF_DIR ≠ BASESET_DIR := by decide
      simp only [hnb, if_false] at h
      obtain ⟨cd, ⟨ca, ha, hc⟩, hd⟩ := h
      have hcd : cd = c1 := by
        have := scan_step_again disk fuel g OLD_DATA_DIR ca cd cd hc rfl
        rw [this] at hd
        exact Option.some.inj hd
      subst hcd
      have e1 : cd NEWGRF_DIR = ca NEWGRF_DIR :=
        scan_step_frame disk fuel g OLD_DATA_DIR ca cd hc NEWGRF_DIR (by decide)
      have s1 := scan_step_replay disk fuel g NEWGRF_DIR cache ca cd ha e1
      have s3 := scan_step_again disk fuel g OLD_DATA_DIR ca cd cd hc rfl
      simp [s1, s3, hnb]
    · simp only [hb, hn, if_false, or_self, Option.bind_eq_some] at h
      obtain ⟨cd, ⟨ca, ha, hc⟩, hd⟩ := h
      simp only [Option.some.injEq] at hc hd
      subst hc
      subst hd
      have s1 := scan_step_replay disk fuel g sd cache ca ca ha rfl
      simp [s1, hb, hn]

/-- C9: when `TarScanner::DoScan(sd)` returns with the indexes `c1`, a second
`TarScanner::DoScan(sd)` on the same disk (the same archives enumerated in the same order)
returns with the same indexes: the same `files`, `links` and `tars` in `sd`, and in every
other subdirectory. -/
theorem DoScan_idempotent (disk : Disk) (fuel : Nat) (g : Globals) (cache c1 : Caches)
    (sd : Subdirectory) (n1 : Nat)
    (h : TarScanner.DoScan disk fuel g cache sd = some (n1, c1)) :
    ∃ n2, TarScanner.DoScan disk fuel g c1 sd = some (n2, c1) := by
  have h1 : (TarScanner.DoScan disk fuel g cache sd).map Prod.snd = some c1 := by
    rw [h]
    rfl
  have h2 := DoScan_idempotent_caches disk fuel g cache c1 sd h1
  cases hr : TarScanner.DoScan disk fuel g c1 sd with
  | none => rw [hr] at h2; simp at h2
  | some r =>
    obtain ⟨n2, c2⟩ := r
    rw [hr] at h2
    simp only [Option.map_some', Option.some.injEq] at h2
    exact ⟨n2, by rw [h2]⟩

set_option maxRecDepth 100000 in
/-- Witness of C9: the scan of the scenario, run again on its own result. -/
theorem DoScan_idempotent_witness :
    ∃ n2, TarScanner.DoScan (ex_disk lang_archive) 8 ex_globals scanned_lang LANG_DIR =
      some (n2, scanned_lang) :=
  DoScan_idempotent (ex_disk lang_archive) 8 ex_globals (fun _ => TarCache.empty) scanned_lang
    LANG_DIR 1 (by rfl)

set_option maxRecDepth 100000 in
/-- C10, the code at the failing input: `TarScanner::DoScan(LANG_DIR)` on the disk of the
scenario builds the index with the directory link `lang2/ -> lang/`; the archive is then
removed from the disk, and after a second `TarScanner::DoScan(LANG_DIR)` the maps `files`
and `tars` are empty while the directory link of the removed archive is still in
`links`. -/
theorem DoScan_keeps_stale_links :
    TarScanner.DoScan (ex_disk lang_archive) 8 ex_globals (fun _ => TarCache.empty) LANG_DIR =
        some (1, scanned_lang) ∧
      (TarScanner.DoScan empty_disk 8 ex_globals scanned_lang LANG_DIR).map
          (fun r => (r.1, r.2 LANG_DIR)) =
        some (0, ⟨[], [], [("lang2/".toList, "lang/".toList)]⟩) :=
  ⟨by rfl, by decide⟩

/-! ## Maps: what an insertion changes -/

theorem StdMap.find_place_ne {α : Type} (m : StdMap α) (k q : Str) (v : α) (h : k ≠ q) :
    StdMap.find (StdMap.place m k v) q = StdMap.find m q := by
  induction m with
  | nil => simp [StdMap.place, StdMap.find, h]
  | cons p m ih =>
    obtain ⟨k', v'⟩ := p
    unfold StdMap.place
    split
    · simp [StdMap.find, h]
    · simp only [StdMap.find, ih]

theorem StdMap.find_place_self {α : Type} (m : StdMap α) (k : Str) (v : α)
    (h : StdMap.find m k = none) : StdMap.find (StdMap.place m k v) k = some v := by
  induction m with
  | nil => simp [StdMap.place, StdMap.find]
  | cons p m ih =>
    obtain ⟨k', v'⟩ := p
    unfold StdMap.find at h
    split at h
    · simp at h
    · rename_i hk
      unfold StdMap.place
      split
      · simp [StdMap.find]
      · simp only [StdMap.find, hk, if_false, ih h]

theorem StdMap.find_insert_ne {α : Type} (m : StdMap α) (k q : Str) (v : α) (h : k ≠ q) :
    StdMap.find (StdMap.insert m k v).1 q = StdMap.find m q := by
  unfold StdMap.insert
  cases StdMap.find m k with
  | none => exact StdMap.find_place_ne m k q v h
  | some w => rfl

theorem StdMap.find_insert_self {α : Type} (m : StdMap α) (k : Str) (v : α)
    (h : StdMap.find m k = none) : StdMap.find (StdMap.insert m k v).1 k = some v := by
  unfold StdMap.insert
  simp only [h]
  exact StdMap.find_place_self m k v h

theorem StdMap.find_insert_of_some {α : Type} (m : StdMap α) (k q : Str) (v e : α)
    (h : StdMap.find m q = some e) : StdMap.find (StdMap.insert m k v).1 q = some e := by
  by_cases hk : k = q
  · subst hk
    rw [StdMap.insert_present m k v (by simp [h])]
    exact h
  · rw [StdMap.find_insert_ne m k q v hk]
    exact h

/-! ## Entries of `files` are never replaced -/

theorem add_entry_files_kept (filename : Str) (th : TarHeader) (st : ScanState) (q : Str)
    (e : TarFileListEntry) (h : StdMap.find st.tc.files q = some e) :
    StdMap.find (add_entry filename th st).tc.files q = some e := by
  unfold add_entry
  simp only
  repeat' split
  all_goals first
    | exact h
    | exact StdMap.find_insert_of_some _ _ _ _ _ h

theorem add_header_files_kept (filename : Str) (content : List Char) (st : ScanState)
    (q : Str) (e : TarFileListEntry) (h : StdMap.find st.tc.files q = some e) :
    match add_header filename content st with
    | HeaderStep.done => True
    | HeaderStep.failed s => StdMap.find s.tc.files q = some e
    | HeaderStep.next s => StdMap.find s.tc.files q = some e := by
  have h' := add_entry_files_kept filename (header_at content st.pos)
    { st with pos := (st.pos + 512) % 2 ^ 64 } q e h
  unfold add_header
  by_cases h1 : (header_at content st.pos).length ≠ 512
  · simp only [if_pos h1]
  · by_cases h2 : valid_magic (header_at content st.pos) = false
    · simp only [if_neg h1, if_pos h2]
      exact h
    · by_cases h3 : fseek_cur_fails (add_entry filename (header_at content st.pos)
          { st with pos := (st.pos + 512) % 2 ^ 64 }).pos
          (Align (header_skip (header_at content st.pos)) 512) = true
      · simp only [if_neg h1, if_neg h2, if_pos h3]
        exact h'
      · simp only [if_neg h1, if_neg h2, if_neg h3]
        exact h'

theorem add_loop_files_kept (filename : Str) (content : List Char) (fuel : Nat)
    (st : ScanState) (q : Str) (e : TarFileListEntry) (b : Bool) (st' : ScanState)
    (h : StdMap.find st.tc.files q = some e)
    (hl : add_loop filename content fuel st = some (b, st')) :
    StdMap.find st'.tc.files q = some e := by
  induction fuel generalizing st with
  | zero => simp [add_loop] at hl
  | succ fuel ih =>
    have hh := add_header_files_kept filename content st q e h
    unfold add_loop at hl
    cases hs : add_header filename content st with
    | done =>
      rw [hs] at hl
      simp only [Option.some.injEq, Prod.mk.injEq] at hl
      rw [← hl.2]
      exact h
    | failed s =>
      rw [hs] at hl hh
      simp only [Option.some.injEq, Prod.mk.injEq] at hl
      rw [← hl.2]
      exact hh
    | next s =>
      rw [hs] at hl hh
      exact ih s hh hl

theorem add_link_files_kept (tc : TarCache) (src dest q : Str) (e : TarFileListEntry)
    (h : StdMap.find tc.files q = some e) :
    StdMap.find (TarCache.add_link tc src dest).files q = some e := by
  unfold TarCache.add_link
  simp only
  split
  · exact StdMap.find_insert_of_some _ _ _ _ _ h
  · exact h

theorem add_links_files_kept (links : StdMap Str) (tc : TarCache) (q : Str)
    (e : TarFileListEntry) (h : StdMap.find tc.files q = some e) :
    StdMap.find (add_links tc links).files q = some e := by
  induction links generalizing tc with
  | nil => exact h
  | cons l links ih =>
    obtain ⟨src, dest⟩ := l
    simp only [add_links]
    exact ih _ (add_link_files_kept tc src dest q e h)

theorem add_files_kept (disk : Disk) (fuel : Nat) (tc : TarCache) (p : Str) (b : Bool)
    (tc' : TarCache) (q : Str) (e : TarFileListEntry)
    (h : StdMap.find tc.files q = some e)
    (ha : TarCache.add disk fuel tc p = some (b, tc')) :
    StdMap.find tc'.files q = some e := by
  unfold TarCache.add at ha
  cases ht : StdMap.find tc.tars p with
  | some t =>
    rw [ht] at ha
    simp only [Option.some.injEq, Prod.mk.injEq] at ha
    rw [← ha.2]
    exact h
  | none =>
    rw [ht] at ha
    cases ho : disk.fopen p "rb".toList with
    | none =>
      rw [ho] at ha
      simp only [Option.some.injEq, Prod.mk.injEq] at ha
      rw [← ha.2]
      exact h
    | some content =>
      rw [ho] at ha
      simp only at ha
      cases hl : add_loop p content fuel
          ⟨{ tc with tars := StdMap.assign tc.tars p ⟨p, none⟩ }, [], 0, 0⟩ with
      | none => rw [hl] at ha; simp at ha
      | some r =>
        obtain ⟨b', st⟩ := r
        have hst : StdMap.find st.tc.files q = some e :=
          add_loop_files_kept p content fuel _ q e b' st h hl
        rw [hl] at ha
        cases b' with
        | false =>
          simp only [Option.some.injEq, Prod.mk.injEq] at ha
          rw [← ha.2]
          exact hst
        | true =>
          simp only [Option.some.injEq, Prod.mk.injEq] at ha
          rw [← ha.2]
          exact add_links_files_kept st.links st.tc q e hst

/-- C11: when the simplified name of a regular-file header is already a key of `files`,
the pass for that header changes nothing (the entry stays, the count is not raised), and
the entry under that key stays the same through every later header and every later call
of `TarCache::add`. -/
theorem files_first_occurrence_kept (filename : Str) (th : TarHeader) (st : ScanState)
    (e : TarFileListEntry)
    (hflag : TarHeader.typeflag th = Char.ofNat 0 ∨ TarHeader.typeflag th = '0')
    (hkey : StdMap.find st.tc.files (SimplifyFileName (header_name th)) = some e) :
    add_entry filename th st = st ∧
      (∀ filename' th', StdMap.find (add_entry filename' th' st).tc.files
        (SimplifyFileName (header_name th)) = some e) ∧
      ∀ disk fuel p b tc', TarCache.add disk fuel st.tc p = some (b, tc') →
        StdMap.find tc'.files (SimplifyFileName (header_name th)) = some e := by
  refine ⟨?_, fun f' th' => add_entry_files_kept f' th' st _ e hkey,
    fun disk fuel p b tc' ha => add_files_kept disk fuel st.tc p b tc' _ e hkey ha⟩
  have hins : StdMap.insert st.tc.files (SimplifyFileName (header_name th))
      ⟨filename, header_skip th, st.pos⟩ = (st.tc.files, false) := by
    unfold StdMap.insert
    simp only [hkey]
  unfold add_entry
  simp only [hflag, if_true, hins]
  split
  · rfl
  · split <;> rfl

set_option maxRecDepth 100000 in
/-- Witness of C11: in `duplicate_archive` the second member `A` has the simplified name
`a` of the first; the first entry (5 bytes at offset 512) is kept. -/
theorem files_first_occurrence_kept_witness :
    TarCache.add (ex_disk duplicate_archive) 8 TarCache.empty ex_tar =
        some (true, ⟨[(ex_tar, ⟨ex_tar, none⟩)], [("a".toList, ⟨ex_tar, 5, 512⟩)], []⟩) ∧
      (add_entry ex_tar (mk_header "A".toList "00000000007".toList '0' [])
          ⟨⟨[(ex_tar, ⟨ex_tar, none⟩)], [("a".toList, ⟨ex_tar, 5, 512⟩)], []⟩, [], 1, 1536⟩ =
          ⟨⟨[(ex_tar, ⟨ex_tar, none⟩)], [("a".toList, ⟨ex_tar, 5, 512⟩)], []⟩, [], 1, 1536⟩ ∧
        (∀ filename' th', StdMap.find (add_entry filename' th'
            ⟨⟨[(ex_tar, ⟨ex_tar, none⟩)], [("a".toList, ⟨ex_tar, 5, 512⟩)], []⟩, [], 1,
              1536⟩).tc.files
          (SimplifyFileName (header_name (mk_header "A".toList "00000000007".toList '0' []))) =
            some ⟨ex_tar, 5, 512⟩) ∧
        ∀ disk fuel p b tc', TarCache.add disk fuel
            (⟨⟨[(ex_tar, ⟨ex_tar, none⟩)], [("a".toList, ⟨ex_tar, 5, 512⟩)], []⟩, [], 1,
              1536⟩ : ScanState).tc p = some (b, tc') →
          StdMap.find tc'.files
            (SimplifyFileName (header_name (mk_header "A".toList "00000000007".toList '0' []))) =
              some ⟨ex_tar, 5, 512⟩) :=
  ⟨by decide,
    files_first_occurrence_kept ex_tar (mk_header "A".toList "00000000007".toList '0' [])
      ⟨⟨[(ex_tar, ⟨ex_tar, none⟩)], [("a".toList, ⟨ex_tar, 5, 512⟩)], []⟩, [], 1, 1536⟩
      ⟨ex_tar, 5, 512⟩ (by decide) (by decide)⟩

/-! ## `TarCache::add_link` -/

theorem getLast?_append_singleton (s : Str) (c : Char) : (s ++ [c]).getLast? = some c := by
  simp

/-- C12: `TarCache::add_link` on a pair with a non-empty source works on the lowercased
strings.  When the destination is a key of `files`, `links` and `tars` are left as they
were and `files` gets the source with the entry of the destination, if the source was not
a key yet (no other key changes).  Otherwise `files` and `tars` are left as they were and
`links` gets, if the key is new, the source with a trailing separator (appended when it
lacks one) paired with the destination with a trailing separator, or with the empty string
for the empty destination (no other key changes). -/
theorem add_link_file_or_directory (tc : TarCache) (srcp destp : Str) (_hsrc : srcp ≠ []) :
    (∀ e, StdMap.find tc.files (strtolower destp) = some e →
        (TarCache.add_link tc srcp destp).links = tc.links ∧
        (TarCache.add_link tc srcp destp).tars = tc.tars ∧
        (StdMap.find tc.files (strtolower srcp) = none →
          StdMap.find (TarCache.add_link tc srcp destp).files (strtolower srcp) = some e) ∧
        (∀ e', StdMap.find tc.files (strtolower srcp) = some e' →
          (TarCache.add_link tc srcp destp).files = tc.files) ∧
        ∀ q, q ≠ strtolower srcp →
          StdMap.find (TarCache.add_link tc srcp destp).files q = StdMap.find tc.files q) ∧
      (StdMap.find tc.files (strtolower destp) = none →
        (TarCache.add_link tc srcp destp).files = tc.files ∧
        (TarCache.add_link tc srcp destp).tars = tc.tars ∧
        ∃ sp dp,
          sp.getLast? = some PATHSEPCHAR ∧
          ((strtolower srcp).getLast? = some PATHSEPCHAR → sp = strtolower srcp) ∧
          ((strtolower srcp).getLast? ≠ some PATHSEPCHAR →
            sp = strtolower srcp ++ [PATHSEPCHAR]) ∧
          (destp = [] → dp = []) ∧
          (destp ≠ [] → dp.getLast? = some PATHSEPCHAR) ∧
          ((strtolower destp).getLast? = some PATHSEPCHAR → dp = strtolower destp) ∧
          (destp ≠ [] → (strtolower destp).getLast? ≠ some PATHSEPCHAR →
            dp = strtolower destp ++ [PATHSEPCHAR]) ∧
          (StdMap.find tc.links sp = none →
            StdMap.find (TarCache.add_link tc srcp destp).links sp = some dp) ∧
          (∀ d', StdMap.find tc.links sp = some d' →
            (TarCache.add_link tc srcp destp).links = tc.links) ∧
          ∀ q, q ≠ sp →
            StdMap.find (TarCache.add_link tc srcp destp).links q = StdMap.find tc.links q) := by
  constructor
  · intro e he
    have hadd : TarCache.add_link tc srcp destp =
        { tc with files := (StdMap.insert tc.files (strtolower srcp) e).1 } := by
      unfold TarCache.add_link
      simp only [he]
    rw [hadd]
    refine ⟨rfl, rfl, ?_, ?_, ?_⟩
    · intro hnone
      exact StdMap.find_insert_self _ _ _ hnone
    · intro e' he'
      have hp : (StdMap.find tc.files (strtolower srcp)).isSome := by rw [he']; rfl
      exact StdMap.insert_present tc.files (strtolower srcp) e hp
    · intro q hq
      exact StdMap.find_insert_ne _ _ _ _ (Ne.symm hq)
  · intro hnone
    have hadd : TarCache.add_link tc srcp destp =
        { tc with links := (StdMap.insert tc.links
          (if (strtolower srcp).getLast? = some PATHSEPCHAR then strtolower srcp
            else strtolower srcp ++ [PATHSEPCHAR])
          (if (strtolower destp).length = 0 then []
            else if (strtolower destp).getLast? = some PATHSEPCHAR then strtolower destp
              else strtolower destp ++ [PATHSEPCHAR])).1 } := by
      unfold TarCache.add_link
      simp only [hnone]
    rw [hadd]
    refine ⟨rfl, rfl,
      (if (strtolower srcp).getLast? = some PATHSEPCHAR then strtolower srcp
        else strtolower srcp ++ [PATHSEPCHAR]),
      (if (strtolower destp).length = 0 then []
        else if (strtolower destp).getLast? = some PATHSEPCHAR then strtolower destp
          else strtolower destp ++ [PATHSEPCHAR]), ?_, ?_, ?_, ?_, ?_, ?_, ?_, ?_, ?_, ?_⟩
    · by_cases h : (strtolower srcp).getLast? = some PATHSEPCHAR
      · simp only [h, if_true]
      · simp only [h, if_false]
        exact getLast?_append_singleton _ _
    · intro h
      simp only [h, if_true]
    · intro h
      simp only [h, if_false]
    · intro h
      simp [h, strtolower]
    · intro h
      have hl : (strtolower destp).length ≠ 0 := by
        simp [strtolower, h]
      by_cases h2 : (strtolower destp).getLast? = some PATHSEPCHAR
      · simp only [hl, if_false, h2, if_true]
      · simp only [hl, if_false, h2]
        exact getLast?_append_singleton _ _
    · intro h
      have hl : (strtolower destp).length ≠ 0 := by
        intro h0
        rw [List.length_eq_zero.mp h0] at h
        simp at h
      simp only [hl, if_false, h, if_true]
    · intro h h2
      have hl : (strtolower destp).length ≠ 0 := by
        simp [strtolower, h]
      simp only [hl, if_false, h2]
    · intro h
      exact StdMap.find_insert_self _ _ _ h
    · intro d' hd'
      have hp : (StdMap.find tc.links (if (strtolower srcp).getLast? = some PATHSEPCHAR
          then strtolower srcp else strtolower srcp ++ [PATHSEPCHAR])).isSome := by
        rw [hd']; rfl
      exact StdMap.insert_present tc.links _ _ hp
    · intro q hq
      exact StdMap.find_insert_ne _ _ _ _ (Ne.symm hq)

set_option maxRecDepth 100000 in
/-- Witness of C12: on the index of the scenario, the link `En -> lang/english.lng` becomes
the file alias `en`, and the link `Lang3 -> lang` the directory link `lang3/ -> lang/`. -/
theorem add_link_file_or_directory_witness :
    TarCache.add_link (lang_index ex_tar) "En".toList "lang/english.lng".toList =
        ⟨[(ex_tar, ⟨ex_tar, none⟩)],
          [("en".toList, ⟨ex_tar, 100, 512⟩), ("lang/english.lng".toList, ⟨ex_tar, 100, 512⟩)],
          [("lang2/".toList, "lang/".toList)]⟩ ∧
      TarCache.add_link (lang_index ex_tar) "Lang3".toList "lang".toList =
        ⟨[(ex_tar, ⟨ex_tar, none⟩)], [("lang/english.lng".toList, ⟨ex_tar, 100, 512⟩)],
          [("lang2/".toList, "lang/".toList), ("lang3/".toList, "lang/".toList)]⟩ ∧
      (TarCache.add_link (lang_index ex_tar) "En".toList "lang/english.lng".toList).links =
        (lang_index ex_tar).links :=
  ⟨by decide, by decide,
    ((add_link_file_or_directory (lang_index ex_tar) "En".toList "lang/english.lng".toList
      (by decide)).1 ⟨ex_tar, 100, 512⟩ (by decide)).1⟩

/-! ## The order of the lookups of `FioFOpenFile` -/

theorem FioFOpenFile_depth_body (disk : Disk) (g : Globals) (cache : Caches) (depth : Nat)
    (filename mode : Str) (subdir : Subdirectory) :
    FioFOpenFile_depth disk g cache (depth + 1) filename mode subdir =
      if (if FioFOpenFile_searchpaths disk filename mode subdir (FOR_ALL_SEARCHPATHS g) = none ∧
            mode.head? = some 'r' ∧ subdir ≠ NO_DIRECTORY then
            match FioFOpenFile_tar_entry (cache subdir) filename with
            | some entry => FioFOpenFileTar disk entry
            | none => FioFOpenFile_searchpaths disk filename mode subdir (FOR_ALL_SEARCHPATHS g)
          else FioFOpenFile_searchpaths disk filename mode subdir (FOR_ALL_SEARCHPATHS g)) = none ∧
          subdir ≠ NO_DIRECTORY then
        match subdir with
        | BASESET_DIR =>
          match FioFOpenFile_depth disk g cache depth filename mode OLD_GM_DIR with
          | some g => some g
          | none => FioFOpenFile_depth disk g cache depth filename mode OLD_DATA_DIR
        | NEWGRF_DIR => FioFOpenFile_depth disk g cache depth filename mode OLD_DATA_DIR
        | _ => FioFOpenFile_depth disk g cache depth filename mode NO_DIRECTORY
      else
        (if FioFOpenFile_searchpaths disk filename mode subdir (FOR_ALL_SEARCHPATHS g) = none ∧
            mode.head? = some 'r' ∧ subdir ≠ NO_DIRECTORY then
            match FioFOpenFile_tar_entry (cache subdir) filename with
            | some entry => FioFOpenFileTar disk entry
            | none => FioFOpenFile_searchpaths disk filename mode subdir (FOR_ALL_SEARCHPATHS g)
          else FioFOpenFile_searchpaths disk filename mode subdir (FOR_ALL_SEARCHPATHS g)) := by
  rfl

theorem FioFOpenFile_depth_succ (disk : Disk) (g : Globals) (cache : Caches) (depth : Nat)
    (filename mode : Str) (sd : Subdirectory) :
    FioFOpenFile_depth disk g cache (depth + 1) filename mode sd =
      match FioFOpenFile_in disk g cache filename mode sd with
      | some f => some f
      | none =>
        if sd = NO_DIRECTORY then none
        else
          match sd with
          | BASESET_DIR =>
            match FioFOpenFile_depth disk g cache depth filename mode OLD_GM_DIR with
            | some f => some f
            | none => FioFOpenFile_depth disk g cache depth filename mode OLD_DATA_DIR
          | NEWGRF_DIR => FioFOpenFile_depth disk g cache depth filename mode OLD_DATA_DIR
          | _ => FioFOpenFile_depth disk g cache depth filename mode NO_DIRECTORY := by
  have hin : (if FioFOpenFile_searchpaths disk filename mode sd (FOR_ALL_SEARCHPATHS g) = none ∧
        mode.head? = some 'r' ∧ sd ≠ NO_DIRECTORY then
        match FioFOpenFile_tar_entry (cache sd) filename with
        | some entry => FioFOpenFileTar disk entry
        | none => FioFOpenFile_searchpaths disk filename mode sd (FOR_ALL_SEARCHPATHS g)
      else FioFOpenFile_searchpaths disk filename mode sd (FOR_ALL_SEARCHPATHS g)) =
      FioFOpenFile_in disk g cache filename mode sd := by
    unfold FioFOpenFile_in
    cases hs : FioFOpenFile_searchpaths disk filename mode sd (FOR_ALL_SEARCHPATHS g) with
    | some f => simp
    | none =>
      by_cases hc : mode.head? = some 'r' ∧ sd ≠ NO_DIRECTORY
      · simp only [hc, and_self, if_true, true_and]
      · simp only [hc, and_false, if_false]
  rw [FioFOpenFile_depth_body]
  simp only [hin]
  cases hL : FioFOpenFile_in disk g cache filename mode sd with
  | some f => simp
  | none =>
    by_cases hn : sd = NO_DIRECTORY
    · simp [hn]
    · simp only [hn, true_and, if_true, if_false, not_false_eq_true, ne_eq]

theorem FioFOpenFile_first_hit (disk : Disk) (g : Globals) (cache : Caches)
    (filename mode : Str) (sd : Subdirectory) :
    FioFOpenFile disk g cache filename mode sd =
      first_hit ((fallback_order sd).map (FioFOpenFile_in disk g cache filename mode)) := by
  have hno : ∀ d, FioFOpenFile_depth disk g cache (d + 1) filename mode NO_DIRECTORY =
      FioFOpenFile_in disk g cache filename mode NO_DIRECTORY := by
    intro d
    rw [FioFOpenFile_depth_succ]
    cases FioFOpenFile_in disk g cache filename mode NO_DIRECTORY <;> simp
  have hother : ∀ d s, s ≠ NO_DIRECTORY → s ≠ BASESET_DIR → s ≠ NEWGRF_DIR →
      FioFOpenFile_depth disk g cache (d + 2) filename mode s =
        first_hit [FioFOpenFile_in disk g cache filename mode s,
          FioFOpenFile_in disk g cache filename mode NO_DIRECTORY] := by
    intro d s h1 h2 h3
    rw [FioFOpenFile_depth_succ]
    cases hL : FioFOpenFile_in disk g cache filename mode s with
    | some f => simp [first_hit]
    | none =>
      simp only [h1, if_false, hno, first_hit]
      cases hN : FioFOpenFile_in disk g cache filename mode NO_DIRECTORY <;>
        cases s <;> simp_all [first_hit]
  unfold FioFOpenFile
  by_cases hn : sd = NO_DIRECTORY
  · subst hn
    rw [hno 2]
    cases h : FioFOpenFile_in disk g cache filename mode NO_DIRECTORY <;>
      simp [fallback_order, first_hit, h]
  · by_cases hb : sd = BASESET_DIR
    · subst hb
      rw [FioFOpenFile_depth_succ, hother 0 OLD_GM_DIR (by decide) (by decide) (by decide),
        hother 0 OLD_DATA_DIR (by decide) (by decide) (by decide)]
      simp only [fallback_order, List.map]
      cases FioFOpenFile_in disk g cache filename mode BASESET_DIR <;>
        cases FioFOpenFile_in disk g cache filename mode OLD_GM_DIR <;>
        cases FioFOpenFile_in disk g cache filename mode NO_DIRECTORY <;>
        cases FioFOpenFile_in disk g cache filename mode OLD_DATA_DIR <;>
        simp [first_hit]
    · by_cases hg : sd = NEWGRF_DIR
      · subst hg
        rw [FioFOpenFile_depth_succ, hother 0 OLD_DATA_DIR (by decide) (by decide) (by decide)]
        simp only [fallback_order, List.map]
        cases FioFOpenFile_in disk g cache filename mode NEWGRF_DIR <;>
          cases FioFOpenFile_in disk g cache filename mode OLD_DATA_DIR <;>
          cases FioFOpenFile_in disk g cache filename mode NO_DIRECTORY <;>
          simp [first_hit]
      · rw [hother 1 sd hn hb hg]
        cases sd <;> simp_all [fallback_order]

theorem first_hit_none_iff {α : Type} (l : List (Option α)) :
    first_hit l = none ↔ ∀ o ∈ l, o = none := by
  induction l with
  | nil => simp [first_hit]
  | cons o l ih =>
    cases o with
    | none => simp [first_hit, ih]
    | some a => simp [first_hit]

theorem first_hit_mem {α : Type} (l : List (Option α)) (a : α) (h : first_hit l = some a) :
    some a ∈ l := by
  induction l with
  | nil => simp [first_hit] at h
  | cons o l ih =>
    cases o with
    | none =>
      simp only [first_hit] at h
      exact List.mem_cons_of_mem _ (ih h)
    | some b =>
      simp only [first_hit, Option.some.injEq] at h
      simp [h]

/-- C14 (as amended): `FioFOpenFile` returns the first hit of the lookups (search paths,
then tar index) in this order: for `BASESET_DIR` in `BASESET_DIR`, `OLD_GM_DIR`, no
subdirectory, `OLD_DATA_DIR`; for `NEWGRF_DIR` in `NEWGRF_DIR`, `OLD_DATA_DIR`, no
subdirectory; for every other subdirectory in it and then with no subdirectory, whatever
the file name looks like; the result is NULL exactly when all of them miss. -/
theorem FioFOpenFile_fallback_order (disk : Disk) (g : Globals) (cache : Caches)
    (filename mode : Str) (sd : Subdirectory) :
    FioFOpenFile disk g cache filename mode sd =
        first_hit ((fallback_order sd).map (FioFOpenFile_in disk g cache filename mode)) ∧
      (FioFOpenFile disk g cache filename mode sd = none ↔
        ∀ s ∈ fallback_order sd, FioFOpenFile_in disk g cache filename mode s = none) := by
  refine ⟨FioFOpenFile_first_hit disk g cache filename mode sd, ?_⟩
  rw [FioFOpenFile_first_hit, first_hit_none_iff]
  simp

/-- Counterexample to C14 as stated: the bare name `f` (no path separator) misses in
`LANG_DIR`, and the retry with no subdirectory is made all the same and opens the file
`f`. -/
theorem FioFOpenFile_bare_name_retried :
    PATHSEPCHAR ∉ "f".toList ∧
      FioFOpenFile_in bare_disk ex_globals (fun _ => TarCache.empty) "f".toList "rb".toList
        LANG_DIR = none ∧
      FioFOpenFile bare_disk ex_globals (fun _ => TarCache.empty) "f".toList "rb".toList
        LANG_DIR = some (FILE.plain "f".toList "rb".toList, 3) := by
  decide

/-! ## Modes and subdirectories without tar lookup -/

theorem FioFOpenFile_in_no_tar (disk : Disk) (g : Globals) (cache : Caches)
    (filename mode : Str) (s : Subdirectory) (h : mode.head? ≠ some 'r' ∨ s = NO_DIRECTORY) :
    FioFOpenFile_in disk g cache filename mode s =
      FioFOpenFile_searchpaths disk filename mode s (FOR_ALL_SEARCHPATHS g) := by
  unfold FioFOpenFile_in
  have hc : ¬ (mode.head? = some 'r' ∧ s ≠ NO_DIRECTORY) := by
    rintro ⟨h1, h2⟩
    rcases h with h | h
    · exact h h1
    · exact h2 h
  cases FioFOpenFile_searchpaths disk filename mode s (FOR_ALL_SEARCHPATHS g) with
  | some f => rfl
  | none => simp only [hc, if_false]

theorem fallback_order_no_tar (mode : Str) (sd : Subdirectory)
    (h : mode.head? ≠ some 'r' ∨ sd = NO_DIRECTORY) :
    ∀ s ∈ fallback_order sd, mode.head? ≠ some 'r' ∨ s = NO_DIRECTORY := by
  intro s hs
  rcases h with h | h
  · exact Or.inl h
  · subst h
    simp only [fallback_order, List.mem_singleton] at hs
    exact Or.inr hs

/-- C13: when the mode does not start with `r` or the subdirectory is `NO_DIRECTORY`,
`FioFOpenFile` never returns a member of an archive, and its result is the same whatever
the tar indexes hold. -/
theorem FioFOpenFile_member_only_for_read (disk : Disk) (g : Globals) (cache : Caches)
    (filename mode : Str) (sd : Subdirectory)
    (h : mode.head? ≠ some 'r' ∨ sd = NO_DIRECTORY) :
    (∀ e n, FioFOpenFile disk g cache filename mode sd ≠ some (FILE.member e, n)) ∧
      ∀ cache', FioFOpenFile disk g cache' filename mode sd =
        FioFOpenFile disk g cache filename mode sd := by
  have hmap : ∀ c : Caches, (fallback_order sd).map (FioFOpenFile_in disk g c filename mode) =
      (fallback_order sd).map (fun s =>
        FioFOpenFile_searchpaths disk filename mode s (FOR_ALL_SEARCHPATHS g)) := by
    intro c
    apply List.map_congr_left
    intro s hs
    exact FioFOpenFile_in_no_tar disk g c filename mode s (fallback_order_no_tar mode sd h s hs)
  refine ⟨?_, fun c => by rw [FioFOpenFile_first_hit, FioFOpenFile_first_hit, hmap c, hmap cache]⟩
  intro e n hf
  rw [FioFOpenFile_first_hit, hmap cache] at hf
  have hmem := first_hit_mem _ _ hf
  obtain ⟨s, _, hs⟩ := List.mem_map.mp hmem
  obtain ⟨path, hp⟩ := FioFOpenFile_searchpaths_plain disk filename mode s _ _ hs
  simp at hp

/-- Witness of C13: opened for writing, the name of the archive member `f` of `LANG_DIR`
gives no handle at all, and no member. -/
theorem FioFOpenFile_member_only_for_read_witness :
    FioFOpenFile two_roots_disk ex_globals (ex_caches f_index) "f".toList "rb".toList LANG_DIR =
        some (FILE.member ⟨ex_tar, 7, 512⟩, 7) ∧
      FioFOpenFile two_roots_disk ex_globals (ex_caches f_index) "f".toList "wb".toList
        LANG_DIR = none ∧
      ((∀ e n, FioFOpenFile two_roots_disk ex_globals (ex_caches f_index) "f".toList
          "wb".toList LANG_DIR ≠ some (FILE.member e, n)) ∧
        ∀ cache', FioFOpenFile two_roots_disk ex_globals cache' "f".toList "wb".toList
          LANG_DIR = FioFOpenFile two_roots_disk ex_globals (ex_caches f_index) "f".toList
            "wb".toList LANG_DIR) :=
  ⟨by decide, by decide,
    FioFOpenFile_member_only_for_read two_roots_disk ex_globals (ex_caches f_index)
      "f".toList "wb".toList LANG_DIR (Or.inl (by decide))⟩

/-! ## The working directory -/

/-- C15 (as amended): when `_do_scan_working_directory` is false, `FileScanner::Scan`
skips the working-directory search path, but `FioFOpenFile` has no such test: it probes
that search path like every other and returns a plain file found under it, at a path of
fewer than `MAX_PATH` characters. -/
theorem FioFOpenFile_probes_working_directory (disk : Disk) (fuel : Nat) (g : Globals)
    (cache : Caches) (sd : Subdirectory) (filename mode w : Str) (bytes : List Char)
    (extension : Option Str) (pre rest : List (Nat × Str))
    (hflag : g._do_scan_working_directory = false)
    (hsd : sd ≠ NO_DIRECTORY)
    (hroots : FOR_ALL_SEARCHPATHS g = pre ++ (g.SP_WORKING_DIR, w) :: rest)
    (hpre : ∀ P ∈ pre, FioFOpenFileSp disk filename mode P.2 sd = none)
    (hfits : (w ++ _subdirs sd ++ filename).length < MAX_PATH)
    (hfile : disk.fopen (w ++ _subdirs sd ++ filename) mode = some bytes) :
    FioFOpenFile disk g cache filename mode sd =
        some (FILE.plain (w ++ _subdirs sd ++ filename) mode, bytes.length) ∧
      Scan_searchpaths disk fuel g extension sd ((g.SP_WORKING_DIR, w) :: rest) cache =
        Scan_searchpaths disk fuel g extension sd rest cache := by
  constructor
  · have hR : FioFOpenFileSp disk filename mode w sd =
        some (FILE.plain (w ++ _subdirs sd ++ filename) mode, bytes.length) := by
      have h := FioFOpenFileSp_of_file disk filename mode w sd bytes
        (by rw [if_neg hsd]; exact hfits) (by rw [if_neg hsd]; exact hfile)
      rw [if_neg hsd] at h
      exact h
    have hs := FioFOpenFile_searchpaths_first disk filename mode sd pre rest
      (g.SP_WORKING_DIR, w) _ hsd hpre hR
    rw [← hroots] at hs
    exact FioFOpenFile_depth_of_plain disk g cache 2 filename mode sd _ hs
  · simp [Scan_searchpaths, hflag]

set_option maxRecDepth 100000 in
/-- Witness of C15: the working directory `/w/` is flagged; the scan of `LANG_DIR` skips
it, and the plain file `lang/f` under it is opened. -/
theorem FioFOpenFile_probes_working_directory_witness :
    FioFOpenFile working_disk unsafe_globals (fun _ => TarCache.empty) "f".toList "rb".toList
        LANG_DIR = some (FILE.plain ("/w/".toList ++ _subdirs LANG_DIR ++ "f".toList)
          "rb".toList, "abc".toList.length) ∧
      Scan_searchpaths working_disk 8 unsafe_globals (some ".tar".toList) LANG_DIR
          ((unsafe_globals.SP_WORKING_DIR, "/w/".toList) :: []) (fun _ => TarCache.empty) =
        Scan_searchpaths working_disk 8 unsafe_globals (some ".tar".toList) LANG_DIR []
          (fun _ => TarCache.empty) :=
  FioFOpenFile_probes_working_directory working_disk 8 unsafe_globals (fun _ => TarCache.empty)
    LANG_DIR "f".toList "rb".toList "/w/".toList "abc".toList (some ".tar".toList) [] []
    (by decide) (by decide) (by decide) (by simp) (by decide) (by decide)

set_option maxRecDepth 100000 in
/-- Counterexample to C15 as stated: with the working directory `/w/` flagged as not to
be scanned, `TarScanner::DoScan` indexes nothing of the archive under it, and
`FioFOpenFile` returns the plain file that exists only under it. -/
theorem FioFOpenFile_working_directory_not_excluded :
    unsafe_globals._do_scan_working_directory = false ∧
      FOR_ALL_SEARCHPATHS unsafe_globals = [(unsafe_globals.SP_WORKING_DIR, "/w/".toList)] ∧
      (TarScanner.DoScan working_disk 8 unsafe_globals (fun _ => TarCache.empty) LANG_DIR).map
        (fun r => (r.1, r.2 LANG_DIR)) = some (0, TarCache.empty) ∧
      FioFOpenFile working_disk unsafe_globals (fun _ => TarCache.empty) "f".toList
        "rb".toList LANG_DIR = some (FILE.plain "/w/lang/f".toList "rb".toList, 3) := by
  decide

/-! ## Archives already recorded -/

/-- C16: `TarCache::add` on a path already recorded in `tars` returns false and leaves
the index as it was; and after any call of `TarCache::add` that returns, a second call on
the same path returns false and leaves the index of the first call as it was. -/
theorem add_rescan_protection (disk : Disk) (fuel : Nat) (tc : TarCache) (p : Str) :
    ((StdMap.find tc.tars p).isSome → TarCache.add disk fuel tc p = some (false, tc)) ∧
      ∀ b tc1, TarCache.add disk fuel tc p = some (b, tc1) →
        TarCache.add disk fuel tc1 p = some (false, tc1) :=
  ⟨fun h => add_seen disk fuel tc p (Or.inl h),
    fun b tc1 h => add_seen disk fuel tc1 p (add_tars disk fuel tc p b tc1 h).1⟩

set_option maxRecDepth 100000 in
/-- Witness of C16: the archive of the scenario, added to the empty index and added
again. -/
theorem add_rescan_protection_witness :
    TarCache.add (ex_disk lang_archive) 8 TarCache.empty ex_tar =
        some (true, lang_index ex_tar) ∧
      TarCache.add (ex_disk lang_archive) 8 (lang_index ex_tar) ex_tar =
        some (false, lang_index ex_tar) :=
  have h : TarCache.add (ex_disk lang_archive) 8 TarCache.empty ex_tar =
      some (true, lang_index ex_tar) := by decide
  ⟨h, (add_rescan_protection (ex_disk lang_archive) 8 TarCache.empty ex_tar).2 true
    (lang_index ex_tar) h⟩

/-! ## The test of the magic -/

theorem take_shift_all_eq (l : List Char) (a : Char) (h : (a :: l).take l.length = l) :
    ∀ x ∈ l, x = a := by
  induction l generalizing a with
  | nil => intro x hx; simp at hx
  | cons b t ih =>
    simp only [List.length_cons, List.take_succ_cons, List.cons.injEq] at h
    obtain ⟨hab, ht⟩ := h
    intro x hx
    rcases List.mem_cons.mp hx with hxb | hxt
    · rw [hxb, hab]
    · rw [ih b ht x hxt, hab]

theorem all_eq_take_shift (l : List Char) (a : Char) (h : ∀ x ∈ l, x = a) :
    (a :: l).take l.length = l := by
  induction l generalizing a with
  | nil => rfl
  | cons b t ih =>
    have hb : b = a := h b (by simp)
    have ht : ∀ x ∈ t, x = b := fun x hx => by rw [h x (by simp [hx]), hb]
    simp only [List.length_cons, List.take_succ_cons, List.cons.injEq]
    exact ⟨hb.symm, ih b ht⟩

theorem valid_magic_iff (th : TarHeader) (hlen : th.length = 512) :
    valid_magic th = true ↔
      ((TarHeader.magic th).take 5 = "ustar".toList ∨ ∀ c ∈ th.drop 257, c = Char.ofNat 0) := by
  have hl257 : (th.drop 257).length = 255 := by simp [hlen]
  obtain ⟨a, l, hal⟩ : ∃ a l, th.drop 257 = a :: l := by
    cases hd : th.drop 257 with
    | nil => rw [hd] at hl257; simp at hl257
    | cons a l => exact ⟨a, l, rfl⟩
  have hl : l.length = 254 := by
    rw [hal] at hl257
    simpa using hl257
  have h258 : th.drop 258 = l := by
    have : th.drop 258 = (th.drop 257).drop 1 := by rw [List.drop_drop]
    rw [this, hal]
    rfl
  have htake : (th.drop 258).take 254 = l := by
    rw [h258, ← hl, List.take_length]
  unfold valid_magic
  simp only [Bool.or_eq_true, Bool.and_eq_true, decide_eq_true_eq, hal, htake, List.head?_cons,
    Option.some.injEq, List.mem_cons]
  constructor
  · rintro (h | ⟨ha, ht⟩)
    · exact Or.inl h
    · right
      rw [← hl] at ht
      have hall := take_shift_all_eq l a ht
      intro c hc
      rcases hc with hc | hc
      · rw [hc, ha]
      · rw [hall c hc, ha]
  · rintro (h | h)
    · exact Or.inl h
    · right
      have ha : a = Char.ofNat 0 := h a (Or.inl rfl)
      refine ⟨ha, ?_⟩
      rw [← hl]
      exact all_eq_take_shift l a (fun x hx => by rw [h x (Or.inr hx), ha])

/-- C17: a block of 512 bytes read as a header passes the test of `TarCache::add` exactly
when its magic starts with `ustar` or every byte from offset 257 to the end of the block
is NUL; a block that does not pass makes the header loop return false at once, and a block
that passes goes on to the switch on its type and to the seek past its body. -/
theorem header_accepted_iff (filename : Str) (content : List Char) (fuel : Nat)
    (st : ScanState) (hlen : (header_at content st.pos).length = 512) :
    (valid_magic (header_at content st.pos) = true ↔
        ((TarHeader.magic (header_at content st.pos)).take 5 = "ustar".toList ∨
          ∀ c ∈ (header_at content st.pos).drop 257, c = Char.ofNat 0)) ∧
      (valid_magic (header_at content st.pos) = false →
        add_loop filename content (fuel + 1) st =
          some (false, { st with pos := (st.pos + 512) % 2 ^ 64 })) ∧
      (valid_magic (header_at content st.pos) = true →
        add_header filename content st =
          if fseek_cur_fails (add_entry filename (header_at content st.pos)
              { st with pos := (st.pos + 512) % 2 ^ 64 }).pos
              (Align (header_skip (header_at content st.pos)) 512) then
            HeaderStep.failed (add_entry filename (header_at content st.pos)
              { st with pos := (st.pos + 512) % 2 ^ 64 })
          else
            HeaderStep.next { add_entry filename (header_at content st.pos)
                { st with pos := (st.pos + 512) % 2 ^ 64 } with
              pos := ((add_entry filename (header_at content st.pos)
                { st with pos := (st.pos + 512) % 2 ^ 64 }).pos +
                  Align (header_skip (header_at content st.pos)) 512) % 2 ^ 64 }) := by
  refine ⟨valid_magic_iff _ hlen, ?_, ?_⟩
  · intro hbad
    have hstep : add_header filename content st =
        HeaderStep.failed { st with pos := (st.pos + 512) % 2 ^ 64 } := by
      unfold add_header
      simp [hlen, hbad]
    simp only [add_loop, hstep]
  · intro hok
    unfold add_header
    simp [hlen, hok]

set_option maxRecDepth 100000 in
/-- Witness of C17: a `ustar` header and a header of the old format pass, a block of
letters does not. -/
theorem header_accepted_iff_witness :
    valid_magic (header_at lang_archive 0) = true ∧
      valid_magic legacy_header = true ∧
      (∀ c ∈ legacy_header.drop 257, c = Char.ofNat 0) ∧
      valid_magic (header_at corrupt_archive 1024) = false ∧
      add_loop ex_tar corrupt_archive 1 ⟨TarCache.empty, [], 0, 1024⟩ =
        some (false, ⟨TarCache.empty, [], 0, 1536⟩) :=
  ⟨by decide, by decide,
    ((header_accepted_iff ex_tar legacy_header 0 ⟨TarCache.empty, [], 0, 0⟩
      (by decide)).1.mp (by decide)).resolve_left (by decide),
    by decide,
    (header_accepted_iff ex_tar corrupt_archive 0 ⟨TarCache.empty, [], 0, 1024⟩
      (by decide)).2.1 (by decide)⟩

/-! ## Extraction -/

theorem strrchr_none (s : Str) (c : Char) (h : strrchr s c = none) : c ∉ s := by
  induction s with
  | nil => simp
  | cons d ds ih =>
    unfold strrchr at h
    cases hr : strrchr ds c with
    | some r => rw [hr] at h; simp at h
    | none =>
      rw [hr] at h
      simp only at h
      by_cases hd : d = c
      · simp [hd] at h
      · simp only [List.mem_cons, not_or]
        exact ⟨fun hc => hd hc.symm, ih hr⟩

theorem strrchr_some (s : Str) (c : Char) (p : Str) (h : strrchr s c = some p) :
    ∃ pre rest, s = pre ++ c :: rest ∧ p = c :: rest ∧ c ∉ rest := by
  induction s generalizing p with
  | nil => simp [strrchr] at h
  | cons d ds ih =>
    unfold strrchr at h
    cases hr : strrchr ds c with
    | some r =>
      rw [hr] at h
      simp only [Option.some.injEq] at h
      obtain ⟨pre, rest, hs, hp, hn⟩ := ih r hr
      exact ⟨d :: pre, rest, by rw [hs]; rfl, by rw [← h, hp], hn⟩
    | none =>
      rw [hr] at h
      simp only at h
      by_cases hd : d = c
      · simp only [hd, if_true, Option.some.injEq] at h
        exact ⟨[], ds, by simp [hd], h.symm, strrchr_none ds c hr⟩
      · simp [hd] at h

theorem extract_copy_full (fwrite : Fwrite) (path : Str) (fuel to_copy : Nat)
    (input out : List Char) (hfuel : to_copy ≤ fuel)
    (h : (extract_copy fwrite path fuel to_copy input out).1 = 0) :
    (extract_copy fwrite path fuel to_copy input out).2 = out ++ input.take to_copy ∧
      to_copy ≤ input.length := by
  induction fuel generalizing to_copy input out with
  | zero =>
    have h0 : to_copy = 0 := by omega
    subst h0
    simp [extract_copy]
  | succ fuel ih =>
    unfold extract_copy at h ⊢
    by_cases h0 : to_copy = 0
    · subst h0
      simp
    · simp only [h0, if_false] at h ⊢
      by_cases hb : (input.take (min to_copy 4096)).length = 0 ∨
          fwrite path out.length (input.take (min to_copy 4096)) = false
      · simp only [hb, if_true] at h
        exact absurd h h0
      · simp only [hb, if_false] at h ⊢
        have hpos : 0 < (input.take (min to_copy 4096)).length := by
          rcases Nat.eq_zero_or_pos (input.take (min to_copy 4096)).length with hz | hz
          · exact absurd (Or.inl hz) hb
          · exact hz
        have hlen : (input.take (min to_copy 4096)).length = min (min to_copy 4096) input.length :=
          List.length_take _ _
        obtain ⟨h2, h3⟩ := ih (to_copy - (input.take (min to_copy 4096)).length)
          (input.drop (input.take (min to_copy 4096)).length) (out ++ input.take (min to_copy 4096))
          (by omega) h
        rw [List.length_drop] at h3
        have hle : to_copy ≤ input.length := by omega
        have hm : (input.take (min to_copy 4096)).length = min to_copy 4096 := by omega
        refine ⟨?_, hle⟩
        rw [h2, hm, List.append_assoc]
        congr 1
        have : to_copy = min to_copy 4096 + (to_copy - min to_copy 4096) := by omega
        conv_rhs => rw [this]
        rw [List.take_add]

theorem FioFOpenFileTar_some (disk : Disk) (e : TarFileListEntry) (f : FILE) (n : Nat)
    (h : FioFOpenFileTar disk e = some (f, n)) :
    (∃ content, disk.fopen e.tar_filename "rb".toList = some content) ∧ n = e.size := by
  unfold FioFOpenFileTar at h
  cases ho : disk.fopen e.tar_filename "rb".toList with
  | none => rw [ho] at h; simp at h
  | some content =>
    rw [ho] at h
    simp only at h
    split at h
    · simp at h
    · simp only [Option.some.injEq, Prod.mk.injEq] at h
      exact ⟨⟨content, rfl⟩, h.2.symm⟩

theorem sstring_path (base filename key : Str) (hbase : base.length < MAX_PATH)
    (hinv : filename.take base.length = base) :
    sstring_append MAX_PATH (sstring_truncate filename base.length) key =
        bstrcpy MAX_PATH (base ++ key) ∧
      (bstrcpy MAX_PATH (base ++ key)).take base.length = base := by
  constructor
  · unfold sstring_append sstring_truncate bstrcpy
    rw [hinv]
  · unfold bstrcpy
    rw [List.take_take, Nat.min_eq_left (by omega), List.take_left]

theorem extract_files_copied (disk : Disk) (fwrite : Fwrite) (tar base filename : Str)
    (files : StdMap TarFileListEntry) (hbase : base.length < MAX_PATH)
    (hinv : filename.take base.length = base)
    (h : (extract_files disk fwrite tar base.length filename files).1 = true) :
    ∀ k e, (k, e) ∈ files → e.tar_filename = tar →
      ∃ content, disk.fopen tar "rb".toList = some content ∧
        ((content.drop e.position).take e.size).length = e.size ∧
        (bstrcpy MAX_PATH (base ++ k), (content.drop e.position).take e.size) ∈
          (extract_files disk fwrite tar base.length filename files).2 := by
  induction files generalizing filename with
  | nil => intro k e hm; simp at hm
  | cons p files ih =>
    obtain ⟨key, entry⟩ := p
    obtain ⟨hpath, hinv'⟩ := sstring_path base filename key hbase hinv
    unfold extract_files at h ⊢
    by_cases hown : entry.tar_filename ≠ tar
    · simp only [hown, if_true, ne_eq, not_false_eq_true] at h ⊢
      intro k e hm he
      rcases List.mem_cons.mp hm with hke | hrest
      · simp only [Prod.mk.injEq] at hke
        rw [hke.2] at he
        exact absurd he hown
      · exact ih filename hinv h k e hrest he
    · have hown' : entry.tar_filename = tar := not_not.mp hown
      simp only [hown, if_false, hpath] at h ⊢
      cases ht : FioFOpenFileTar disk entry with
      | none => rw [ht] at h; simp at h
      | some r =>
        obtain ⟨f, to_copy⟩ := r
        obtain ⟨⟨content, hc⟩, hsize⟩ := FioFOpenFileTar_some disk entry f to_copy ht
        rw [ht] at h
        simp only at h ⊢
        cases hw : disk.fopen (bstrcpy MAX_PATH (base ++ key)) "wb".toList with
        | none => rw [hw] at h; simp at h
        | some w =>
          rw [hw] at h
          simp only [hc, Option.getD_some] at h ⊢
          by_cases hz : (extract_copy fwrite (bstrcpy MAX_PATH (base ++ key)) to_copy to_copy
              (content.drop entry.position) []).1 ≠ 0
          · simp only [hz, if_true, ne_eq, not_false_eq_true] at h
            simp at h
          · simp only [hz, if_false] at h ⊢
            obtain ⟨hfull, hle⟩ := extract_copy_full fwrite (bstrcpy MAX_PATH (base ++ key))
              to_copy to_copy (content.drop entry.position) [] (Nat.le_refl _) (not_not.mp hz)
            intro k e hm he
            rcases List.mem_cons.mp hm with hke | hrest
            · simp only [Prod.mk.injEq] at hke
              obtain ⟨hk, hee⟩ := hke
              subst hk
              subst hee
              refine ⟨content, by rw [← hown', hc], ?_, ?_⟩
              · rw [List.length_take]
                omega
              · rw [hfull, ← hsize]
                simp
            · obtain ⟨content', hc', hl', hm'⟩ := ih _ hinv' h k e hrest he
              exact ⟨content', hc', hl', List.mem_cons_of_mem _ hm'⟩

/-- C18 (as amended): `TarCache::extract` returns false, creating no directory and writing
no file, when the archive is not in `tars` or has no directory name recorded; and when it
returns true, the archive path has a last separator, and, the archive path up to that
separator having fewer than `MAX_PATH` characters, every entry of `files` owned by the
archive was written, with exactly its recorded length of bytes taken from its recorded
offset of the archive, to the path made of the archive path up to that separator followed
by the key of the entry, cut to the `MAX_PATH - 1` characters that the buffer holds: to
that path itself when it has fewer than `MAX_PATH` characters. -/
theorem extract_copies_every_member (disk : Disk) (fwrite : Fwrite) (tc : TarCache)
    (tar : Str) :
    (StdMap.find tc.tars tar = none →
        TarCache.extract disk fwrite tc tar = ⟨false, none, []⟩) ∧
      (∀ t, StdMap.find tc.tars tar = some t → t.dirname = none →
        TarCache.extract disk fwrite tc tar = ⟨false, none, []⟩) ∧
      ((TarCache.extract disk fwrite tc tar).result = true →
        ∃ pre rest, tar = pre ++ PATHSEPCHAR :: rest ∧ PATHSEPCHAR ∉ rest ∧
          ((pre ++ [PATHSEPCHAR]).length < MAX_PATH →
            ∀ k e, (k, e) ∈ tc.files → e.tar_filename = tar →
              ∃ content, disk.fopen tar "rb".toList = some content ∧
                ((content.drop e.position).take e.size).length = e.size ∧
                (bstrcpy MAX_PATH (pre ++ [PATHSEPCHAR] ++ k),
                    (content.drop e.position).take e.size) ∈
                  (TarCache.extract disk fwrite tc tar).written ∧
                ((pre ++ [PATHSEPCHAR] ++ k).length < MAX_PATH →
                  (pre ++ [PATHSEPCHAR] ++ k, (content.drop e.position).take e.size) ∈
                    (TarCache.extract disk fwrite tc tar).written))) := by
  refine ⟨?_, ?_, ?_⟩
  · intro h
    unfold TarCache.extract
    simp only [h]
  · intro t ht hd
    unfold TarCache.extract
    simp only [ht, hd]
  · intro h
    unfold TarCache.extract at h ⊢
    cases ht : StdMap.find tc.tars tar with
    | none => rw [ht] at h; simp at h
    | some t =>
      rw [ht] at h
      simp only at h ⊢
      cases hd : t.dirname with
      | none => rw [hd] at h; simp at h
      | some dirname =>
        rw [hd] at h
        simp only at h ⊢
        cases hp : strrchr tar PATHSEPCHAR with
        | none => rw [hp] at h; simp at h
        | some p =>
          rw [hp] at h
          simp only at h ⊢
          obtain ⟨pre, rest, hs, hpr, hn⟩ := strrchr_some tar PATHSEPCHAR p hp
          have hlen : tar.length - p.length + 1 = (pre ++ [PATHSEPCHAR]).length := by
            rw [hpr, hs]
            simp
          have hbase : tar.take (pre ++ [PATHSEPCHAR]).length = pre ++ [PATHSEPCHAR] := by
            rw [hs, show pre ++ PATHSEPCHAR :: rest = (pre ++ [PATHSEPCHAR]) ++ rest by simp,
              List.take_left]
          rw [hlen, hbase] at h ⊢
          refine ⟨pre, rest, hs, hn, ?_⟩
          intro hfit k e hm he
          have hinv : (sstring_fmt MAX_PATH (pre ++ [PATHSEPCHAR] ++ dirname)).take
              (pre ++ [PATHSEPCHAR]).length = pre ++ [PATHSEPCHAR] := by
            unfold sstring_fmt
            rw [List.take_take, Nat.min_eq_left (by omega), List.take_left]
          obtain ⟨content, hc, hl, hmem⟩ := extract_files_copied disk fwrite tar
            (pre ++ [PATHSEPCHAR]) _ tc.files hfit hinv h k e hm he
          refine ⟨content, hc, hl, hmem, ?_⟩
          intro hk
          rw [bstrcpy_fits _ _ hk] at hmem
          exact hmem

set_option maxRecDepth 100000 in
/-- Witness of C18: the archive `data_archive` with the directory `data/` and the member
`data/readme.txt` is extracted next to the archive; an archive without directory entry is
not. -/
theorem extract_copies_every_member_witness :
    TarCache.add (writable_disk data_archive) 8 TarCache.empty ex_tar =
        some (true, data_index) ∧
      TarCache.extract (writable_disk data_archive) (fun _ _ _ => true) data_index ex_tar =
        ⟨true, some "/r/lang/data/".toList,
          [("/r/lang/data/readme.txt".toList, "hello".toList)]⟩ ∧
      TarCache.extract (writable_disk lang_archive) (fun _ _ _ => true) (lang_index ex_tar)
        ex_tar = ⟨false, none, []⟩ :=
  ⟨by decide, by decide,
    (extract_copies_every_member (writable_disk lang_archive) (fun _ _ _ => true)
      (lang_index ex_tar) ex_tar).2.1 ⟨ex_tar, none⟩ (by decide) rfl⟩

set_option maxRecDepth 100000 in
/-- Counterexample to C18 as stated: the archive `deep_tar`, whose path has 250 characters
up to its last separator, holds the member `data/readme.txt`.  `TarCache::extract` returns
true, and the 5 bytes of the member were written to the path cut to 259 characters, which
ends in `data/read`; nothing was written to the path made of the archive's directory and
the member's key, which has 265 characters. -/
theorem extract_cuts_long_path :
    TarCache.add deep_writable_disk 8 TarCache.empty deep_tar = some (true, deep_data_index) ∧
    TarCache.extract deep_writable_disk (fun _ _ _ => true) deep_data_index deep_tar =
      ⟨true, some (deep_tar.take 250 ++ "data/".toList),
        [(deep_tar.take 250 ++ "data/read".toList, "hello".toList)]⟩ ∧
    (deep_tar.take 250 ++ "data/readme.txt".toList).length = 265 ∧
    ∀ bytes, (deep_tar.take 250 ++ "data/readme.txt".toList, bytes) ∉
      (TarCache.extract deep_writable_disk (fun _ _ _ => true) deep_data_index
        deep_tar).written := by
  refine ⟨by decide, by decide, by decide, ?_⟩
  intro bytes hmem
  have h : (TarCache.extract deep_writable_disk (fun _ _ _ => true) deep_data_index
      deep_tar).written = [(deep_tar.take 250 ++ "data/read".toList, "hello".toList)] := by
    decide
  rw [h] at hmem
  simp only [List.mem_singleton, Prod.mk.injEq] at hmem
  have hl := congrArg List.length hmem.1
  revert hl
  decide

/-! ## Loading a file into memory -/

theorem ReadFileToMem_nonempty (disk : Disk) (filename : Str) (maxsize : Nat)
    (bytes : List Char) (hopen : disk.fopen filename "rb".toList = some bytes)
    (hne : bytes ≠ []) :
    ReadFileToMem disk filename maxsize =
      if bytes.length > maxsize then none else some (bytes ++ [Char.ofNat 0], bytes.length) := by
  have hpos : 0 < bytes.length := List.length_pos.mpr hne
  have hread : fread_items bytes bytes.length 1 = 1 := by
    unfold fread_items
    have h0 : ¬ (bytes.length = 0 ∨ 1 = 0) := by omega
    rw [if_neg h0, Nat.div_self hpos]
    rfl
  unfold ReadFileToMem
  simp only [hopen, hread, List.take_length]
  simp

/-- C19, the code at the failing input: for the readable file of length 0 the call
`fread(mem, 0, 1, in)` returns 0 and `ReadFileToMem` returns NULL, whatever `maxsize` is;
for a file of 3 bytes it returns the 3 bytes followed by NUL and the length 3 when
`maxsize` is at least 3, and NULL when `maxsize` is 2. -/
theorem ReadFileToMem_empty_file_fails :
    (ex_disk []).fopen ex_tar "rb".toList = some [] ∧
      (∀ maxsize, ReadFileToMem (ex_disk []) ex_tar maxsize = none) ∧
      ReadFileToMem two_roots_disk "/r1/lang/f".toList 3 =
        some ("one".toList ++ [Char.ofNat 0], 3) ∧
      ReadFileToMem two_roots_disk "/r1/lang/f".toList 2 = none := by
  refine ⟨by decide, ?_, ?_, ?_⟩
  · intro maxsize
    have hopen : (ex_disk []).fopen ex_tar "rb".toList = some [] := by decide
    unfold ReadFileToMem
    simp only [hopen]
    simp [fread_items]
  · rw [ReadFileToMem_nonempty two_roots_disk _ 3 "one".toList (by decide) (by decide)]
    decide
  · rw [ReadFileToMem_nonempty two_roots_disk _ 2 "one".toList (by decide) (by decide)]
    decide

/-! ## The short name of a slotted file -/

theorem strrchr_of_mem (s : Str) (c : Char) (h : c ∈ s) :
    ∃ rest, strrchr s c = some (c :: rest) ∧ c ∉ rest := by
  cases hr : strrchr s c with
  | none => exact absurd h (strrchr_none s c hr)
  | some p =>
    obtain ⟨pre, rest, _, hp, hn⟩ := strrchr_some s c p hr
    exact ⟨rest, by rw [hp], hn⟩

theorem tolower_sep : tolower PATHSEPCHAR = PATHSEPCHAR := by decide

/-- The short name of a file name with a path starts with the path separator. -/
theorem shortname_keeps_separator (filename : Str) (h : PATHSEPCHAR ∈ filename) :
    (shortname filename).head? = some PATHSEPCHAR := by
  obtain ⟨rest, hr, _⟩ := strrchr_of_mem filename PATHSEPCHAR h
  unfold shortname
  simp only [hr]
  cases hd : strrchr (PATHSEPCHAR :: rest) '.' with
  | none => simp [strtolower, tolower_sep]
  | some t2 =>
    obtain ⟨pre, rest2, hs, hp, _⟩ := strrchr_some _ _ t2 hd
    have hcut : (PATHSEPCHAR :: rest).take ((PATHSEPCHAR :: rest).length - t2.length) = pre := by
      rw [hp, hs]
      have : (pre ++ '.' :: rest2).length - ('.' :: rest2).length = pre.length := by simp
      rw [this, List.take_left]
    simp only [hcut]
    cases pre with
    | nil =>
      simp only [List.nil_append, List.cons.injEq] at hs
      exact absurd hs.1 (by decide)
    | cons a pre' =>
      simp only [List.cons_append, List.cons.injEq] at hs
      rw [← hs.1]
      simp [strtolower, tolower_sep]

set_option maxRecDepth 100000 in
/-- C20, the code at the failing input: `FioOpenFile` on `sub/Foo.GRF` in `NEWGRF_DIR`
succeeds, and the short name of the slot is `/foo`: the copy starts at the last path
separator, not after it, so the short name holds a path separator. -/
theorem FioOpenFile_shortname_keeps_separator :
    (FioOpenFile grf_disk ex_globals (fun _ => TarCache.empty) fio_start 3
        "sub/Foo.GRF".toList NEWGRF_DIR).map (fun fio => FioGetFilename fio 3) =
        some (some "/foo".toList) ∧
      PATHSEPCHAR ∈ "/foo".toList ∧
      (shortname "sub/Foo.GRF".toList).head? = some PATHSEPCHAR :=
  ⟨by decide, by decide, shortname_keeps_separator _ (by decide)⟩

/-! ## The nesting of `FioFOpenFile` -/

theorem FioFOpenFile_depth_step (disk : Disk) (g : Globals) (cache : Caches) (depth : Nat)
    (filename mode : Str) (sd : Subdirectory) :
    FioFOpenFile_depth disk g cache (depth + 1) filename mode sd =
      FioFOpenFile_step disk g cache filename mode
        (fun s => FioFOpenFile_depth disk g cache depth filename mode s) sd := by
  rw [FioFOpenFile_depth_succ]
  rfl

theorem FioFOpenFile_step_answers (disk : Disk) (g : Globals) (cache : Caches)
    (filename mode : Str) (r : Subdirectory → Option (FILE × Nat)) (sd : Subdirectory) :
    FioFOpenFile_step disk g cache filename mode r sd =
      FioFOpenFile_step disk g cache filename mode (answers_on r (recursive_calls sd)) sd := by
  unfold FioFOpenFile_step
  cases FioFOpenFile_in disk g cache filename mode sd with
  | some f => rfl
  | none => cases sd <;> simp [answers_on, recursive_calls]

theorem FioFOpenFile_step_congr (disk : Disk) (g : Globals) (cache : Caches)
    (filename mode : Str) (r r' : Subdirectory → Option (FILE × Nat)) (sd : Subdirectory)
    (h : ∀ s ∈ recursive_calls sd, r s = r' s) :
    FioFOpenFile_step disk g cache filename mode r sd =
      FioFOpenFile_step disk g cache filename mode r' sd := by
  rw [FioFOpenFile_step_answers disk g cache filename mode r,
    FioFOpenFile_step_answers disk g cache filename mode r']
  have : answers_on r (recursive_calls sd) = answers_on r' (recursive_calls sd) := by
    funext s
    unfold answers_on
    by_cases hs : s ∈ recursive_calls sd
    · simp only [hs, if_true]
      exact h s hs
    · simp only [hs, if_false]
  rw [this]

theorem FioFOpenFile_depth_one (disk : Disk) (g : Globals) (cache : Caches) (depth : Nat)
    (filename mode : Str) :
    FioFOpenFile_depth disk g cache (depth + 1) filename mode NO_DIRECTORY =
      FioFOpenFile_depth disk g cache 1 filename mode NO_DIRECTORY := by
  rw [FioFOpenFile_depth_step, FioFOpenFile_depth_step disk g cache 0]
  apply FioFOpenFile_step_congr
  intro s hs
  simp [recursive_calls] at hs

theorem FioFOpenFile_depth_two (disk : Disk) (g : Globals) (cache : Caches) (depth : Nat)
    (filename mode : Str) (sd : Subdirectory) (h1 : sd ≠ BASESET_DIR) (h2 : sd ≠ NEWGRF_DIR) :
    FioFOpenFile_depth disk g cache (depth + 2) filename mode sd =
      FioFOpenFile_depth disk g cache 2 filename mode sd := by
  rw [FioFOpenFile_depth_step, FioFOpenFile_depth_step disk g cache 1]
  apply FioFOpenFile_step_congr
  intro s hs
  have hs' : s = NO_DIRECTORY := by
    cases sd <;> simp_all [recursive_calls]
  subst hs'
  exact FioFOpenFile_depth_one disk g cache depth filename mode

theorem FioFOpenFile_depth_three (disk : Disk) (g : Globals) (cache : Caches) (depth : Nat)
    (filename mode : Str) (sd : Subdirectory) :
    FioFOpenFile_depth disk g cache (depth + 3) filename mode sd =
      FioFOpenFile_depth disk g cache 3 filename mode sd := by
  rw [FioFOpenFile_depth_step, FioFOpenFile_depth_step disk g cache 2]
  apply FioFOpenFile_step_congr
  intro s hs
  have hs' : s ≠ BASESET_DIR ∧ s ≠ NEWGRF_DIR := by
    revert hs
    cases sd <;> cases s <;> simp [recursive_calls]
  exact FioFOpenFile_depth_two disk g cache depth filename mode s hs'.1 hs'.2

/-- Claim C29: every call of `FioFOpenFile` ends, with nested calls at most 2 deep.  A call
with the depth bound `depth + 1` is one step whose recursive calls are answered with the
bound `depth`; a step in `sd` uses the answers of `recursive_calls sd` only, which is empty
for `NO_DIRECTORY`, `OLD_GM_DIR` and `OLD_DATA_DIR` or `OLD_DATA_DIR` for `BASESET_DIR`
and `NEWGRF_DIR`, and `NO_DIRECTORY` for every other subdirectory; the calls reached in
two steps make no further call; and every depth bound of 3 or more gives the result of
`FioFOpenFile`. -/
theorem FioFOpenFile_nesting_depth (disk : Disk) (g : Globals) (cache : Caches)
    (filename mode : Str) :
    (∀ depth sd, FioFOpenFile_depth disk g cache (depth + 1) filename mode sd =
      FioFOpenFile_step disk g cache filename mode
        (fun s => FioFOpenFile_depth disk g cache depth filename mode s) sd) ∧
    (∀ r sd, FioFOpenFile_step disk g cache filename mode r sd =
      FioFOpenFile_step disk g cache filename mode (answers_on r (recursive_calls sd)) sd) ∧
    recursive_calls NO_DIRECTORY = [] ∧
    recursive_calls BASESET_DIR = [OLD_GM_DIR, OLD_DATA_DIR] ∧
    recursive_calls NEWGRF_DIR = [OLD_DATA_DIR] ∧
    (∀ sd, sd = NO_DIRECTORY ∨ sd = BASESET_DIR ∨ sd = NEWGRF_DIR ∨
      recursive_calls sd = [NO_DIRECTORY]) ∧
    (∀ sd, (recursive_calls sd).all (fun s =>
      (recursive_calls s).all (fun t => (recursive_calls t).isEmpty)) = true) ∧
    (∀ depth sd, FioFOpenFile_depth disk g cache (depth + 3) filename mode sd =
      FioFOpenFile disk g cache filename mode sd) := by
  refine ⟨fun depth sd => FioFOpenFile_depth_step disk g cache depth filename mode sd,
    fun r sd => FioFOpenFile_step_answers disk g cache filename mode r sd, rfl, rfl, rfl,
    ?_, ?_, fun depth sd => FioFOpenFile_depth_three disk g cache depth filename mode sd⟩
  · intro sd
    cases sd <;> simp [recursive_calls]
  · intro sd
    cases sd <;> rfl

/-! ## `BuildDirPath` -/

theorem joined_parts_getLast (parts : List Str) (hne : parts ≠ []) (buf : Str) :
    (joined_parts buf parts).getLast? = some PATHSEPCHAR := by
  induction parts generalizing buf with
  | nil => exact absurd rfl hne
  | cons part rest ih =>
    cases rest with
    | nil =>
      simp only [joined_parts]
      by_cases h : (buf ++ part).getLast? = some PATHSEPCHAR
      · simp only [h, if_true]
      · simp only [h, if_false]
        simp
    | cons q rest => exact ih (by simp) _

theorem joined_parts_length (parts : List Str) (buf : Str) :
    (joined_parts buf parts).length ≤
      buf.length + (parts.map List.length).sum + parts.length := by
  induction parts generalizing buf with
  | nil => simp [joined_parts]
  | cons part rest ih =>
    simp only [joined_parts, List.map_cons, List.sum_cons, List.length_cons]
    refine le_trans (ih _) ?_
    by_cases h : (buf ++ part).getLast? = some PATHSEPCHAR
    · simp only [h, if_true, List.length_append]
      omega
    · simp only [h, if_false, List.length_append, List.length_singleton]
      omega

theorem BuildDirPath_loop_eq (total : Nat) (parts : List Str) (buf : Str)
    (h : buf.length + (parts.map List.length).sum + parts.length + 1 ≤ total) :
    BuildDirPath_loop total buf parts = some (joined_parts buf parts) := by
  induction parts generalizing buf with
  | nil => rfl
  | cons part rest ih =>
    simp only [List.map_cons, List.sum_cons, List.length_cons] at h
    have hlt : buf.length + part.length + 1 < total := by omega
    simp only [BuildDirPath_loop, joined_parts, hlt, if_true]
    by_cases hl : (buf ++ part).getLast? = some PATHSEPCHAR
    · simp only [hl, if_true, ne_eq, not_true_eq_false, if_false]
      apply ih
      simp only [List.length_append]
      omega
    · simp only [hl, if_false, ne_eq, not_false_eq_true, if_true]
      apply ih
      simp only [List.length_append, List.length_singleton]
      omega

/-- Claim C27: for 1 to 4 parts of which the first is not empty, `BuildDirPath` returns
(no `assert` fails, in particular not the bound checked before each copy) the parts in
order, each followed by one separator unless the text built so far already ends with one;
the result ends with a separator and, with its final NUL, fits the `n + 1 + sum of the
lengths` bytes allocated. -/
theorem BuildDirPath_joins_parts (parts : List Str) (h0 : 0 < parts.length)
    (h4 : parts.length ≤ 4) (h1 : parts.head? ≠ some []) :
    BuildDirPath parts = some (joined_parts [] parts) ∧
    (joined_parts [] parts).getLast? = some PATHSEPCHAR ∧
    (joined_parts [] parts).length + 1 ≤ parts.length + 1 + (parts.map List.length).sum := by
  refine ⟨?_, ?_, ?_⟩
  · unfold BuildDirPath
    have hc : ¬ (parts.length = 0 ∨ parts.head? = some [] ∨ 4 < parts.length) := by
      intro h
      rcases h with h | h | h
      · omega
      · exact h1 h
      · omega
    rw [if_neg hc]
    apply BuildDirPath_loop_eq
    simp only [List.length_nil]
    omega
  · exact joined_parts_getLast parts (List.length_pos.mp h0) []
  · have := joined_parts_length parts []
    simp only [List.length_nil] at this
    omega

/-- Claim C27, on an instance: the parts `/r`, `lang/` and the empty string give `/r/lang/`;
one separator follows `/r`, none is added after `lang/` or after the empty part. -/
theorem BuildDirPath_joins_parts_witness :
    BuildDirPath ["/r".toList, "lang/".toList, []] =
      some (joined_parts [] ["/r".toList, "lang/".toList, []]) ∧
    (joined_parts [] ["/r".toList, "lang/".toList, []]).getLast? = some PATHSEPCHAR ∧
    (joined_parts [] ["/r".toList, "lang/".toList, []]).length + 1 ≤
      ["/r".toList, "lang/".toList, ([] : Str)].length + 1 +
        (["/r".toList, "lang/".toList, ([] : Str)].map List.length).sum :=
  BuildDirPath_joins_parts ["/r".toList, "lang/".toList, []] (by decide) (by decide) (by decide)

/-! ## The buffer of the link destination -/

theorem truncate_at_last_sep_length (s : Str) :
    (truncate_at_last_sep s).length ≤ s.length - 1 := by
  induction s with
  | nil => simp [truncate_at_last_sep]
  | cons c cs ih =>
    simp only [truncate_at_last_sep]
    by_cases h : PATHSEPCHAR ∈ cs
    · simp only [h, if_true, List.length_cons]
      have : 0 < cs.length := List.length_pos.mpr (List.ne_nil_of_mem h)
      simp only [Nat.add_sub_cancel]
      omega
    · simp only [h, if_false, List.length_nil]
      omega

/-- The characters that the components `comps` can add to `dest`: their lengths, and one
separator each. -/
theorem link_components_budget (l : Str) :
    ((link_components l).map (fun c => c.length + 1)).sum = l.length + 1 := by
  induction l with
  | nil => simp [link_components]
  | cons c cs ih =>
    simp only [link_components]
    by_cases h : c = PATHSEPCHAR
    · simp only [h, if_true, List.map_cons, List.sum_cons, List.length_nil, List.length_cons, ih]
      omega
    · simp only [h, if_false]
      cases hc : link_components cs with
      | nil => rw [hc] at ih; simp at ih
      | cons x t =>
        rw [hc] at ih
        simp only [List.map_cons, List.sum_cons, List.length_cons] at ih ⊢
        omega

theorem resolve_link_components_checked_eq (cap : Nat) (comps : List Str) (dest : Str)
    (h : dest.length + (comps.map (fun c => c.length + 1)).sum < cap) :
    resolve_link_components_checked cap dest comps = some (resolve_link_components dest comps) ∧
    (resolve_link_components dest comps).length ≤
      dest.length + (comps.map (fun c => c.length + 1)).sum := by
  induction comps generalizing dest with
  | nil => simp [resolve_link_components_checked, resolve_link_components]
  | cons comp rest ih =>
    simp only [List.map_cons, List.sum_cons] at h ⊢
    simp only [resolve_link_components_checked, resolve_link_components]
    by_cases h1 : comp = ['.']
    · simp only [h1, if_true]
      obtain ⟨e, l⟩ := ih dest (by omega)
      exact ⟨e, by omega⟩
    · simp only [h1, if_false]
      by_cases h2 : comp = ['.', '.']
      · simp only [h2, if_true]
        by_cases h3 : dest = []
        · subst h3
          simp
        · simp only [h3, if_false]
          have ht := truncate_at_last_sep_length dest
          obtain ⟨e, l⟩ := ih (truncate_at_last_sep dest) (by omega)
          exact ⟨e, by omega⟩
      · simp only [h2, if_false]
        have hlen : (if dest ≠ [] then dest ++ [PATHSEPCHAR] else dest).length ≤ dest.length + 1 := by
          by_cases h3 : dest = []
          · simp [h3]
          · simp [h3]
        generalize (if dest ≠ [] then dest ++ [PATHSEPCHAR] else dest) = d at hlen ⊢
        have hc : d.length + comp.length < cap := by omega
        rw [if_pos hc]
        obtain ⟨e, l⟩ := ih (d ++ comp) (by simp only [List.length_append]; omega)
        refine ⟨e, le_trans l ?_⟩
        simp only [List.length_append]
        omega

theorem field_string_length (field : List Char) : (field_string field).length ≤ field.length :=
  (List.takeWhile_sublist _).length_le

theorem SimplifyFileName_length (name : Str) : (SimplifyFileName name).length = name.length := by
  simp [SimplifyFileName, strtolower]

theorem header_name_length (th : TarHeader) : (header_name th).length ≤ 256 := by
  have h1 : (field_string (TarHeader.prefix_field th)).length ≤ 155 :=
    le_trans (field_string_length _) (by simp [TarHeader.prefix_field])
  have h2 : (field_string (TarHeader.name th)).length ≤ 100 :=
    le_trans (field_string_length _) (by simp [TarHeader.name])
  unfold header_name
  split
  · simp only [List.length_append, List.length_singleton]
    omega
  · omega

theorem header_linkname_length (th : TarHeader) :
    (field_string (TarHeader.linkname th)).length ≤ 100 :=
  le_trans (field_string_length _) (by simp [TarHeader.linkname])

/-- Claim C30: for every header, the inner loop of the link case run with the buffer
`dest` of 359 bytes never fails its `assert`: it gives the destination that `TarCache::add`
stores, of at most 356 characters.  The loop passes as well when the `assert` is checked
against 357 in place of the buffer size, so `dest` has at most 356 characters after every
component.  The name copied into `name` has at most 256 characters and the link target at
most 100. -/
theorem link_destination_fits (th : TarHeader) :
    sizeof_dest = 359 ∧
    (SimplifyFileName (header_name th)).length ≤ 256 ∧
    (SimplifyFileName (field_string (TarHeader.linkname th))).length ≤ 100 ∧
    resolve_link_components_checked sizeof_dest
        (truncate_at_last_sep (SimplifyFileName (header_name th)))
        (link_components (SimplifyFileName (field_string (TarHeader.linkname th)))) =
      some (link_destination (SimplifyFileName (header_name th))
        (SimplifyFileName (field_string (TarHeader.linkname th)))) ∧
    resolve_link_components_checked 357
        (truncate_at_last_sep (SimplifyFileName (header_name th)))
        (link_components (SimplifyFileName (field_string (TarHeader.linkname th)))) =
      some (link_destination (SimplifyFileName (header_name th))
        (SimplifyFileName (field_string (TarHeader.linkname th)))) ∧
    (link_destination (SimplifyFileName (header_name th))
        (SimplifyFileName (field_string (TarHeader.linkname th)))).length ≤ 356 := by
  have hn : (SimplifyFileName (header_name th)).length ≤ 256 := by
    rw [SimplifyFileName_length]
    exact header_name_length th
  have hl : (SimplifyFileName (field_string (TarHeader.linkname th))).length ≤ 100 := by
    rw [SimplifyFileName_length]
    exact header_linkname_length th
  have ht := truncate_at_last_sep_length (SimplifyFileName (header_name th))
  have hb := link_components_budget (SimplifyFileName (field_string (TarHeader.linkname th)))
  have hcap : sizeof_dest = 359 := rfl
  obtain ⟨e, l⟩ := resolve_link_components_checked_eq sizeof_dest
    (link_components (SimplifyFileName (field_string (TarHeader.linkname th))))
    (truncate_at_last_sep (SimplifyFileName (header_name th))) (by rw [hb, hcap]; omega)
  obtain ⟨e', _⟩ := resolve_link_components_checked_eq 357
    (link_components (SimplifyFileName (field_string (TarHeader.linkname th))))
    (truncate_at_last_sep (SimplifyFileName (header_name th))) (by rw [hb]; omega)
  refine ⟨rfl, hn, hl, e, e', ?_⟩
  unfold link_destination
  omega

/-! ## The link that `FioFOpenFile` applies -/

theorem prefix_not_lt (a b : Str) (h : a <+: b) : ¬ b < a := by
  induction a generalizing b with
  | nil => exact List.Lex.not_nil_right _ _
  | cons x a ih =>
    obtain ⟨t, rfl⟩ := h
    intro hlt
    have hlt' : a ++ t < a := List.Lex.cons_iff.mp hlt
    exact ih (a ++ t) ⟨t, rfl⟩ hlt'

theorem link_applies_isPrefix (src name : Str) (h : link_applies src name = true) :
    src <+: name := by
  unfold link_applies at h
  simp only [Bool.and_eq_true, decide_eq_true_eq] at h
  rw [h.2]
  exact List.take_prefix _ _

theorem resolve_one_link_shortest (links : StdMap Str) (name k v : Str)
    (hwf : StdMap.WF links) (hmem : (k, v) ∈ links) (hk : link_applies k name = true)
    (hshort : ∀ p ∈ links, link_applies p.1 name = true → k.length ≤ p.1.length) :
    resolve_one_link name links = v ++ name.drop k.length := by
  induction links with
  | nil => simp at hmem
  | cons p rest ih =>
    obtain ⟨src, dst⟩ := p
    have hwf' : (∀ a ∈ StdMap.keys rest, src < a) ∧ StdMap.WF rest := by
      have := hwf
      unfold StdMap.WF at this
      simp only [StdMap.keys, List.map_cons, List.pairwise_cons] at this
      exact this
    simp only [resolve_one_link]
    rcases List.mem_cons.mp hmem with heq | hin
    · have h1 : src = k := (Prod.mk.inj heq).1.symm
      have h2 : dst = v := (Prod.mk.inj heq).2.symm
      subst h1
      subst h2
      simp only [hk, if_true]
    · have hlt : src < k := hwf'.1 k (by
        simp only [StdMap.keys, List.mem_map]
        exact ⟨(k, v), hin, rfl⟩)
      by_cases ha : link_applies src name = true
      · exfalso
        have hlen : k.length ≤ src.length := hshort (src, dst) (by simp) ha
        have hpre : k <+: src :=
          List.prefix_of_prefix_length_le (link_applies_isPrefix k name hk)
            (link_applies_isPrefix src name ha) hlen
        exact prefix_not_lt k src hpre hlt
      · simp only [ha, if_false, Bool.false_eq_true]
        exact ih hwf'.2 hin (fun p hp => hshort p (by simp [hp]))

/-- Claim C28: when the keys of `links` are in the order of the map and several of them
are source prefixes of the lowercased name, `FioFOpenFile` applies one link only, the one
with the shortest matching source `k`: the member looked up is the destination `v` of that
link followed by the rest of the name, whatever the longer matching sources map to. -/
theorem FioFOpenFile_applies_shortest_link (tc : TarCache) (filename k v : Str)
    (hwf : StdMap.WF tc.links) (hmem : (k, v) ∈ tc.links)
    (hk : link_applies k (strtolower filename) = true)
    (hshort : ∀ p ∈ tc.links, link_applies p.1 (strtolower filename) = true →
      k.length ≤ p.1.length) :
    resolve_one_link (strtolower filename) tc.links =
      v ++ (strtolower filename).drop k.length ∧
    FioFOpenFile_tar_entry tc filename =
      StdMap.find tc.files (v ++ (strtolower filename).drop k.length) := by
  have h := resolve_one_link_shortest tc.links (strtolower filename) k v hwf hmem hk hshort
  exact ⟨h, by unfold FioFOpenFile_tar_entry; rw [h]⟩

/-- Claim C28, on an instance: with the links `a/ -> x/` and `a/b/ -> y/`, the name
`a/b/f` is looked up as `x/b/f`, the member found, and not as `y/f`. -/
theorem FioFOpenFile_applies_shortest_link_witness :
    resolve_one_link (strtolower "a/b/f".toList) nested_links.links =
      "x/".toList ++ (strtolower "a/b/f".toList).drop "a/".toList.length ∧
    FioFOpenFile_tar_entry nested_links "a/b/f".toList =
      StdMap.find nested_links.files
        ("x/".toList ++ (strtolower "a/b/f".toList).drop "a/".toList.length) :=
  FioFOpenFile_applies_shortest_link nested_links "a/b/f".toList "a/".toList "x/".toList
    (by unfold StdMap.WF; decide) (by decide) (by decide) (by decide)

/-! ## `MatchesExtension` -/

theorem strrchr_not_mem (s : Str) (c : Char) (h : c ∉ s) : strrchr s c = none := by
  induction s with
  | nil => rfl
  | cons d ds ih =>
    have h1 : c ∉ ds := fun hm => h (List.mem_cons_of_mem _ hm)
    have h2 : ¬ d = c := fun he => h (by simp [he])
    simp only [strrchr, ih h1, if_neg h2]

theorem strrchr_append_last (pre rest : Str) (c : Char) (h : c ∉ rest) :
    strrchr (pre ++ c :: rest) c = some (c :: rest) := by
  induction pre with
  | nil => simp only [List.nil_append, strrchr, strrchr_not_mem rest c h, if_true]
  | cons d pre ih =>
    rw [List.cons_append]
    unfold strrchr
    rw [ih]

theorem toNat_ofNat_small (n : Nat) (h : n < 55296) : (Char.ofNat n).toNat = n := by
  have hvalid : n.isValidChar := Or.inl h
  unfold Char.ofNat
  rw [dif_pos hvalid]
  simp only [Char.ofNatAux, Char.toNat, UInt32.toNat]
  simp only [BitVec.toNat_ofNatLt]

/-- A character that is not a lowercase letter is the lowercase form of itself only. -/
theorem tolower_eq_not_letter (c x : Char) (hl : ¬ (97 ≤ c.toNat ∧ c.toNat ≤ 122))
    (h : tolower x = c) : x = c := by
  unfold tolower at h
  by_cases hx : 65 ≤ x.toNat ∧ x.toNat ≤ 90
  · exfalso
    rw [if_pos hx] at h
    have hv : (Char.ofNat (x.toNat + 32)).toNat = x.toNat + 32 :=
      toNat_ofNat_small _ (by omega)
    rw [h] at hv
    omega
  · rw [if_neg hx] at h
    exact h

theorem tolower_not_upper (c : Char) (hu : ¬ (65 ≤ c.toNat ∧ c.toNat ≤ 90)) : tolower c = c := by
  unfold tolower
  rw [if_neg hu]

theorem MatchesExtension_suffix (ext filename : Str)
    (h : MatchesExtension (some ext) filename = true) :
    strtolower ext <:+ strtolower filename := by
  cases ext with
  | nil => exact List.nil_suffix
  | cons c cs =>
    have h : (match strrchr filename c with
      | none => false
      | some ext => decide (strtolower ext = strtolower (c :: cs))) = true := h
    cases hr : strrchr filename c with
    | none => rw [hr] at h; simp at h
    | some p =>
      rw [hr] at h
      simp only [decide_eq_true_eq] at h
      obtain ⟨pre, rest, hf, hp, _⟩ := strrchr_some filename c p hr
      refine ⟨strtolower pre, ?_⟩
      rw [← h, hp, hf, strtolower_append]

theorem MatchesExtension_of_suffix (c : Char) (cs filename : Str)
    (hu : ¬ (65 ≤ c.toNat ∧ c.toNat ≤ 90)) (hl : ¬ (97 ≤ c.toNat ∧ c.toNat ≤ 122))
    (hcs : c ∉ cs) (h : strtolower (c :: cs) <:+ strtolower filename) :
    MatchesExtension (some (c :: cs)) filename = true := by
  obtain ⟨t, ht⟩ := h
  unfold strtolower at ht
  obtain ⟨pre, suf, hf, _, hsuf⟩ := List.append_eq_map_iff.mp ht
  cases suf with
  | nil => simp at hsuf
  | cons x rest =>
    simp only [List.map_cons, List.cons.injEq] at hsuf
    have hx : x = c := by
      apply tolower_eq_not_letter c x hl
      rw [hsuf.1]
      exact tolower_not_upper c hu
    subst hx
    have hrest : x ∉ rest := by
      intro hm
      have h1 : tolower x ∈ rest.map tolower := List.mem_map_of_mem _ hm
      rw [hsuf.2, tolower_not_upper x hu] at h1
      obtain ⟨y, hy, hyx⟩ := List.mem_map.mp h1
      have : y = x := tolower_eq_not_letter x y hl hyx
      exact hcs (this ▸ hy)
    show (match strrchr filename x with
      | none => false
      | some ext => decide (strtolower ext = strtolower (x :: cs))) = true
    rw [hf, strrchr_append_last pre rest x hrest]
    simp only [decide_eq_true_eq]
    unfold strtolower
    simp only [List.map_cons, hsuf.2]

/-- Claim C26, as amended: `MatchesExtension` is true for the extension NULL and for the
empty extension; for every extension it is true only if the file name ends with the
extension up to the case of ASCII letters; and for an extension whose first character is
not a letter and does not occur again in it (such as `.tar`), it is true exactly when the
file name ends with the extension up to the case of ASCII letters. -/
theorem MatchesExtension_iff_suffix_nocase (filename : Str) :
    MatchesExtension none filename = true ∧
    MatchesExtension (some []) filename = true ∧
    (∀ ext, MatchesExtension (some ext) filename = true →
      strtolower ext <:+ strtolower filename) ∧
    (∀ c cs, ¬ (65 ≤ c.toNat ∧ c.toNat ≤ 90) → ¬ (97 ≤ c.toNat ∧ c.toNat ≤ 122) → c ∉ cs →
      (MatchesExtension (some (c :: cs)) filename = true ↔
        strtolower (c :: cs) <:+ strtolower filename)) :=
  ⟨rfl, rfl, fun ext h => MatchesExtension_suffix ext filename h,
    fun c cs hu hl hcs => ⟨fun h => MatchesExtension_suffix (c :: cs) filename h,
      fun h => MatchesExtension_of_suffix c cs filename hu hl hcs h⟩⟩

/-- Claim C26, on an instance: `archive.TAR` ends with `.tar` up to case and is matched,
`archive.tar.gz` does not and is not. -/
theorem MatchesExtension_iff_suffix_nocase_witness :
    (MatchesExtension (some ".tar".toList) "archive.TAR".toList = true ↔
      strtolower ".tar".toList <:+ strtolower "archive.TAR".toList) ∧
    MatchesExtension (some ".tar".toList) "archive.TAR".toList = true ∧
    MatchesExtension (some ".tar".toList) "archive.tar.gz".toList = false :=
  ⟨(MatchesExtension_iff_suffix_nocase "archive.TAR".toList).2.2.2 '.' "tar".toList
    (by decide) (by decide) (by decide), by decide, by decide⟩

/-- Claim C26 fails as stated: the file name `archive.TAR` does not end with the extension
`.tar`, and `MatchesExtension` is true for it, because the comparison is `strcasecmp`. -/
theorem MatchesExtension_ignores_case :
    MatchesExtension (some ".tar".toList) "archive.TAR".toList = true ∧
    ¬ (".tar".toList <:+ "archive.TAR".toList) := by
  decide

/-! ## Invariants of the header loop -/

theorem StdMap.mem_place {α : Type} (m : StdMap α) (k : Str) (v : α) (p : Str × α)
    (h : p ∈ StdMap.place m k v) : p = (k, v) ∨ p ∈ m := by
  induction m with
  | nil =>
    simp only [StdMap.place, List.mem_singleton] at h
    exact Or.inl h
  | cons q m ih =>
    obtain ⟨k', v'⟩ := q
    unfold StdMap.place at h
    by_cases hlt : k < k'
    · rw [if_pos hlt] at h
      rcases List.mem_cons.mp h with h | h
      · exact Or.inl h
      · exact Or.inr h
    · rw [if_neg hlt] at h
      rcases List.mem_cons.mp h with h | h
      · exact Or.inr (by rw [h]; exact List.mem_cons_self _ _)
      · rcases ih h with h | h
        · exact Or.inl h
        · exact Or.inr (List.mem_cons_of_mem _ h)

theorem StdMap.mem_insert {α : Type} (m : StdMap α) (k : Str) (v : α) (p : Str × α)
    (h : p ∈ (StdMap.insert m k v).1) : p = (k, v) ∨ p ∈ m := by
  unfold StdMap.insert at h
  cases hf : StdMap.find m k with
  | some w =>
    rw [hf] at h
    exact Or.inr h
  | none =>
    rw [hf] at h
    exact StdMap.mem_place m k v p h

/-- A property of the state that `add_entry` keeps and that does not depend on the offset
holds after every pass of the header loop. -/
theorem add_header_invariant (P : ScanState → Prop) (filename : Str) (content : List Char)
    (hpos : ∀ st p, P st → P { st with pos := p })
    (hent : ∀ th st, P st → P (add_entry filename th st))
    (st : ScanState) (h : P st) :
    match add_header filename content st with
    | HeaderStep.done => True
    | HeaderStep.failed s => P s
    | HeaderStep.next s => P s := by
  have h0 : P { st with pos := (st.pos + 512) % 2 ^ 64 } := hpos st _ h
  have h' := hent (header_at content st.pos) _ h0
  unfold add_header
  by_cases h1 : (header_at content st.pos).length ≠ 512
  · simp only [if_pos h1]
  · by_cases h2 : valid_magic (header_at content st.pos) = false
    · simp only [if_neg h1, if_pos h2]
      exact h0
    · by_cases h3 : fseek_cur_fails (add_entry filename (header_at content st.pos)
          { st with pos := (st.pos + 512) % 2 ^ 64 }).pos
          (Align (header_skip (header_at content st.pos)) 512) = true
      · simp only [if_neg h1, if_neg h2, if_pos h3]
        exact h'
      · simp only [if_neg h1, if_neg h2, if_neg h3]
        exact hpos _ _ h'

theorem add_loop_invariant (P : ScanState → Prop) (filename : Str) (content : List Char)
    (hpos : ∀ st p, P st → P { st with pos := p })
    (hent : ∀ th st, P st → P (add_entry filename th st))
    (fuel : Nat) (st : ScanState) (b : Bool) (st' : ScanState) (h : P st)
    (hl : add_loop filename content fuel st = some (b, st')) : P st' := by
  induction fuel generalizing st with
  | zero => simp [add_loop] at hl
  | succ fuel ih =>
    have hh := add_header_invariant P filename content hpos hent st h
    unfold add_loop at hl
    cases hs : add_header filename content st with
    | done =>
      rw [hs] at hl
      simp only [Option.some.injEq, Prod.mk.injEq] at hl
      rw [← hl.2]
      exact h
    | failed s =>
      rw [hs] at hl hh
      simp only [Option.some.injEq, Prod.mk.injEq] at hl
      rw [← hl.2]
      exact hh
    | next s =>
      rw [hs] at hl hh
      exact ih s hh hl

/-- The ways in which `TarCache::add` ends: without a change, after a failed header loop,
or with the collected links applied after a complete header loop. -/
theorem add_cases (disk : Disk) (fuel : Nat) (tc : TarCache) (p : Str) (b : Bool)
    (tc' : TarCache) (ha : TarCache.add disk fuel tc p = some (b, tc')) :
    tc' = tc ∨ ∃ content st, disk.fopen p "rb".toList = some content ∧
      add_loop p content fuel
        ⟨{ tc with tars := StdMap.assign tc.tars p ⟨p, none⟩ }, [], 0, 0⟩ = some (b, st) ∧
      ((b = false ∧ tc' = st.tc) ∨ (b = true ∧ tc' = add_links st.tc st.links)) := by
  unfold TarCache.add at ha
  cases ht : StdMap.find tc.tars p with
  | some t =>
    rw [ht] at ha
    simp only [Option.some.injEq, Prod.mk.injEq] at ha
    exact Or.inl ha.2.symm
  | none =>
    rw [ht] at ha
    cases ho : disk.fopen p "rb".toList with
    | none =>
      rw [ho] at ha
      simp only [Option.some.injEq, Prod.mk.injEq] at ha
      exact Or.inl ha.2.symm
    | some content =>
      rw [ho] at ha
      simp only at ha
      cases hl : add_loop p content fuel
          ⟨{ tc with tars := StdMap.assign tc.tars p ⟨p, none⟩ }, [], 0, 0⟩ with
      | none =>
        rw [hl] at ha
        simp at ha
      | some r =>
        obtain ⟨b', st⟩ := r
        rw [hl] at ha
        refine Or.inr ⟨content, st, rfl, ?_, ?_⟩
        · cases b' with
          | false =>
            simp only [Option.some.injEq, Prod.mk.injEq] at ha
            rw [← ha.1]
            exact hl
          | true =>
            simp only [Option.some.injEq, Prod.mk.injEq] at ha
            rw [← ha.1]
            exact hl
        · cases b' with
          | false =>
            simp only [Option.some.injEq, Prod.mk.injEq] at ha
            exact Or.inl ⟨ha.1.symm, ha.2.symm⟩
          | true =>
            simp only [Option.some.injEq, Prod.mk.injEq] at ha
            exact Or.inr ⟨ha.1.symm, ha.2.symm⟩

/-- A pair of the temporary list after `add_entry` was there before, or has the simplified
name of the header, which is not empty, as its key and the resolved link as its value. -/
theorem add_entry_temp_mem (filename : Str) (th : TarHeader) (st : ScanState) :
    ∀ p ∈ (add_entry filename th st).links, p ∈ st.links ∨
      ((header_name th).length ≠ 0 ∧
        p = (SimplifyFileName (header_name th),
          link_destination (SimplifyFileName (header_name th))
            (SimplifyFileName (field_string (TarHeader.linkname th))))) := by
  unfold add_entry
  simp only
  repeat' split
  all_goals first
    | exact fun p hp => Or.inl hp
    | (intro p hp
       rename_i hne _
       rcases StdMap.mem_insert _ _ _ _ hp with h | h
       · exact Or.inr ⟨fun h0 => hne (Or.inl h0), h⟩
       · exact Or.inl h)

/-- A pair of `files` after `add_entry` was there before, or has the simplified name of
the header, which is not empty, as its key. -/
theorem add_entry_files_mem (filename : Str) (th : TarHeader) (st : ScanState) :
    ∀ p ∈ (add_entry filename th st).tc.files, p ∈ st.tc.files ∨
      ((header_name th).length ≠ 0 ∧ p.1 = SimplifyFileName (header_name th)) := by
  unfold add_entry
  simp only
  repeat' split
  all_goals first
    | exact fun p hp => Or.inl hp
    | (intro p hp
       rename_i hne _
       rcases StdMap.mem_insert _ _ _ _ hp with h | h
       · exact Or.inr ⟨hne, by rw [h]⟩
       · exact Or.inl h)

/-! ## The invariant of `links` -/

theorem add_link_links_invariant (tc : TarCache) (srcp destp : Str)
    (h : links_invariant tc.links) : links_invariant (TarCache.add_link tc srcp destp).links := by
  unfold TarCache.add_link
  simp only
  split
  · exact h
  · intro p hp
    rcases StdMap.mem_insert _ _ _ _ hp with hnew | hold
    · rw [hnew]
      refine ⟨?_, ?_, ?_⟩
      · by_cases h1 : (strtolower srcp).getLast? = some PATHSEPCHAR
        · simp only [h1, if_true]
          intro h0
          rw [h0] at h1
          simp at h1
        · simp only [h1, if_false]
          simp
      · by_cases h1 : (strtolower srcp).getLast? = some PATHSEPCHAR
        · simp only [h1, if_true]
        · simp only [h1, if_false]
          exact getLast?_append_singleton _ _
      · by_cases h2 : (strtolower destp).length = 0
        · left
          simp only [h2, if_true]
        · right
          simp only [h2, if_false]
          by_cases h3 : (strtolower destp).getLast? = some PATHSEPCHAR
          · simp only [h3, if_true]
          · simp only [h3, if_false]
            exact getLast?_append_singleton _ _
    · exact h p hold

theorem add_links_links_invariant (links : StdMap Str) (tc : TarCache)
    (h : links_invariant tc.links) : links_invariant (add_links tc links).links := by
  induction links generalizing tc with
  | nil => exact h
  | cons l links ih =>
    obtain ⟨src, dest⟩ := l
    simp only [add_links]
    exact ih _ (add_link_links_invariant tc src dest h)

theorem add_loop_links (filename : Str) (content : List Char) (fuel : Nat)
    (st : ScanState) (b : Bool) (st' : ScanState)
    (hl : add_loop filename content fuel st = some (b, st')) : st'.tc.links = st.tc.links :=
  add_loop_invariant (fun s => s.tc.links = st.tc.links) filename content
    (fun _ _ h => h) (fun th s h => (add_entry_links filename th s).trans h) fuel st b st' rfl hl

theorem add_loop_temp_nonempty (filename : Str) (content : List Char) (fuel : Nat)
    (st : ScanState) (b : Bool) (st' : ScanState) (h : ∀ p ∈ st.links, p.1 ≠ [])
    (hl : add_loop filename content fuel st = some (b, st')) : ∀ p ∈ st'.links, p.1 ≠ [] := by
  refine add_loop_invariant (fun s => ∀ p ∈ s.links, p.1 ≠ []) filename content
    (fun _ _ h => h) ?_ fuel st b st' h hl
  intro th s hs p hp
  rcases add_entry_temp_mem filename th s p hp with hold | ⟨hne, hp⟩
  · exact hs p hold
  · rw [hp]
    intro h0
    apply hne
    have := SimplifyFileName_length (header_name th)
    simp only at h0
    rw [h0] at this
    exact this.symm

/-- Claim C24: the invariant of `links` (every key is not empty and ends with the path
separator, every value is empty or ends with the path separator) holds in the empty index
and is kept by `TarCache::add_link` and by `TarCache::add`; the sources that `add` hands
to `add_link` are the keys of its temporary list, which are never empty. -/
theorem links_invariant_kept (disk : Disk) (fuel : Nat) (tc : TarCache) (filename : Str)
    (b : Bool) (tc' : TarCache) (srcp destp : Str) :
    links_invariant TarCache.empty.links ∧
    (links_invariant tc.links → links_invariant (TarCache.add_link tc srcp destp).links) ∧
    (links_invariant tc.links → TarCache.add disk fuel tc filename = some (b, tc') →
      links_invariant tc'.links) ∧
    (∀ content tc0 st, add_loop filename content fuel ⟨tc0, [], 0, 0⟩ = some (b, st) →
      ∀ p ∈ st.links, p.1 ≠ []) := by
  refine ⟨?_, add_link_links_invariant tc srcp destp, ?_, ?_⟩
  · intro p hp
    simp [TarCache.empty] at hp
  · intro h ha
    rcases add_cases disk fuel tc filename b tc' ha with he | ⟨content, st, _, hl, hr⟩
    · rw [he]
      exact h
    · have hlinks : st.tc.links = tc.links := add_loop_links filename content fuel _ b st hl
      rcases hr with ⟨_, he⟩ | ⟨_, he⟩
      · rw [he, hlinks]
        exact h
      · rw [he]
        apply add_links_links_invariant
        rw [hlinks]
        exact h
  · intro content tc0 st hl
    exact add_loop_temp_nonempty filename content fuel _ b st (by simp) hl

set_option maxRecDepth 100000 in
/-- Claim C24, on an instance: the links `p/ -> z/` and `p/q/ -> b/` that `TarCache::add`
builds from `shadow_archive` in the empty index satisfy the invariant. -/
theorem links_invariant_kept_witness :
    TarCache.add (ex_disk shadow_archive) 8 TarCache.empty ex_tar = some (true, shadow_index) ∧
    links_invariant shadow_index.links :=
  ⟨by decide,
    (links_invariant_kept (ex_disk shadow_archive) 8 TarCache.empty ex_tar true shadow_index
      [] []).2.2.1 (by intro p hp; simp [TarCache.empty] at hp) (by decide)⟩

/-! ## The invariant of `files` -/

theorem tolower_not_uppercase (c : Char) :
    ¬ (65 ≤ (tolower c).toNat ∧ (tolower c).toNat ≤ 90) := by
  unfold tolower
  by_cases h : 65 ≤ c.toNat ∧ c.toNat ≤ 90
  · rw [if_pos h, toNat_ofNat_small _ (by omega)]
    omega
  · rw [if_neg h]
    exact h

theorem SimplifyFileName_normalized (name : Str) (h : name.length ≠ 0) :
    normalized_key (SimplifyFileName name) := by
  refine ⟨?_, ?_⟩
  · intro h0
    apply h
    rw [← SimplifyFileName_length, h0]
    rfl
  · intro c hc
    unfold SimplifyFileName strtolower at hc
    simp only [List.map_map, List.mem_map, Function.comp] at hc
    obtain ⟨x, _, hx⟩ := hc
    by_cases hs : tolower x = '/'
    · rw [if_pos hs] at hx
      rw [← hx]
      exact ⟨by decide, fun _ => rfl⟩
    · rw [if_neg hs] at hx
      rw [← hx]
      exact ⟨tolower_not_uppercase x, fun h1 => absurd h1 hs⟩

theorem strtolower_normalized (k : Str) (h : normalized_key k) : strtolower k = k := by
  unfold strtolower
  have : ∀ c ∈ k, tolower c = c := fun c hc => tolower_not_upper c (h.2 c hc).1
  calc k.map tolower = k.map id := List.map_congr_left this
    _ = k := List.map_id k

theorem add_link_files_invariant (tc : TarCache) (srcp destp : Str)
    (h : files_invariant tc.files) (hs : normalized_key srcp) :
    files_invariant (TarCache.add_link tc srcp destp).files := by
  unfold TarCache.add_link
  simp only
  split
  · intro p hp
    rcases StdMap.mem_insert _ _ _ _ hp with hnew | hold
    · rw [hnew]
      simp only
      rw [strtolower_normalized srcp hs]
      exact hs
    · exact h p hold
  · exact h

theorem add_links_files_invariant (links : StdMap Str) (tc : TarCache)
    (h : files_invariant tc.files) (hl : ∀ p ∈ links, normalized_key p.1) :
    files_invariant (add_links tc links).files := by
  induction links generalizing tc with
  | nil => exact h
  | cons l links ih =>
    obtain ⟨src, dest⟩ := l
    simp only [add_links]
    exact ih _ (add_link_files_invariant tc src dest h (hl (src, dest) (by simp)))
      (fun p hp => hl p (by simp [hp]))

theorem add_entry_files_invariant (filename : Str) (th : TarHeader) (st : ScanState)
    (h : files_invariant st.tc.files) : files_invariant (add_entry filename th st).tc.files := by
  intro p hp
  rcases add_entry_files_mem filename th st p hp with hold | ⟨hne, hk⟩
  · exact h p hold
  · rw [hk]
    exact SimplifyFileName_normalized _ hne

theorem add_entry_temp_normalized (filename : Str) (th : TarHeader) (st : ScanState)
    (h : ∀ p ∈ st.links, normalized_key p.1) :
    ∀ p ∈ (add_entry filename th st).links, normalized_key p.1 := by
  intro p hp
  rcases add_entry_temp_mem filename th st p hp with hold | ⟨hne, hk⟩
  · exact h p hold
  · rw [hk]
    exact SimplifyFileName_normalized _ hne

/-- Claim C25: the invariant of `files` (every key is not empty, has no uppercase ASCII
letter and no `'/'` other than the path separator of the platform) holds in the empty
index and is kept by the insertion of a regular file in `TarCache::add`, whose key is the
simplified name, by the insertion of a file alias in `TarCache::add_link` for a normalized
source, and by `TarCache::add` as a whole. -/
theorem files_invariant_kept (disk : Disk) (fuel : Nat) (tc : TarCache) (filename : Str)
    (b : Bool) (tc' : TarCache) (srcp destp : Str) (th : TarHeader) (st : ScanState) :
    files_invariant TarCache.empty.files ∧
    (∀ name : Str, name.length ≠ 0 → normalized_key (SimplifyFileName name)) ∧
    (files_invariant st.tc.files → files_invariant (add_entry filename th st).tc.files) ∧
    (files_invariant tc.files → normalized_key srcp →
      files_invariant (TarCache.add_link tc srcp destp).files) ∧
    (files_invariant tc.files → TarCache.add disk fuel tc filename = some (b, tc') →
      files_invariant tc'.files) := by
  refine ⟨?_, SimplifyFileName_normalized, add_entry_files_invariant filename th st,
    add_link_files_invariant tc srcp destp, ?_⟩
  · intro p hp
    simp [TarCache.empty] at hp
  · intro h ha
    rcases add_cases disk fuel tc filename b tc' ha with he | ⟨content, st1, _, hl, hr⟩
    · rw [he]
      exact h
    · have hinv := add_loop_invariant
        (fun s => files_invariant s.tc.files ∧ ∀ p ∈ s.links, normalized_key p.1)
        filename content (fun _ _ h => h)
        (fun th s hs => ⟨add_entry_files_invariant filename th s hs.1,
          add_entry_temp_normalized filename th s hs.2⟩)
        fuel _ b st1 ⟨h, by simp⟩ hl
      rcases hr with ⟨_, he⟩ | ⟨_, he⟩
      · rw [he]
        exact hinv.1
      · rw [he]
        exact add_links_files_invariant st1.links st1.tc hinv.1 hinv.2

set_option maxRecDepth 100000 in
/-- Claim C25, on an instance: the keys `a/x` (a regular file stored as `A/X`) and `b` (a
link to it) that `TarCache::add` builds from `alias_archive` in the empty index are
normalized. -/
theorem files_invariant_kept_witness :
    TarCache.add (ex_disk alias_archive) 8 TarCache.empty ex_tar = some (true, alias_index) ∧
    files_invariant alias_index.files :=
  ⟨by decide,
    (files_invariant_kept (ex_disk alias_archive) 8 TarCache.empty ex_tar true alias_index
      [] [] [] ⟨TarCache.empty, [], 0, 0⟩).2.2.2.2
      (by intro p hp; simp [TarCache.empty] at hp) (by decide)⟩

/-! ## The destination of a link -/

theorem link_components_ne_nil (s : Str) : link_components s ≠ [] := by
  cases s with
  | nil => simp [link_components]
  | cons c cs =>
    simp only [link_components]
    split
    · simp
    · split <;> simp

theorem link_components_no_sep (s : Str) : ∀ c ∈ link_components s, PATHSEPCHAR ∉ c := by
  induction s with
  | nil =>
    intro c hc
    simp only [link_components, List.mem_singleton] at hc
    rw [hc]
    simp
  | cons x cs ih =>
    intro c hc
    simp only [link_components] at hc
    by_cases hx : x = PATHSEPCHAR
    · rw [if_pos hx] at hc
      rcases List.mem_cons.mp hc with h | h
      · rw [h]
        simp
      · exact ih c h
    · rw [if_neg hx] at hc
      cases hl : link_components cs with
      | nil => exact absurd hl (link_components_ne_nil cs)
      | cons h t =>
        rw [hl] at hc ih
        rcases List.mem_cons.mp hc with h1 | h1
        · rw [h1]
          intro hm
          rcases List.mem_cons.mp hm with h2 | h2
          · exact hx h2.symm
          · exact ih h (List.mem_cons_self _ _) h2
        · exact ih c (List.mem_cons_of_mem _ h1)

theorem link_components_of_no_sep (s : Str) (h : PATHSEPCHAR ∉ s) : link_components s = [s] := by
  induction s with
  | nil => rfl
  | cons x cs ih =>
    have hx : ¬ x = PATHSEPCHAR := fun he => h (by simp [he])
    have hcs : PATHSEPCHAR ∉ cs := fun hm => h (List.mem_cons_of_mem _ hm)
    simp only [link_components, if_neg hx, ih hcs]

theorem link_components_append (d comp : Str) (h : PATHSEPCHAR ∉ comp) :
    link_components (d ++ PATHSEPCHAR :: comp) = link_components d ++ [comp] := by
  induction d with
  | nil =>
    simp only [List.nil_append, link_components, if_true, link_components_of_no_sep comp h]
    rfl
  | cons x d ih =>
    rw [List.cons_append]
    by_cases hx : x = PATHSEPCHAR
    · simp only [link_components, if_pos hx, ih, List.cons_append]
    · simp only [link_components, if_neg hx, ih]
      cases hl : link_components d with
      | nil => exact absurd hl (link_components_ne_nil d)
      | cons a t => rfl

theorem truncate_at_last_sep_of_no_sep (s : Str) (h : PATHSEPCHAR ∉ s) :
    truncate_at_last_sep s = [] := by
  cases s with
  | nil => rfl
  | cons x cs =>
    have hcs : PATHSEPCHAR ∉ cs := fun hm => h (List.mem_cons_of_mem _ hm)
    simp only [truncate_at_last_sep, if_neg hcs]

theorem link_components_two (s : Str) (h : PATHSEPCHAR ∈ s) :
    ∃ a b t, link_components s = a :: b :: t := by
  induction s with
  | nil => simp at h
  | cons x cs ih =>
    simp only [link_components]
    by_cases hx : x = PATHSEPCHAR
    · rw [if_pos hx]
      cases hl : link_components cs with
      | nil => exact absurd hl (link_components_ne_nil cs)
      | cons a t => exact ⟨[], a, t, rfl⟩
    · rw [if_neg hx]
      have hcs : PATHSEPCHAR ∈ cs := by
        rcases List.mem_cons.mp h with h1 | h1
        · exact absurd h1.symm hx
        · exact h1
      obtain ⟨a, b, t, hl⟩ := ih hcs
      rw [hl]
      exact ⟨x :: a, b, t, rfl⟩

theorem link_components_truncate (s : Str) (h : PATHSEPCHAR ∈ s) :
    link_components (truncate_at_last_sep s) = (link_components s).dropLast := by
  induction s with
  | nil => simp at h
  | cons x cs ih =>
    by_cases hcs : PATHSEPCHAR ∈ cs
    · obtain ⟨a, b, t, hl⟩ := link_components_two cs hcs
      have ih' := ih hcs
      rw [hl] at ih'
      simp only [truncate_at_last_sep, if_pos hcs]
      by_cases hx : x = PATHSEPCHAR
      · simp only [link_components, if_pos hx, ih', hl, List.dropLast_cons₂]
      · simp only [link_components, if_neg hx, ih', hl, List.dropLast_cons₂]
    · have hx : x = PATHSEPCHAR := by
        rcases List.mem_cons.mp h with h1 | h1
        · exact h1.symm
        · exact absurd h1 hcs
      simp only [truncate_at_last_sep, if_neg hcs, link_components, if_pos hx,
        link_components_of_no_sep cs hcs]
      rfl

theorem no_dot_components_truncate (s : Str) (h : no_dot_components s) :
    no_dot_components (truncate_at_last_sep s) := by
  by_cases hs : PATHSEPCHAR ∈ s
  · intro c hc
    rw [link_components_truncate s hs] at hc
    exact h c (List.dropLast_subset _ hc)
  · rw [truncate_at_last_sep_of_no_sep s hs]
    intro c hc
    simp only [link_components, List.mem_singleton] at hc
    rw [hc]
    exact ⟨by decide, by decide⟩

theorem no_dot_components_resolve (comps : List Str) (dest : Str)
    (hd : no_dot_components dest) (hc : ∀ c ∈ comps, PATHSEPCHAR ∉ c) :
    no_dot_components (resolve_link_components dest comps) := by
  induction comps generalizing dest with
  | nil => exact hd
  | cons comp rest ih =>
    have hrest : ∀ c ∈ rest, PATHSEPCHAR ∉ c := fun c h => hc c (List.mem_cons_of_mem _ h)
    have hcomp : PATHSEPCHAR ∉ comp := hc comp (List.mem_cons_self _ _)
    simp only [resolve_link_components]
    by_cases h1 : comp = ['.']
    · simp only [h1, if_true]
      exact ih dest hd hrest
    · simp only [h1, if_false]
      by_cases h2 : comp = ['.', '.']
      · simp only [h2, if_true]
        by_cases h3 : dest = []
        · simp only [h3, if_true]
          rw [h3] at hd
          exact hd
        · simp only [h3, if_false]
          exact ih _ (no_dot_components_truncate dest hd) hrest
      · simp only [h2, if_false]
        apply ih _ _ hrest
        by_cases h3 : dest = []
        · simp only [h3, ne_eq, not_true_eq_false, if_false, List.nil_append]
          intro c hm
          rw [link_components_of_no_sep comp hcomp, List.mem_singleton] at hm
          rw [hm]
          exact ⟨h1, h2⟩
        · simp only [h3, ne_eq, not_false_eq_true, if_true, List.append_assoc,
            List.singleton_append]
          intro c hm
          rw [link_components_append dest comp hcomp] at hm
          rcases List.mem_append.mp hm with h4 | h4
          · exact hd c h4
          · rw [List.mem_singleton] at h4
            rw [h4]
            exact ⟨h1, h2⟩

theorem join_link_components (l : Str) : join_components (link_components l) = l := by
  induction l with
  | nil => rfl
  | cons x cs ih =>
    simp only [link_components]
    by_cases hx : x = PATHSEPCHAR
    · rw [if_pos hx]
      cases hl : link_components cs with
      | nil => exact absurd hl (link_components_ne_nil cs)
      | cons a t =>
        rw [hl] at ih
        simp only [join_components, ih, List.nil_append, hx]
    · rw [if_neg hx]
      cases hl : link_components cs with
      | nil => exact absurd hl (link_components_ne_nil cs)
      | cons a t =>
        rw [hl] at ih
        cases t with
        | nil =>
          simp only [join_components] at ih ⊢
          rw [ih]
        | cons b t =>
          simp only [join_components] at ih ⊢
          rw [List.cons_append, ih]

theorem resolve_link_components_plain (comps : List Str) (hne : comps ≠ [])
    (h : ∀ c ∈ comps, c ≠ ['.'] ∧ c ≠ ['.', '.'] ∧ c ≠ []) (dest : Str) :
    resolve_link_components dest comps =
      if dest = [] then join_components comps
      else dest ++ [PATHSEPCHAR] ++ join_components comps := by
  induction comps generalizing dest with
  | nil => exact absurd rfl hne
  | cons comp rest ih =>
    obtain ⟨h1, h2, h3⟩ := h comp (List.mem_cons_self _ _)
    simp only [resolve_link_components, if_neg h1, if_neg h2]
    cases rest with
    | nil =>
      simp only [resolve_link_components, join_components]
      by_cases hd : dest = []
      · simp [hd]
      · simp [hd]
    | cons c' rest =>
      rw [ih (by simp) (fun c hc => h c (List.mem_cons_of_mem _ hc))]
      have hne' : (if dest ≠ [] then dest ++ [PATHSEPCHAR] else dest) ++ comp ≠ [] := by
        intro h0
        exact h3 (List.append_eq_nil.mp h0).2
      rw [if_neg hne']
      by_cases hd : dest = []
      · simp [hd, join_components]
      · simp [hd, join_components]

theorem path_algebra_resolve (comps : List Str) (dest d : Str)
    (h : path_algebra dest comps = some d) : resolve_link_components dest comps = d := by
  induction comps generalizing dest with
  | nil =>
    simp only [path_algebra, Option.some.injEq] at h
    exact h
  | cons comp rest ih =>
    simp only [path_algebra] at h
    simp only [resolve_link_components]
    by_cases h1 : comp = ['.']
    · rw [if_pos h1] at h ⊢
      exact ih dest h
    · rw [if_neg h1] at h ⊢
      by_cases h2 : comp = ['.', '.']
      · rw [if_pos h2] at h ⊢
        by_cases h3 : dest = []
        · rw [if_pos h3] at h
          simp at h
        · rw [if_neg h3] at h ⊢
          exact ih _ h
      · rw [if_neg h2] at h ⊢
        by_cases h3 : dest = []
        · rw [if_pos h3] at h
          simp only [h3, ne_eq, not_true_eq_false, if_false, List.nil_append]
          exact ih _ h
        · rw [if_neg h3] at h
          simp only [h3, ne_eq, not_false_eq_true, if_true]
          exact ih _ h

/-- Claim C21, as amended: for an entry name without a component `.` or `..` and every
link target, the destination that `TarCache::add` computes has no component `.` or `..`;
whenever the path algebra (skip `.`, drop the last component on `..`, append any other
component) does not ascend above the root, its result is that destination; and when the
target has no component `.`, `..` or empty, the destination is the target alone if the
directory part of the name is empty, and otherwise the directory part, one separator and
the target. -/
theorem link_destination_path_algebra (name link : Str) (hname : no_dot_components name) :
    no_dot_components (link_destination name link) ∧
    (∀ d, path_algebra (truncate_at_last_sep name) (link_components link) = some d →
      link_destination name link = d) ∧
    ((∀ c ∈ link_components link, c ≠ ['.'] ∧ c ≠ ['.', '.'] ∧ c ≠ []) →
      link_destination name link =
        if truncate_at_last_sep name = [] then link
        else truncate_at_last_sep name ++ [PATHSEPCHAR] ++ link) := by
  refine ⟨?_, ?_, ?_⟩
  · exact no_dot_components_resolve _ _ (no_dot_components_truncate name hname)
      (link_components_no_sep link)
  · intro d hd
    exact path_algebra_resolve _ _ d hd
  · intro h
    unfold link_destination
    rw [resolve_link_components_plain _ (link_components_ne_nil link) h, join_link_components]

/-- Claim C21, on an instance: the link `gui/skin/cur -> ../base/./arrow` gets the
destination `gui/base/arrow`, and the link `gui/cur -> base/arrow` the destination
`gui/base/arrow`, its directory `gui` joined with the target. -/
theorem link_destination_path_algebra_witness :
    no_dot_components (link_destination "gui/skin/cur".toList "../base/./arrow".toList) ∧
    link_destination "gui/skin/cur".toList "../base/./arrow".toList = "gui/base/arrow".toList ∧
    link_destination "gui/cur".toList "base/arrow".toList =
      (if truncate_at_last_sep "gui/cur".toList = [] then "base/arrow".toList
       else truncate_at_last_sep "gui/cur".toList ++ [PATHSEPCHAR] ++ "base/arrow".toList) :=
  ⟨(link_destination_path_algebra "gui/skin/cur".toList "../base/./arrow".toList
      (by unfold no_dot_components; decide)).1,
    (link_destination_path_algebra "gui/skin/cur".toList "../base/./arrow".toList
      (by unfold no_dot_components; decide)).2.1 "gui/base/arrow".toList (by decide),
    (link_destination_path_algebra "gui/cur".toList "base/arrow".toList
      (by unfold no_dot_components; decide)).2.2 (by decide)⟩

set_option maxRecDepth 100000 in
/-- Claim C21 fails as stated.  The entry name `/x` has a separator and the target `t` has
no component `.`, `..` or empty, but the destination collected for the link header
`/x -> t` is `t` alone and not the directory part of the name, a separator and `t`,
because the directory part is empty.  And for the entry `a` with the target `../b`, which
ascends above the root, the loop stops at `..` and the destination kept is empty, where
the path algebra gives no destination. -/
theorem link_destination_empty_directory :
    (add_entry ex_tar (mk_header "/x".toList "00000000000".toList '2' "t".toList)
      ⟨TarCache.empty, [], 0, 512⟩).links = [("/x".toList, "t".toList)] ∧
    PATHSEPCHAR ∈ "/x".toList ∧
    no_dot_components "/x".toList ∧
    (∀ c ∈ link_components "t".toList, c ≠ ['.'] ∧ c ≠ ['.', '.'] ∧ c ≠ []) ∧
    link_destination "/x".toList "t".toList = "t".toList ∧
    link_destination "/x".toList "t".toList ≠
      truncate_at_last_sep "/x".toList ++ [PATHSEPCHAR] ++ "t".toList ∧
    link_destination "a".toList "../b".toList = [] ∧
    path_algebra (truncate_at_last_sep "a".toList) (link_components "../b".toList) = none := by
  unfold no_dot_components
  decide

/-! ## Single passes of the header loop -/

theorem add_entry_pos (filename : Str) (th : TarHeader) (st : ScanState) :
    (add_entry filename th st).pos = st.pos := by
  unfold add_entry
  simp only
  repeat' split
  all_goals rfl

/-- What a complete pass of the header loop does: the header is a full block with a valid
magic, the maps are those that `add_entry` leaves, and the offset moves over the header
and the aligned size. -/
theorem add_header_next (filename : Str) (content : List Char) (st st' : ScanState)
    (h : add_header filename content st = HeaderStep.next st') :
    (header_at content st.pos).length = 512 ∧ valid_magic (header_at content st.pos) = true ∧
    st'.tc = (add_entry filename (header_at content st.pos)
      { st with pos := (st.pos + 512) % 2 ^ 64 }).tc ∧
    st'.links = (add_entry filename (header_at content st.pos)
      { st with pos := (st.pos + 512) % 2 ^ 64 }).links ∧
    st'.pos = ((st.pos + 512) % 2 ^ 64 +
      Align (header_skip (header_at content st.pos)) 512) % 2 ^ 64 := by
  unfold add_header at h
  by_cases h1 : (header_at content st.pos).length ≠ 512
  · simp only [if_pos h1] at h
    cases h
  · by_cases h2 : valid_magic (header_at content st.pos) = false
    · simp only [if_neg h1, if_pos h2] at h
      cases h
    · by_cases h3 : fseek_cur_fails (add_entry filename (header_at content st.pos)
          { st with pos := (st.pos + 512) % 2 ^ 64 }).pos
          (Align (header_skip (header_at content st.pos)) 512) = true
      · simp only [if_neg h1, if_neg h2, if_pos h3] at h
        cases h
      · simp only [if_neg h1, if_neg h2, if_neg h3, HeaderStep.next.injEq] at h
        rw [← h]
        refine ⟨by simpa using h1, by simpa using h2, rfl, rfl, ?_⟩
        simp only [add_entry_pos]

/-- The header loop that passed `i` headers goes on from the state after them. -/
theorem add_loop_split (filename : Str) (content : List Char) (i fuel : Nat)
    (st st_i : ScanState) (r : Bool × ScanState)
    (hi : add_headers filename content i st = some st_i)
    (hl : add_loop filename content fuel st = some r) :
    ∃ k, add_loop filename content k st_i = some r := by
  induction i generalizing st fuel with
  | zero =>
    simp only [add_headers, Option.some.injEq] at hi
    rw [← hi]
    exact ⟨fuel, hl⟩
  | succ i ih =>
    unfold add_headers at hi
    cases hs : add_header filename content st with
    | done => rw [hs] at hi; simp at hi
    | failed s => rw [hs] at hi; simp at hi
    | next s =>
      rw [hs] at hi
      cases fuel with
      | zero => simp [add_loop] at hl
      | succ fuel =>
        unfold add_loop at hl
        rw [hs] at hl
        exact ih fuel s hi hl

/-- A property that `add_entry` keeps, that does not depend on the offset and that holds
after the `switch` of a pass on a full block with a valid magic holds when the header loop
is left. -/
theorem add_loop_after_entry (P : ScanState → Prop) (filename : Str) (content : List Char)
    (hpos : ∀ st p, P st → P { st with pos := p })
    (hent : ∀ th st, P st → P (add_entry filename th st))
    (fuel : Nat) (st : ScanState) (b : Bool) (st' : ScanState)
    (hlen : (header_at content st.pos).length = 512)
    (hvalid : valid_magic (header_at content st.pos) = true)
    (hP : P (add_entry filename (header_at content st.pos)
      { st with pos := (st.pos + 512) % 2 ^ 64 }))
    (hl : add_loop filename content fuel st = some (b, st')) : P st' := by
  cases fuel with
  | zero => simp [add_loop] at hl
  | succ fuel =>
    unfold add_loop at hl
    have h1 : ¬ (header_at content st.pos).length ≠ 512 := by simp [hlen]
    have h2 : ¬ valid_magic (header_at content st.pos) = false := by simp [hvalid]
    have hstep : add_header filename content st =
        if fseek_cur_fails (add_entry filename (header_at content st.pos)
          { st with pos := (st.pos + 512) % 2 ^ 64 }).pos
          (Align (header_skip (header_at content st.pos)) 512) = true
        then HeaderStep.failed (add_entry filename (header_at content st.pos)
          { st with pos := (st.pos + 512) % 2 ^ 64 })
        else HeaderStep.next { add_entry filename (header_at content st.pos)
            { st with pos := (st.pos + 512) % 2 ^ 64 } with
          pos := ((add_entry filename (header_at content st.pos)
            { st with pos := (st.pos + 512) % 2 ^ 64 }).pos +
            Align (header_skip (header_at content st.pos)) 512) % 2 ^ 64 } := by
      unfold add_header
      simp only [if_neg h1, if_neg h2]
    by_cases h3 : fseek_cur_fails (add_entry filename (header_at content st.pos)
        { st with pos := (st.pos + 512) % 2 ^ 64 }).pos
        (Align (header_skip (header_at content st.pos)) 512) = true
    · rw [if_pos h3] at hstep
      rw [hstep] at hl
      simp only [Option.some.injEq, Prod.mk.injEq] at hl
      rw [← hl.2]
      exact hP
    · rw [if_neg h3] at hstep
      rw [hstep] at hl
      exact add_loop_invariant P filename content hpos hent fuel _ b st' (hpos _ _ hP) hl

theorem add_of_open (disk : Disk) (fuel : Nat) (tc : TarCache) (filename : Str)
    (content : List Char) (st : ScanState)
    (hnew : StdMap.find tc.tars filename = none)
    (hopen : disk.fopen filename "rb".toList = some content)
    (hl : add_loop filename content fuel (scan_start tc filename) = some (true, st)) :
    TarCache.add disk fuel tc filename = some (true, add_links st.tc st.links) := by
  unfold scan_start at hl
  unfold TarCache.add
  simp only [hnew, hopen, hl]

theorem add_entry_regular_files (filename : Str) (th : TarHeader) (st : ScanState)
    (h : regular_file_header th = true) :
    (add_entry filename th st).tc.files =
      (StdMap.insert st.tc.files (SimplifyFileName (header_name th))
        ⟨filename, header_skip th, st.pos⟩).1 := by
  unfold regular_file_header at h
  simp only [Bool.and_eq_true, decide_eq_true_eq] at h
  obtain ⟨⟨⟨⟨_, _⟩, hflag⟩, hskip⟩, hname⟩ := h
  unfold add_entry
  simp only [if_pos hflag, if_neg hskip, if_neg hname]

theorem add_entry_link_links (filename : Str) (th : TarHeader) (st : ScanState)
    (h : relative_link_header th = true) :
    (add_entry filename th st).links =
      (StdMap.insert st.links (SimplifyFileName (header_name th))
        (link_destination (SimplifyFileName (header_name th))
          (SimplifyFileName (field_string (TarHeader.linkname th))))).1 := by
  unfold relative_link_header at h
  simp only [Bool.and_eq_true, decide_eq_true_eq] at h
  obtain ⟨⟨⟨⟨⟨_, _⟩, hflag⟩, hname⟩, hlink⟩, hrel⟩ := h
  have hnot : ¬ (TarHeader.typeflag th = Char.ofNat 0 ∨ TarHeader.typeflag th = '0') := by
    rcases hflag with h1 | h1 <;> rw [h1] <;> decide
  have hne : ¬ ((header_name th).length = 0 ∨
      (field_string (TarHeader.linkname th)).length = 0) := by
    intro h0
    rcases h0 with h0 | h0
    · exact hname h0
    · exact hlink h0
  unfold add_entry
  simp only [if_neg hnot, if_pos hflag, if_neg hne, if_neg hrel]

theorem header_full_of_regular (th : TarHeader) (h : regular_file_header th = true) :
    th.length = 512 ∧ valid_magic th = true := by
  unfold regular_file_header at h
  simp only [Bool.and_eq_true, decide_eq_true_eq] at h
  exact ⟨h.1.1.1.1, h.1.1.1.2⟩

theorem header_full_of_link (th : TarHeader) (h : relative_link_header th = true) :
    th.length = 512 ∧ valid_magic th = true := by
  unfold relative_link_header at h
  simp only [Bool.and_eq_true, decide_eq_true_eq] at h
  exact ⟨h.1.1.1.1.1, h.1.1.1.1.2⟩

/-! ## The offsets recorded for the members -/

theorem Align_512 (s : Nat) : Align s 512 = round_up_512 s % 2 ^ 64 := by
  unfold Align round_up_512
  omega

theorem passed_sizes_headers (filename : Str) (content : List Char) (n : Nat)
    (st st' : ScanState) (sizes : List Nat)
    (h : passed_sizes filename content n st = some (sizes, st')) :
    add_headers filename content n st = some st' ∧ sizes.length = n := by
  induction n generalizing st sizes with
  | zero =>
    simp only [passed_sizes, Option.some.injEq, Prod.mk.injEq] at h
    rw [← h.1, ← h.2]
    exact ⟨rfl, rfl⟩
  | succ n ih =>
    unfold passed_sizes at h
    unfold add_headers
    cases hs : add_header filename content st with
    | done => rw [hs] at h; simp at h
    | failed s => rw [hs] at h; simp at h
    | next s =>
      rw [hs] at h
      simp only at h ⊢
      cases hp : passed_sizes filename content n s with
      | none => rw [hp] at h; simp at h
      | some r =>
        obtain ⟨sz, s'⟩ := r
        rw [hp] at h
        simp only [Option.some.injEq, Prod.mk.injEq] at h
        obtain ⟨hsz, hst⟩ := h
        subst hst
        subst hsz
        obtain ⟨h1, h2⟩ := ih s sz hp
        exact ⟨h1, by simp [h2]⟩

theorem passed_sizes_pos (filename : Str) (content : List Char) (n : Nat)
    (st st' : ScanState) (sizes : List Nat)
    (h : passed_sizes filename content n st = some (sizes, st')) :
    st'.pos % 2 ^ 64 = (st.pos + 512 * n + (sizes.map round_up_512).sum) % 2 ^ 64 := by
  induction n generalizing st sizes with
  | zero =>
    simp only [passed_sizes, Option.some.injEq, Prod.mk.injEq] at h
    rw [← h.1, ← h.2]
    simp
  | succ n ih =>
    unfold passed_sizes at h
    cases hs : add_header filename content st with
    | done => rw [hs] at h; simp at h
    | failed s => rw [hs] at h; simp at h
    | next s =>
      rw [hs] at h
      simp only at h
      cases hp : passed_sizes filename content n s with
      | none => rw [hp] at h; simp at h
      | some r =>
        obtain ⟨sz, s'⟩ := r
        rw [hp] at h
        simp only [Option.some.injEq, Prod.mk.injEq] at h
        obtain ⟨hsz, hst⟩ := h
        subst hst
        subst hsz
        have h1 := ih s sz hp
        have h2 := (add_header_next filename content st s hs).2.2.2.2
        rw [Align_512] at h2
        simp only [List.map_cons, List.sum_cons]
        rw [h1, h2]
        omega

theorem body_offset_dvd (sizes : List Nat) : 512 ∣ body_offset sizes := by
  unfold body_offset
  apply Nat.dvd_add (Nat.dvd_mul_right _ _)
  apply List.dvd_sum
  intro x hx
  obtain ⟨s, _, hs⟩ := List.mem_map.mp hx
  rw [← hs]
  exact Nat.dvd_mul_left _ _

/-- Claim C22, as amended: when the header loop of `TarCache::add` has passed headers with
the parsed sizes `sizes` and comes to a header that it records as a regular file under a
name not yet in `files`, the entry that `files` holds for that name after `add` has the
parsed size of the header as its size and, as its position, 512 for each header so far
plus the sizes before rounded up to multiples of 512, reduced modulo `2 ^ 64`.  That is
the offset behind the header block, it is a multiple of 512, and it is the sum itself when
the sum is below `2 ^ 64`. -/
theorem recorded_body_offset (disk : Disk) (fuel : Nat) (tc : TarCache) (filename : Str)
    (content : List Char) (i : Nat) (sizes : List Nat) (st : ScanState) (b : Bool)
    (tc' : TarCache) (hnew : StdMap.find tc.tars filename = none)
    (hopen : disk.fopen filename "rb".toList = some content)
    (ha : TarCache.add disk fuel tc filename = some (b, tc'))
    (hpass : passed_sizes filename content i (scan_start tc filename) = some (sizes, st))
    (hreg : regular_file_header (header_at content st.pos) = true)
    (habsent : StdMap.find st.tc.files
      (SimplifyFileName (header_name (header_at content st.pos))) = none) :
    sizes.length = i ∧
    StdMap.find tc'.files (SimplifyFileName (header_name (header_at content st.pos))) =
      some ⟨filename, header_skip (header_at content st.pos), body_offset sizes % 2 ^ 64⟩ ∧
    (st.pos + 512) % 2 ^ 64 = body_offset sizes % 2 ^ 64 ∧
    512 ∣ body_offset sizes % 2 ^ 64 ∧
    (body_offset sizes < 2 ^ 64 → body_offset sizes % 2 ^ 64 = body_offset sizes) := by
  obtain ⟨hheaders, hlength⟩ := passed_sizes_headers filename content i _ st sizes hpass
  have hposition : (st.pos + 512) % 2 ^ 64 = body_offset sizes % 2 ^ 64 := by
    have h := passed_sizes_pos filename content i _ st sizes hpass
    have h0 : (scan_start tc filename).pos = 0 := rfl
    rw [h0] at h
    unfold body_offset
    rw [hlength]
    omega
  refine ⟨hlength, ?_, hposition, ?_, fun h => Nat.mod_eq_of_lt h⟩
  · obtain ⟨hlen, hvalid⟩ := header_full_of_regular _ hreg
    have hentry : StdMap.find (add_entry filename (header_at content st.pos)
        { st with pos := (st.pos + 512) % 2 ^ 64 }).tc.files
        (SimplifyFileName (header_name (header_at content st.pos))) =
        some ⟨filename, header_skip (header_at content st.pos),
          body_offset sizes % 2 ^ 64⟩ := by
      rw [add_entry_regular_files filename _ _ hreg, ← hposition]
      exact StdMap.find_insert_self _ _ _ habsent
    have hend : ∀ b' st_e, add_loop filename content fuel (scan_start tc filename) =
        some (b', st_e) →
        StdMap.find st_e.tc.files (SimplifyFileName (header_name (header_at content st.pos))) =
          some ⟨filename, header_skip (header_at content st.pos),
            body_offset sizes % 2 ^ 64⟩ := by
      intro b' st_e hl
      obtain ⟨k, hk⟩ := add_loop_split filename content i fuel _ st (b', st_e) hheaders hl
      exact add_loop_after_entry
        (fun s => StdMap.find s.tc.files
          (SimplifyFileName (header_name (header_at content st.pos))) =
          some ⟨filename, header_skip (header_at content st.pos),
            body_offset sizes % 2 ^ 64⟩)
        filename content (fun _ _ h => h)
        (fun th s h => add_entry_files_kept filename th s _ _ h)
        k st b' st_e hlen hvalid hentry hk
    unfold TarCache.add at ha
    simp only [hnew, hopen] at ha
    cases hl : add_loop filename content fuel (scan_start tc filename) with
    | none =>
      unfold scan_start at hl
      rw [hl] at ha
      simp at ha
    | some r =>
      obtain ⟨b', st_e⟩ := r
      have he := hend b' st_e hl
      unfold scan_start at hl
      rw [hl] at ha
      cases b' with
      | false =>
        simp only [Option.some.injEq, Prod.mk.injEq] at ha
        rw [← ha.2]
        exact he
      | true =>
        simp only [Option.some.injEq, Prod.mk.injEq] at ha
        rw [← ha.2]
        exact add_links_files_kept _ _ _ _ he
  · exact (Nat.dvd_mod_iff (by norm_num)).mpr (body_offset_dvd sizes)

set_option maxRecDepth 100000 in
/-- Claim C22, on an instance: in `data_archive` the header of `data/readme.txt` follows
one header of size 0, and the entry recorded for it has the size 5 and the position
`512 * 2 + 0`. -/
theorem recorded_body_offset_witness :
    [0].length = 1 ∧
    StdMap.find data_index.files
        (SimplifyFileName (header_name (header_at data_archive data_pass.pos))) =
      some ⟨ex_tar, header_skip (header_at data_archive data_pass.pos),
        body_offset [0] % 2 ^ 64⟩ ∧
    (data_pass.pos + 512) % 2 ^ 64 = body_offset [0] % 2 ^ 64 ∧
    512 ∣ body_offset [0] % 2 ^ 64 ∧
    (body_offset [0] < 2 ^ 64 → body_offset [0] % 2 ^ 64 = body_offset [0]) :=
  recorded_body_offset (ex_disk data_archive) 8 TarCache.empty ex_tar data_archive 1 [0]
    data_pass true data_index (by decide) (by rfl) (by decide) (by decide) (by decide)
    (by decide)

set_option maxRecDepth 100000 in
/-- Claim C22 fails as stated: in `wrap_archive` every header has a valid magic, and the
header loop reads the headers of `f` (size 1024), of `up` (size field `-2000`, parsed as
`2 ^ 64 - 1024`) and of `g`.  The position recorded for `g` is 1536, where its body
stands, and not `512 * 3` plus the two sizes rounded up, which is `2 ^ 64 + 1536`. -/
theorem recorded_offset_wraps :
    TarCache.add (ex_disk wrap_archive) 8 TarCache.empty ex_tar = some (true, wrap_index) ∧
    (passed_sizes ex_tar wrap_archive 2 (scan_start TarCache.empty ex_tar)).map
        (fun r => (r.1, r.2.pos)) = some ([1024, 2 ^ 64 - 1024], 1024) ∧
    regular_file_header (header_at wrap_archive 1024) = true ∧
    header_name (header_at wrap_archive 1024) = "g".toList ∧
    StdMap.find wrap_index.files "g".toList = some ⟨ex_tar, 5, 1536⟩ ∧
    body_offset [1024, 2 ^ 64 - 1024] = 2 ^ 64 + 1536 ∧
    body_offset [1024, 2 ^ 64 - 1024] ≠ 1536 := by
  decide

/-! ## Links to members, whatever the order of the headers -/

theorem add_entry_temp_kept (filename : Str) (th : TarHeader) (st : ScanState) (q v : Str)
    (h : StdMap.find st.links q = some v) :
    StdMap.find (add_entry filename th st).links q = some v := by
  unfold add_entry
  simp only
  repeat' split
  all_goals first
    | exact h
    | exact StdMap.find_insert_of_some _ _ _ _ _ h

theorem add_link_alias (tc : TarCache) (s d : Str) (e : TarFileListEntry)
    (hs : strtolower s = s) (hd : strtolower d = d) (hde : StdMap.find tc.files d = some e) :
    TarCache.add_link tc s d = { tc with files := (StdMap.insert tc.files s e).1 } := by
  unfold TarCache.add_link
  simp only [hs, hd, hde]

theorem add_link_files_other (tc : TarCache) (k v q : Str) (hk : strtolower k ≠ q) :
    StdMap.find (TarCache.add_link tc k v).files q = StdMap.find tc.files q := by
  unfold TarCache.add_link
  simp only
  split
  · exact StdMap.find_insert_ne _ _ _ _ hk
  · rfl

/-- A collected link whose destination is a key of `files` and whose source is not becomes
a file alias when the collected links are applied: the step for it leaves `links` as it
was and gives the source the entry of the destination, which the later steps keep. -/
theorem add_links_alias (links : StdMap Str) (tc : TarCache) (s d : Str)
    (e : TarFileListEntry) (hfind : StdMap.find links s = some d)
    (hkeys : ∀ p ∈ links, strtolower p.1 = p.1) (hs : strtolower s = s)
    (hd : strtolower d = d) (habs : StdMap.find tc.files s = none)
    (hde : StdMap.find tc.files d = some e) :
    StdMap.find (add_links tc links).files s = some e ∧
    ∃ pre post, links = pre ++ (s, d) :: post ∧
      (TarCache.add_link (add_links tc pre) s d).links = (add_links tc pre).links ∧
      StdMap.find (TarCache.add_link (add_links tc pre) s d).files s = some e := by
  induction links generalizing tc with
  | nil => simp [StdMap.find] at hfind
  | cons p rest ih =>
    obtain ⟨k, v⟩ := p
    unfold StdMap.find at hfind
    by_cases hk : k = s
    · rw [if_pos hk] at hfind
      simp only [Option.some.injEq] at hfind
      subst hk
      subst hfind
      have hstep := add_link_alias tc k v e hs hd hde
      have hnew : StdMap.find (TarCache.add_link tc k v).files k = some e := by
        rw [hstep]
        exact StdMap.find_insert_self _ _ _ habs
      refine ⟨?_, [], rest, rfl, ?_, ?_⟩
      · simp only [add_links]
        exact add_links_files_kept rest _ k e hnew
      · simp only [add_links]
        rw [hstep]
      · simp only [add_links]
        exact hnew
    · rw [if_neg hk] at hfind
      have hkl : strtolower k ≠ s := by
        rw [hkeys (k, v) (by simp)]
        exact hk
      have habs' : StdMap.find (TarCache.add_link tc k v).files s = none := by
        rw [add_link_files_other tc k v s hkl]
        exact habs
      have hde' : StdMap.find (TarCache.add_link tc k v).files d = some e :=
        add_link_files_kept tc k v d e hde
      obtain ⟨h1, pre, post, h2, h3, h4⟩ :=
        ih (TarCache.add_link tc k v) hfind (fun p hp => hkeys p (by simp [hp])) habs' hde'
      refine ⟨?_, (k, v) :: pre, post, ?_, ?_, ?_⟩
      · simp only [add_links]
        exact h1
      · rw [h2]
        rfl
      · simp only [add_links]
        exact h3
      · simp only [add_links]
        exact h4

theorem name_of_regular (th : TarHeader) (h : regular_file_header th = true) :
    (header_name th).length ≠ 0 := by
  unfold regular_file_header at h
  simp only [Bool.and_eq_true, decide_eq_true_eq] at h
  exact h.2

theorem name_of_link (th : TarHeader) (h : relative_link_header th = true) :
    (header_name th).length ≠ 0 := by
  unfold relative_link_header at h
  simp only [Bool.and_eq_true, decide_eq_true_eq] at h
  exact h.1.1.2

/-- Claim C23, as amended: let the header loop of `TarCache::add` run to the end of an
archive, and let it pass, in whatever order, a header recorded as a regular file under the
name `d` and the first link header of the name `s`, whose resolved destination is `d`; let
`s` not be a key of `files` when the loop is left.  Then `add` succeeds, `files` holds the same entry
for `s` as for `d`, and the step that applies the collected link leaves `links` as it
was. -/
theorem link_to_member_any_order (disk : Disk) (fuel : Nat) (tc : TarCache) (filename : Str)
    (content : List Char) (i j : Nat) (st_i st_j st_e : ScanState) (s d : Str)
    (hnew : StdMap.find tc.tars filename = none)
    (hopen : disk.fopen filename "rb".toList = some content)
    (hloop : add_loop filename content fuel (scan_start tc filename) = some (true, st_e))
    (hi : add_headers filename content i (scan_start tc filename) = some st_i)
    (hfile : regular_file_header (header_at content st_i.pos) = true)
    (hd : d = SimplifyFileName (header_name (header_at content st_i.pos)))
    (hj : add_headers filename content j (scan_start tc filename) = some st_j)
    (hlink : relative_link_header (header_at content st_j.pos) = true)
    (hs : s = SimplifyFileName (header_name (header_at content st_j.pos)))
    (hfirst : StdMap.find st_j.links s = none)
    (hdest : link_destination s
      (SimplifyFileName (field_string (TarHeader.linkname (header_at content st_j.pos)))) = d)
    (hmember : StdMap.find st_e.tc.files s = none) :
    TarCache.add disk fuel tc filename = some (true, add_links st_e.tc st_e.links) ∧
    ∃ e, StdMap.find (add_links st_e.tc st_e.links).files d = some e ∧
      StdMap.find (add_links st_e.tc st_e.links).files s = some e ∧
      ∃ pre post, st_e.links = pre ++ (s, d) :: post ∧
        (TarCache.add_link (add_links st_e.tc pre) s d).links = (add_links st_e.tc pre).links ∧
        StdMap.find (TarCache.add_link (add_links st_e.tc pre) s d).files s = some e := by
  have hsn : normalized_key s := by
    rw [hs]
    exact SimplifyFileName_normalized _ (name_of_link _ hlink)
  have hdn : normalized_key d := by
    rw [hd]
    exact SimplifyFileName_normalized _ (name_of_regular _ hfile)
  -- the member is in `files` when the loop is left
  have hde : ∃ e, StdMap.find st_e.tc.files d = some e := by
    obtain ⟨k, hk⟩ := add_loop_split filename content i fuel _ st_i (true, st_e) hi hloop
    obtain ⟨hlen, hvalid⟩ := header_full_of_regular _ hfile
    refine add_loop_after_entry (fun st => ∃ e, StdMap.find st.tc.files d = some e)
      filename content (fun _ _ h => h)
      (fun th st h => by
        obtain ⟨e, he⟩ := h
        exact ⟨e, add_entry_files_kept filename th st d e he⟩)
      k st_i true st_e hlen hvalid ?_ hk
    beta_reduce
    rw [add_entry_regular_files filename _ _ hfile, ← hd]
    have hsome := StdMap.find_insert_isSome st_i.tc.files d d
      ⟨filename, header_skip (header_at content st_i.pos), (st_i.pos + 512) % 2 ^ 64⟩
    simp only [decide_True, Bool.true_or] at hsome
    exact Option.isSome_iff_exists.mp hsome
  -- the link is in the temporary list when the loop is left
  have hlk : StdMap.find st_e.links s = some d := by
    obtain ⟨k, hk⟩ := add_loop_split filename content j fuel _ st_j (true, st_e) hj hloop
    obtain ⟨hlen, hvalid⟩ := header_full_of_link _ hlink
    refine add_loop_after_entry (fun st => StdMap.find st.links s = some d)
      filename content (fun _ _ h => h)
      (fun th st h => add_entry_temp_kept filename th st s d h)
      k st_j true st_e hlen hvalid ?_ hk
    beta_reduce
    rw [add_entry_link_links filename _ _ hlink, ← hs, hdest]
    exact StdMap.find_insert_self _ _ _ hfirst
  -- the keys of the temporary list are normalized
  have hkeys : ∀ p ∈ st_e.links, strtolower p.1 = p.1 := by
    have hn := add_loop_invariant (fun st => ∀ p ∈ st.links, normalized_key p.1)
      filename content (fun _ _ h => h)
      (fun th st h => add_entry_temp_normalized filename th st h)
      fuel _ true st_e (by simp [scan_start]) hloop
    exact fun p hp => strtolower_normalized _ (hn p hp)
  obtain ⟨e, he⟩ := hde
  obtain ⟨h1, pre, post, h2, h3, h4⟩ := add_links_alias st_e.links st_e.tc s d e hlk hkeys
    (strtolower_normalized s hsn) (strtolower_normalized d hdn) hmember he
  exact ⟨add_of_open disk fuel tc filename content st_e hnew hopen hloop,
    e, add_links_files_kept _ _ _ _ he, h1, pre, post, h2, h3, h4⟩

set_option maxRecDepth 100000 in
/-- Claim C23, on an instance: the archive with the link `B -> A/X` before the member
`A/X` and the archive with the two headers in the other order both give `b` the entry of
`a/x`, and no link. -/
theorem link_to_member_any_order_witness :
    (TarCache.add (ex_disk alias_archive) 8 TarCache.empty ex_tar =
        some (true, add_links alias_end.tc alias_end.links) ∧
      ∃ e, StdMap.find (add_links alias_end.tc alias_end.links).files "a/x".toList = some e ∧
        StdMap.find (add_links alias_end.tc alias_end.links).files "b".toList = some e ∧
        ∃ pre post, alias_end.links = pre ++ ("b".toList, "a/x".toList) :: post ∧
          (TarCache.add_link (add_links alias_end.tc pre) "b".toList "a/x".toList).links =
            (add_links alias_end.tc pre).links ∧
          StdMap.find (TarCache.add_link (add_links alias_end.tc pre) "b".toList
            "a/x".toList).files "b".toList = some e) ∧
    (TarCache.add (ex_disk alias_archive_rev) 8 TarCache.empty ex_tar =
        some (true, add_links alias_rev_end.tc alias_rev_end.links) ∧
      ∃ e, StdMap.find (add_links alias_rev_end.tc alias_rev_end.links).files "a/x".toList =
          some e ∧
        StdMap.find (add_links alias_rev_end.tc alias_rev_end.links).files "b".toList =
          some e ∧
        ∃ pre post, alias_rev_end.links = pre ++ ("b".toList, "a/x".toList) :: post ∧
          (TarCache.add_link (add_links alias_rev_end.tc pre) "b".toList "a/x".toList).links =
            (add_links alias_rev_end.tc pre).links ∧
          StdMap.find (TarCache.add_link (add_links alias_rev_end.tc pre) "b".toList
            "a/x".toList).files "b".toList = some e) ∧
    (add_links alias_end.tc alias_end.links).links = [] ∧
    (add_links alias_rev_end.tc alias_rev_end.links).links = [] :=
  ⟨link_to_member_any_order (ex_disk alias_archive) 8 TarCache.empty ex_tar alias_archive
      1 0 alias_after_link (scan_start TarCache.empty ex_tar) alias_end "b".toList "a/x".toList
      (by decide) (by rfl) (by decide) (by decide) (by decide) (by decide) (by decide)
      (by decide) (by decide) (by decide) (by decide) (by decide),
    link_to_member_any_order (ex_disk alias_archive_rev) 8 TarCache.empty ex_tar
      alias_archive_rev 0 1 (scan_start TarCache.empty ex_tar) alias_rev_after_file
      alias_rev_end "b".toList "a/x".toList
      (by decide) (by rfl) (by decide) (by decide) (by decide) (by decide) (by decide)
      (by decide) (by decide) (by decide) (by decide) (by decide),
    by decide, by decide⟩

set_option maxRecDepth 100000 in
/-- Claim C23 fails as stated.  The archive `alias_corrupt_archive` holds the link
`B -> A/X`, the member `A/X` of 7 bytes and then a block that is no header: `TarCache::add`
returns false at that block, before the collected links are applied, and `files` has the
key `a/x` and no key `b`.  And when `b` is a key of `files` before `alias_archive` is
added, `b` keeps its entry, which is not the entry of `a/x`. -/
theorem link_to_member_needs_complete_scan :
    relative_link_header (header_at alias_corrupt_archive 0) = true ∧
    regular_file_header (header_at alias_corrupt_archive 512) = true ∧
    SimplifyFileName (header_name (header_at alias_corrupt_archive 0)) = "b".toList ∧
    SimplifyFileName (header_name (header_at alias_corrupt_archive 512)) = "a/x".toList ∧
    link_destination (SimplifyFileName (header_name (header_at alias_corrupt_archive 0)))
      (SimplifyFileName (field_string (TarHeader.linkname
        (header_at alias_corrupt_archive 0)))) = "a/x".toList ∧
    TarCache.add (ex_disk alias_corrupt_archive) 8 TarCache.empty ex_tar =
      some (false, ⟨alias_tars, [("a/x".toList, ⟨ex_tar, 7, 1024⟩)], []⟩) ∧
    TarCache.add (ex_disk alias_archive) 8 taken_index ex_tar =
      some (true, ⟨alias_tars, [("a/x".toList, ⟨ex_tar, 7, 1024⟩),
        ("b".toList, ⟨"/r/lang/other.tar".toList, 3, 512⟩)], []⟩) := by
  decide

end OpenTTD
